import Mathlib

/-!
# Prim's algorithm on adjacency lists (`src/code/prim_algorithm.cpp`)

A shallow embedding of `graphLibrary::primAlgorithm` and of its helper
`primAlgorithmOnAComponet`, the graph-theoretic notions needed to state what the
routine computes, and the theorems about it. All definitions come first, the
theorems follow.

Modelling choices.

* `size_t` vertices and counters are `Nat` (the counter never exceeds the vertex
  count), `ptrdiff_t` weights are `Int` (the code never does arithmetic on a
  weight, it only moves and compares them).
* `std::vector` is `List`; unchecked indexing `v[i]` out of range is the error
  `undefinedBehaviour`, bounds-checked `v.at(i)` out of range is `outOfRange`.
* `std::priority_queue` is library code; it is a parameter `EdgeQueue`, an
  abstract queue with the contract of the standard container adaptor. The
  theorems hold for every such queue, whatever it does with entries of equal
  weight; `listQueue` is one such queue, used to run the algorithm.
* The `while` loop is structurally recursive on a fuel argument; the driver passes
  a fuel that is never exhausted (`primAlgorithm_ne_outOfFuel`).
-/

namespace graphLibrary

/-- The pair `(neighbour, weight)` stored in an adjacency list:
`using WeightedEdge = pair<size_t, ptrdiff_t>`. -/
abbrev WeightedEdge := Nat × Int

/-- The triple `(source, target, weight)` stored in the frontier:
`using EdgeQueueElement = tuple<size_t, size_t, ptrdiff_t>`. -/
abbrev EdgeQueueElement := Nat × Nat × Int

/-- Adjacency-list graph: `vector< vector<WeightedEdge> >`. -/
abbrev Graph := List (List WeightedEdge)

/-- The comparator of the frontier, `get<2>(edge2) < get<2>(edge1)`. -/
def edgeEntryGreaterThanComparator (edge1 edge2 : EdgeQueueElement) : Bool :=
  decide (edge2.2.2 < edge1.2.2)

/-- Ways in which a run can end without a forest. -/
inductive PrimError where
  | outOfRange
  | undefinedBehaviour
  | outOfFuel
  deriving DecidableEq, Repr

/-- Relation between two queue states that hold the same entries up to the
relabelling `f`, and that stay so under every queue operation. -/
structure QueueSimulation {Q : Type} (empty : Q) (push : Q → EdgeQueueElement → Q)
    (pop : Q → Option (EdgeQueueElement × Q)) (isEmpty : Q → Bool)
    (f : EdgeQueueElement → EdgeQueueElement) (R : Q → Q → Prop) : Prop where
  empty_rel : R empty empty
  push_rel : ∀ q q' e, R q q' → R (push q e) (push q' (f e))
  isEmpty_rel : ∀ q q', R q q' → isEmpty q = isEmpty q'
  pop_none : ∀ q q', R q q' → pop q = none → pop q' = none
  pop_some : ∀ q q' e q1, R q q' → pop q = some (e, q1) →
    ∃ q1', pop q' = some (f e, q1') ∧ R q1 q1'

/-- The instantiated container adaptor
`priority_queue<EdgeQueueElement, vector<EdgeQueueElement>, edgeEntryGreaterThanComparator>`,
taken as a parameter. `pop` is `top()` followed by `pop()`; `toList` is the
content of the underlying container. The laws are the contract of the adaptor:
it is a bag, `top()` is an entry that the comparator puts below no other entry,
and it looks at its entries through the comparator only. -/
structure EdgeQueue where
  Q : Type
  empty : Q
  push : Q → EdgeQueueElement → Q
  pop : Q → Option (EdgeQueueElement × Q)
  isEmpty : Q → Bool
  toList : Q → List EdgeQueueElement
  toList_empty : toList empty = []
  toList_push : ∀ q e, (toList (push q e)).Perm (e :: toList q)
  isEmpty_iff : ∀ q, isEmpty q = true ↔ toList q = []
  pop_none_iff : ∀ q, pop q = none ↔ toList q = []
  pop_perm : ∀ q e q', pop q = some (e, q') → (toList q).Perm (e :: toList q')
  pop_top : ∀ q e q', pop q = some (e, q') →
    ∀ x ∈ toList q, edgeEntryGreaterThanComparator e x = false
  comparisonBased : ∀ f : EdgeQueueElement → EdgeQueueElement,
    (∀ a b, edgeEntryGreaterThanComparator (f a) (f b) = edgeEntryGreaterThanComparator a b) →
    ∃ R : Q → Q → Prop, QueueSimulation empty push pop isEmpty f R

/-- The state shared by the driver and the expansion procedure: the frontier,
`selectedVertexCount`, `vertexSelectStatus` and the forest under construction. -/
structure PrimState (pq : EdgeQueue) where
  edgeQueue : pq.Q
  selectedVertexCount : Nat
  vertexSelectStatus : List Bool
  tree : List (List WeightedEdge)

/-- The two `for (const WeightedEdge& edge : graph[x])` loops (lines 96-102 with
`x = v`, lines 123-129 with `x = i`): every entry whose neighbour is not yet
selected is put in the frontier; `vertexSelectStatus.at(edge.first)` throws
when the neighbour index is out of range. -/
def enqueueUnselected (pq : EdgeQueue) (x : Nat) (vertexSelectStatus : List Bool) :
    List WeightedEdge → pq.Q → Except PrimError pq.Q
  | [], edgeQueue => .ok edgeQueue
  | edge :: rest, edgeQueue =>
    match vertexSelectStatus[edge.1]? with
    | none => .error .outOfRange
    | some true => enqueueUnselected pq x vertexSelectStatus rest edgeQueue
    | some false =>
      enqueueUnselected pq x vertexSelectStatus rest (pq.push edgeQueue (x, edge.1, edge.2))

/-- The expansion procedure `primAlgorithmOnAComponet` (lines 68-105). One unit
of fuel is spent per evaluation of the loop condition. -/
def primAlgorithmOnAComponet (pq : EdgeQueue) (graph : Graph) :
    Nat → PrimState pq → Except PrimError (PrimState pq)
  | 0, _ => .error .outOfFuel
  | fuel + 1, s =>
    if pq.isEmpty s.edgeQueue then .ok s
    else
      match pq.pop s.edgeQueue with
      | none => .error .undefinedBehaviour
      | some ((u, v, w), edgeQueue) =>
        match s.vertexSelectStatus[v]? with
        | none => .error .undefinedBehaviour
        | some true => primAlgorithmOnAComponet pq graph fuel { s with edgeQueue := edgeQueue }
        | some false =>
          let vertexSelectStatus := s.vertexSelectStatus.set v true
          let selectedVertexCount := s.selectedVertexCount + 1
          match s.tree[u]? with
          | none => .error .undefinedBehaviour
          | some treeU =>
            let tree := s.tree.set u (treeU ++ [(v, w)])
            if ¬ (selectedVertexCount < graph.length) then
              .ok ⟨edgeQueue, selectedVertexCount, vertexSelectStatus, tree⟩
            else
              match graph[v]? with
              | none => .error .undefinedBehaviour
              | some adjacency =>
                match enqueueUnselected pq v vertexSelectStatus adjacency edgeQueue with
                | .error err => .error err
                | .ok edgeQueue' =>
                  primAlgorithmOnAComponet pq graph fuel
                    ⟨edgeQueue', selectedVertexCount, vertexSelectStatus, tree⟩

/-- Number of adjacency entries of the graph. -/
def edgeCount (graph : Graph) : Nat := (graph.map List.length).sum

/-- Fuel handed to each call of the expansion procedure. -/
def expansionFuel (graph : Graph) : Nat := edgeCount graph + 1

/-- The driver loop `for (size_t i = 0; i < graph.size(); ++i)` of `primAlgorithm`
(lines 114-142), over the indices still to be visited; its result is the forest
that `primAlgorithm` returns. -/
def driverLoop (pq : EdgeQueue) (graph : Graph) :
    List Nat → Nat → List Bool → List (List WeightedEdge) →
      Except PrimError (List (List WeightedEdge))
  | [], _, _, minimumSpanningTree => .ok minimumSpanningTree
  | i :: rest, selectedVertexCount, vertexSelectStatus, minimumSpanningTree =>
    match vertexSelectStatus[i]? with
    | none => .error .undefinedBehaviour
    | some true =>
      driverLoop pq graph rest selectedVertexCount vertexSelectStatus minimumSpanningTree
    | some false =>
      let vertexSelectStatus := vertexSelectStatus.set i true
      let selectedVertexCount := selectedVertexCount + 1
      match graph[i]? with
      | none => .error .undefinedBehaviour
      | some adjacency =>
        match enqueueUnselected pq i vertexSelectStatus adjacency pq.empty with
        | .error err => .error err
        | .ok edgeQueue =>
          let s : PrimState pq :=
            ⟨edgeQueue, selectedVertexCount, vertexSelectStatus, minimumSpanningTree⟩
          match (if ¬ pq.isEmpty edgeQueue then
                  primAlgorithmOnAComponet pq graph (expansionFuel graph) s
                else .ok s) with
          | .error err => .error err
          | .ok s' =>
            if ¬ (s'.selectedVertexCount < graph.length) then .ok s'.tree
            else driverLoop pq graph rest s'.selectedVertexCount s'.vertexSelectStatus s'.tree

/-- The entry point `primAlgorithm` (lines 107-145). -/
def primAlgorithm (pq : EdgeQueue) (graph : Graph) :
    Except PrimError (List (List WeightedEdge)) :=
  driverLoop pq graph (List.range graph.length) 0
    (List.replicate graph.length false) (List.replicate graph.length [])

/-! ## A reference queue -/

/-- Removes the first entry of least weight from a non-empty list, given as head
and tail: returns that entry and the remaining entries in their order. -/
def extractTop : EdgeQueueElement → List EdgeQueueElement →
    EdgeQueueElement × List EdgeQueueElement
  | e, [] => (e, [])
  | e, x :: rest =>
    let r := extractTop x rest
    if edgeEntryGreaterThanComparator e r.1 then (r.1, e :: r.2) else (e, x :: rest)

/-- Entries are kept in insertion order, `top()` is the first of least weight. -/
def listPop : List EdgeQueueElement → Option (EdgeQueueElement × List EdgeQueueElement)
  | [] => none
  | e :: rest => some (extractTop e rest)

/-- A reference implementation of the queue contract, used to run the algorithm on
concrete graphs: entries in insertion order, `top()` the first of least weight. -/
def listQueue : EdgeQueue where
  Q := List EdgeQueueElement
  empty := []
  push := fun q e => q ++ [e]
  pop := listPop
  isEmpty := List.isEmpty
  toList := fun q => q
  toList_empty := rfl
  toList_push := fun q e => List.perm_append_singleton e q
  isEmpty_iff := fun q => by cases q <;> simp
  pop_none_iff := fun q => by cases q <;> simp [listPop]
  pop_perm := fun q e q' h => by
    have key : ∀ (rest : List EdgeQueueElement) (a : EdgeQueueElement),
        (a :: rest).Perm ((extractTop a rest).1 :: (extractTop a rest).2) := by
      intro rest
      induction rest with
      | nil => intro a; simp [extractTop]
      | cons x rest ih =>
        intro a
        simp only [extractTop]
        split
        · exact ((ih x).cons a).trans (List.Perm.swap _ _ _)
        · exact List.Perm.refl _
    cases q with
    | nil => simp [listPop] at h
    | cons a rest =>
      simp only [listPop, Option.some.injEq] at h
      have := key rest a
      rw [h] at this
      exact this
  pop_top := fun q e q' h x hx => by
    have key : ∀ (rest : List EdgeQueueElement) (a : EdgeQueueElement),
        ∀ y ∈ a :: rest, (extractTop a rest).1.2.2 ≤ y.2.2 := by
      intro rest
      induction rest with
      | nil => intro a; simp [extractTop]
      | cons b rest ih =>
        intro a y hy
        simp only [extractTop]
        have hb := ih b
        split
        · rename_i hlt
          simp only [edgeEntryGreaterThanComparator, decide_eq_true_eq] at hlt
          rcases List.mem_cons.1 hy with rfl | hy
          · exact le_of_lt hlt
          · exact hb y hy
        · rename_i hlt
          simp only [edgeEntryGreaterThanComparator, decide_eq_true_eq, not_lt] at hlt
          rcases List.mem_cons.1 hy with rfl | hy
          · exact le_refl _
          · exact le_trans hlt (hb y hy)
    cases q with
    | nil => simp at hx
    | cons a rest =>
      simp only [listPop, Option.some.injEq] at h
      have := key rest a x hx
      rw [h] at this
      simpa [edgeEntryGreaterThanComparator] using this
  comparisonBased := fun f hf => by
    have key : ∀ (rest : List EdgeQueueElement) (a : EdgeQueueElement),
        extractTop (f a) (rest.map f) =
          (f (extractTop a rest).1, (extractTop a rest).2.map f) := by
      intro rest
      induction rest with
      | nil => intro a; simp [extractTop]
      | cons b rest ih =>
        intro a
        simp only [List.map_cons, extractTop, ih b, hf]
        split <;> simp
    refine ⟨fun q q' => q' = q.map f, ?_, ?_, ?_, ?_, ?_⟩
    · rfl
    · rintro q q' e rfl
      simp
    · rintro q q' rfl
      cases q <;> rfl
    · rintro q q' rfl h
      cases q with
      | nil => rfl
      | cons a rest => simp [listPop] at h
    · rintro q q' e q1 rfl h
      cases q with
      | nil => simp [listPop] at h
      | cons a rest =>
        simp only [listPop, Option.some.injEq] at h
        refine ⟨q1.map f, ?_, rfl⟩
        simp only [List.map_cons, listPop, key, h]

/-! ## Graphs, components, spanning trees -/

/-- The adjacency list `graph[u]`, empty for an index outside the graph. -/
def adj (graph : Graph) (u : Nat) : List WeightedEdge := graph.getD u []

/-- Every adjacency entry names a vertex of the graph. -/
def IndexValid (graph : Graph) : Prop :=
  ∀ adjacency ∈ graph, ∀ edge ∈ adjacency, edge.1 < graph.length

/-- Every edge is listed at both of its endpoints, with the same weight. -/
def Symmetric (graph : Graph) : Prop :=
  ∀ u v w, (v, w) ∈ adj graph u ↔ (u, w) ∈ adj graph v

/-- Two vertices joined by an adjacency entry, listed at either endpoint. -/
def Adjacent (graph : Graph) (u v : Nat) : Prop :=
  ∃ w, (v, w) ∈ adj graph u ∨ (u, w) ∈ adj graph v

/-- Two vertices joined by a path of the graph. -/
def Reach (graph : Graph) : Nat → Nat → Prop := Relation.ReflTransGen (Adjacent graph)

/-- The set `C` is a connected component: the vertices joined to one vertex `r`
of the graph. -/
def IsComponent (graph : Graph) (C : Finset Nat) : Prop :=
  ∃ r, r < graph.length ∧ ∀ v, v ∈ C ↔ Reach graph r v

/-- The number of connected components. -/
noncomputable def numComponents (graph : Graph) : Nat :=
  Set.ncard {C : Finset Nat | IsComponent graph C}

/-- The entries of `forest[k], forest[k+1], ...` as triples `(parent, child, weight)`. -/
def forestEdgesFrom : Nat → List (List WeightedEdge) → List EdgeQueueElement
  | _, [] => []
  | u, l :: rest => l.map (fun e => (u, e.1, e.2)) ++ forestEdgesFrom (u + 1) rest

/-- All entries of a forest as triples `(parent, child, weight)`. -/
def forestEdges (forest : List (List WeightedEdge)) : List EdgeQueueElement :=
  forestEdgesFrom 0 forest

/-- Sum of the weights of a list of edges. -/
def totalWeight (es : List EdgeQueueElement) : Int := (es.map (fun e => e.2.2)).sum

/-- The edges whose parent lies in `C`. -/
def edgesFrom (C : Finset Nat) (es : List EdgeQueueElement) : List EdgeQueueElement :=
  es.filter (fun e => decide (e.1 ∈ C))

/-- The edges between two vertices of `C`. -/
def edgesWithin (C : Finset Nat) (es : List EdgeQueueElement) : List EdgeQueueElement :=
  es.filter (fun e => decide (e.1 ∈ C) && decide (e.2.1 ∈ C))

/-- Some edge of `T`, read as an undirected edge, joins `a` and `b`. -/
def edgeRel (T : List EdgeQueueElement) (a b : Nat) : Prop :=
  ∃ e ∈ T, (e.1 = a ∧ e.2.1 = b) ∨ (e.1 = b ∧ e.2.1 = a)

/-- The vertices `a` and `b` are joined by a path of edges of `T`, after all the
vertices of `S` have been merged into one. -/
def ConnMod (S : Nat → Prop) (T : List EdgeQueueElement) : Nat → Nat → Prop :=
  Relation.ReflTransGen (fun a b => (S a ∧ S b) ∨ edgeRel T a b)

/-- The vertices `a` and `b` are joined by a path of edges of `T`. -/
def Conn (T : List EdgeQueueElement) : Nat → Nat → Prop :=
  Relation.ReflTransGen (edgeRel T)

/-- The list `T` without the first occurrence of `e`. -/
def eraseEdge : List EdgeQueueElement → EdgeQueueElement → List EdgeQueueElement
  | [], _ => []
  | x :: rest, e => if x = e then rest else x :: eraseEdge rest e

/-- No cycle after merging `S`: no edge of `T` joins two vertices that the other
edges of `T` already join. -/
def AcyclicMod (S : Nat → Prop) (T : List EdgeQueueElement) : Prop :=
  ∀ e ∈ T, ¬ ConnMod S (eraseEdge T e) e.1 e.2.1

/-- The edge list `T` contains no cycle: removing any one edge (one occurrence of
it) disconnects its endpoints. This excludes self-loops, doubled edges and
longer cycles (`Acyclic.no_closed_walk`), and among the connecting edge lists of a
component it singles out those with one edge less than there are vertices
(`acyclic_iff_length`). -/
def Acyclic (T : List EdgeQueueElement) : Prop :=
  ∀ e ∈ T, ¬ Conn (eraseEdge T e) e.1 e.2.1

/-- The list `T` is a spanning tree of `C` built from graph edges: each edge is
an adjacency entry of its first endpoint and joins two vertices of `C`, the edges
connect every pair of vertices of `C`, and they contain no cycle. -/
def IsSpanningTree (graph : Graph) (C : Finset Nat) (T : List EdgeQueueElement) : Prop :=
  (∀ e ∈ T, (e.2.1, e.2.2) ∈ adj graph e.1 ∧ e.1 ∈ C ∧ e.2.1 ∈ C) ∧
  (∀ a ∈ C, ∀ b ∈ C, Conn T a b) ∧ Acyclic T

/-! ## The history of a run

A run is recorded as a list of blocks, the latest first; a block is the vertex
the driver seeded from and the edges selected during the expansion that
followed, the latest first. -/

/-- The targets of a list of edges. -/
def children (es : List EdgeQueueElement) : List Nat := es.map (fun e => e.2.1)

/-- The vertices absorbed in a block. -/
def blockVerts (b : Nat × List EdgeQueueElement) : List Nat := b.1 :: children b.2

/-- The vertices absorbed in a list of blocks. -/
def vertsOf : List (Nat × List EdgeQueueElement) → List Nat
  | [] => []
  | b :: bs => blockVerts b ++ vertsOf bs

/-- The edges selected in a list of blocks. -/
def allEdges : List (Nat × List EdgeQueueElement) → List EdgeQueueElement
  | [] => []
  | b :: bs => b.2 ++ allEdges bs

/-- No adjacency entry leaves the vertex list `V`. -/
def Closed (graph : Graph) (V : List Nat) : Prop :=
  ∀ x ∈ V, ∀ e ∈ adj graph x, e.1 ∈ V

/-- The edges `es` were selected one after the other, starting from the root `r`
with the vertices `V0` absorbed before: each edge leaves a vertex of the block,
enters a vertex absorbed nowhere yet, is an adjacency entry of its source and
weighs no more than any adjacency entry from an absorbed to an unabsorbed vertex. -/
def StepsOK (graph : Graph) (V0 : List Nat) (r : Nat) : List EdgeQueueElement → Prop
  | [] => True
  | e :: es =>
    StepsOK graph V0 r es ∧ e.1 ∈ r :: children es ∧ e.2.1 ∉ V0 ∧ e.2.1 ∉ r :: children es ∧
    (e.2.1, e.2.2) ∈ adj graph e.1 ∧
    ∀ x y w, (x ∈ V0 ∨ x ∈ r :: children es) → y ∉ V0 → y ∉ r :: children es →
      (y, w) ∈ adj graph x → e.2.2 ≤ w

/-- A block in progress on top of finished blocks. -/
def InProgress (graph : Graph) (bs : List (Nat × List EdgeQueueElement)) (r : Nat)
    (es : List EdgeQueueElement) : Prop :=
  Closed graph (vertsOf bs) ∧ r ∉ vertsOf bs ∧ (∀ v < r, v ∈ vertsOf bs) ∧
  StepsOK graph (vertsOf bs) r es

/-- A list of finished blocks: each was seeded from the least vertex not absorbed
before, grown by valid steps, and ended with no adjacency entry leaving the
absorbed vertices. -/
def Complete (graph : Graph) : List (Nat × List EdgeQueueElement) → Prop
  | [] => True
  | b :: bs => Complete graph bs ∧ InProgress graph bs b.1 b.2 ∧ Closed graph (vertsOf (b :: bs))

/-- Total length of the adjacency lists of the vertices not yet selected. -/
def unvisitedDegree : List Bool → Graph → Nat
  | b :: vis, adjacency :: graph =>
    (if b then 0 else adjacency.length) + unvisitedDegree vis graph
  | _, _ => 0

/-- The selection flags, the counter and the forest agree with the history `hist`. -/
structure HistoryInv (graph : Graph) (hist : List (Nat × List EdgeQueueElement))
    (selectedVertexCount : Nat) (vertexSelectStatus : List Bool)
    (tree : List (List WeightedEdge)) : Prop where
  vis_length : vertexSelectStatus.length = graph.length
  tree_length : tree.length = graph.length
  vis_iff : ∀ v, vertexSelectStatus[v]? = some true ↔ v ∈ vertsOf hist
  nodup : (vertsOf hist).Nodup
  count : selectedVertexCount = (vertsOf hist).length
  edges : (forestEdges tree).Perm (allEdges hist)

/-- The state of the expansion procedure agrees with the history `(r, es) :: bs`:
the frontier holds only adjacency entries leaving the current block, and every
adjacency entry from the block to an unselected vertex. -/
structure ExpansionInv (pq : EdgeQueue) (graph : Graph)
    (bs : List (Nat × List EdgeQueueElement)) (r : Nat) (es : List EdgeQueueElement)
    (s : PrimState pq) : Prop where
  hist : HistoryInv graph ((r, es) :: bs) s.selectedVertexCount s.vertexSelectStatus s.tree
  complete : Complete graph bs
  progress : InProgress graph bs r es
  queue : ∀ e ∈ pq.toList s.edgeQueue, e.1 ∈ r :: children es ∧ (e.2.1, e.2.2) ∈ adj graph e.1
  crossing : ∀ x ∈ r :: children es, ∀ e ∈ adj graph x,
    s.vertexSelectStatus[e.1]? = some false → (x, e.1, e.2) ∈ pq.toList s.edgeQueue

/-- The state of the driver between two iterations agrees with the history `bs`. -/
structure DriverInv (graph : Graph) (bs : List (Nat × List EdgeQueueElement))
    (selectedVertexCount : Nat) (vertexSelectStatus : List Bool)
    (tree : List (List WeightedEdge)) : Prop where
  hist : HistoryInv graph bs selectedVertexCount vertexSelectStatus tree
  complete : Complete graph bs

/-- What a successful run leaves behind: a forest with one entry per vertex whose
edges are those of a finished history absorbing every vertex exactly once. -/
structure RunResult (graph : Graph) (forest : List (List WeightedEdge))
    (bs : List (Nat × List EdgeQueueElement)) : Prop where
  forest_length : forest.length = graph.length
  edges : (forestEdges forest).Perm (allEdges bs)
  complete : Complete graph bs
  nodup : (vertsOf bs).Nodup
  verts_iff : ∀ v, v ∈ vertsOf bs ↔ v < graph.length

/-! ## Shifting all weights -/

/-- Adds `c` to the weight of every entry of a graph or of a forest. -/
def shiftWeights (c : Int) (graph : List (List WeightedEdge)) : List (List WeightedEdge) :=
  graph.map (fun l => l.map (fun e => (e.1, e.2 + c)))

/-- Adds `c` to the weight of a frontier entry. -/
def shiftEntry (c : Int) (e : EdgeQueueElement) : EdgeQueueElement := (e.1, e.2.1, e.2.2 + c)

/-- Two results that fail alike or succeed with related values. -/
def ExceptRel {α β : Type} (P : α → β → Prop) :
    Except PrimError α → Except PrimError β → Prop
  | .ok a, .ok b => P a b
  | .error e, .error e' => e = e'
  | _, _ => False

/-- Two states of the expansion procedure that differ by the shift `c` only. -/
def StateRel {pq : EdgeQueue} (R : pq.Q → pq.Q → Prop) (c : Int) (s s' : PrimState pq) : Prop :=
  R s.edgeQueue s'.edgeQueue ∧ s'.selectedVertexCount = s.selectedVertexCount ∧
  s'.vertexSelectStatus = s.vertexSelectStatus ∧ s'.tree = shiftWeights c s.tree

/-! ## A disconnected example -/

/-- The graph with the edges 0-1 (weight 3), 2-3 (weight 1), 3-4 (weight 2) and
2-4 (weight 10). -/
def disconnectedExample : Graph :=
  [[(1, 3)], [(0, 3)], [(3, 1), (4, 10)], [(2, 1), (4, 2)], [(3, 2), (2, 10)]]

/-! ## Runs that check an out-of-range neighbour index -/

/-- The expansion procedure, started in state `s`, comes to check the selection
status of an adjacency entry whose neighbour index is not below the vertex count:
either in the current iteration, or in a later one. -/
inductive ExpansionChecksBad (pq : EdgeQueue) (graph : Graph) : Nat → PrimState pq → Prop
  | here {fuel : Nat} {s : PrimState pq} {u v : Nat} {w : Int} {q' : pq.Q}
      {treeU adjacency : List WeightedEdge} :
      pq.isEmpty s.edgeQueue = false → pq.pop s.edgeQueue = some ((u, v, w), q') →
      s.vertexSelectStatus[v]? = some false → s.tree[u]? = some treeU →
      s.selectedVertexCount + 1 < graph.length → graph[v]? = some adjacency →
      s.vertexSelectStatus.length = graph.length → (∃ e ∈ adjacency, graph.length ≤ e.1) →
      ExpansionChecksBad pq graph (fuel + 1) s
  | stale {fuel : Nat} {s : PrimState pq} {u v : Nat} {w : Int} {q' : pq.Q} :
      pq.isEmpty s.edgeQueue = false → pq.pop s.edgeQueue = some ((u, v, w), q') →
      s.vertexSelectStatus[v]? = some true →
      ExpansionChecksBad pq graph fuel { s with edgeQueue := q' } →
      ExpansionChecksBad pq graph (fuel + 1) s
  | absorb {fuel : Nat} {s : PrimState pq} {u v : Nat} {w : Int} {q' q'' : pq.Q}
      {treeU adjacency : List WeightedEdge} :
      pq.isEmpty s.edgeQueue = false → pq.pop s.edgeQueue = some ((u, v, w), q') →
      s.vertexSelectStatus[v]? = some false → s.tree[u]? = some treeU →
      s.selectedVertexCount + 1 < graph.length → graph[v]? = some adjacency →
      enqueueUnselected pq v (s.vertexSelectStatus.set v true) adjacency q' = .ok q'' →
      ExpansionChecksBad pq graph fuel
        ⟨q'', s.selectedVertexCount + 1, s.vertexSelectStatus.set v true,
          s.tree.set u (treeU ++ [(v, w)])⟩ →
      ExpansionChecksBad pq graph (fuel + 1) s

/-- The driver loop, started on the indices `is`, comes to check the selection
status of an adjacency entry whose neighbour index is not below the vertex count:
while seeding the frontier, during the expansion that follows, or in a later
iteration. -/
inductive DriverChecksBad (pq : EdgeQueue) (graph : Graph) :
    List Nat → Nat → List Bool → List (List WeightedEdge) → Prop
  | seed {i : Nat} {rest : List Nat} {cnt : Nat} {vis : List Bool}
      {tree : List (List WeightedEdge)} {adjacency : List WeightedEdge} :
      vis[i]? = some false → graph[i]? = some adjacency →
      vis.length = graph.length → (∃ e ∈ adjacency, graph.length ≤ e.1) →
      DriverChecksBad pq graph (i :: rest) cnt vis tree
  | expansion {i : Nat} {rest : List Nat} {cnt : Nat} {vis : List Bool}
      {tree : List (List WeightedEdge)} {adjacency : List WeightedEdge} {q : pq.Q} :
      vis[i]? = some false → graph[i]? = some adjacency →
      enqueueUnselected pq i (vis.set i true) adjacency pq.empty = .ok q →
      pq.isEmpty q = false →
      ExpansionChecksBad pq graph (expansionFuel graph) ⟨q, cnt + 1, vis.set i true, tree⟩ →
      DriverChecksBad pq graph (i :: rest) cnt vis tree
  | skip {i : Nat} {rest : List Nat} {cnt : Nat} {vis : List Bool}
      {tree : List (List WeightedEdge)} :
      vis[i]? = some true → DriverChecksBad pq graph rest cnt vis tree →
      DriverChecksBad pq graph (i :: rest) cnt vis tree
  | next {i : Nat} {rest : List Nat} {cnt : Nat} {vis : List Bool}
      {tree : List (List WeightedEdge)} {adjacency : List WeightedEdge} {q : pq.Q}
      {s' : PrimState pq} :
      vis[i]? = some false → graph[i]? = some adjacency →
      enqueueUnselected pq i (vis.set i true) adjacency pq.empty = .ok q →
      (if ¬ pq.isEmpty q = true then
          primAlgorithmOnAComponet pq graph (expansionFuel graph)
            ⟨q, cnt + 1, vis.set i true, tree⟩
        else .ok ⟨q, cnt + 1, vis.set i true, tree⟩) = .ok s' →
      s'.selectedVertexCount < graph.length →
      DriverChecksBad pq graph rest s'.selectedVertexCount s'.vertexSelectStatus s'.tree →
      DriverChecksBad pq graph (i :: rest) cnt vis tree

/-! ## Walks -/

/-- The edges of `c`, in this order and each in one of its two directions, lead
from `a` to `b`. -/
def IsWalk : List EdgeQueueElement → Nat → Nat → Prop
  | [], a, b => a = b
  | e :: c, a, b => (e.1 = a ∧ IsWalk c e.2.1 b) ∨ (e.2.1 = a ∧ IsWalk c e.1 b)

/-! ## Program points of a run -/

/-- The points of `primAlgorithm` at which the state is observed: the head of the
driver's `for` loop (line 114) with the indices still to visit, the head of the
`while` loop of the expansion procedure (line 79), and the `return` of
`primAlgorithm` (line 144). -/
inductive ProgramPoint (pq : EdgeQueue) where
  | driver (is : List Nat) (selectedVertexCount : Nat) (vertexSelectStatus : List Bool)
      (tree : List (List WeightedEdge))
  | expansion (s : PrimState pq)
  | returned (selectedVertexCount : Nat) (vertexSelectStatus : List Bool)
      (tree : List (List WeightedEdge))

/-- The value of `selectedVertexCount` at a program point. -/
def ProgramPoint.count {pq : EdgeQueue} : ProgramPoint pq → Nat
  | .driver _ cnt _ _ => cnt
  | .expansion s => s.selectedVertexCount
  | .returned cnt _ _ => cnt

/-- The value of `vertexSelectStatus` at a program point. -/
def ProgramPoint.status {pq : EdgeQueue} : ProgramPoint pq → List Bool
  | .driver _ _ vis _ => vis
  | .expansion s => s.vertexSelectStatus
  | .returned _ vis _ => vis

/-- The forest under construction at a program point. -/
def ProgramPoint.forest {pq : EdgeQueue} : ProgramPoint pq → List (List WeightedEdge)
  | .driver _ _ _ tree => tree
  | .expansion s => s.tree
  | .returned _ _ tree => tree

/-- The program points that the run of `primAlgorithm` on `graph` passes through,
following the control flow of the driver and of the expansion procedure. -/
inductive Reachable (pq : EdgeQueue) (graph : Graph) : ProgramPoint pq → Prop
  | start :
      Reachable pq graph (.driver (List.range graph.length) 0
        (List.replicate graph.length false) (List.replicate graph.length []))
  | skipVertex {i : Nat} {rest : List Nat} {cnt : Nat} {vis : List Bool}
      {tree : List (List WeightedEdge)} :
      Reachable pq graph (.driver (i :: rest) cnt vis tree) → vis[i]? = some true →
      Reachable pq graph (.driver rest cnt vis tree)
  | enter {i : Nat} {rest : List Nat} {cnt : Nat} {vis : List Bool}
      {tree : List (List WeightedEdge)} {adjacency : List WeightedEdge} {q : pq.Q} :
      Reachable pq graph (.driver (i :: rest) cnt vis tree) → vis[i]? = some false →
      graph[i]? = some adjacency →
      enqueueUnselected pq i (vis.set i true) adjacency pq.empty = .ok q →
      pq.isEmpty q = false →
      Reachable pq graph (.expansion ⟨q, cnt + 1, vis.set i true, tree⟩)
  | stale {s : PrimState pq} {u v : Nat} {w : Int} {q' : pq.Q} :
      Reachable pq graph (.expansion s) → pq.isEmpty s.edgeQueue = false →
      pq.pop s.edgeQueue = some ((u, v, w), q') → s.vertexSelectStatus[v]? = some true →
      Reachable pq graph (.expansion { s with edgeQueue := q' })
  | absorb {s : PrimState pq} {u v : Nat} {w : Int} {q' q'' : pq.Q}
      {treeU adjacency : List WeightedEdge} :
      Reachable pq graph (.expansion s) → pq.isEmpty s.edgeQueue = false →
      pq.pop s.edgeQueue = some ((u, v, w), q') → s.vertexSelectStatus[v]? = some false →
      s.tree[u]? = some treeU → s.selectedVertexCount + 1 < graph.length →
      graph[v]? = some adjacency →
      enqueueUnselected pq v (s.vertexSelectStatus.set v true) adjacency q' = .ok q'' →
      Reachable pq graph (.expansion
        ⟨q'', s.selectedVertexCount + 1, s.vertexSelectStatus.set v true,
          s.tree.set u (treeU ++ [(v, w)])⟩)
  | advance {i : Nat} {rest : List Nat} {cnt : Nat} {vis : List Bool}
      {tree : List (List WeightedEdge)} {adjacency : List WeightedEdge} {q : pq.Q}
      {s' : PrimState pq} :
      Reachable pq graph (.driver (i :: rest) cnt vis tree) → vis[i]? = some false →
      graph[i]? = some adjacency →
      enqueueUnselected pq i (vis.set i true) adjacency pq.empty = .ok q →
      (if ¬ pq.isEmpty q = true then
          primAlgorithmOnAComponet pq graph (expansionFuel graph)
            ⟨q, cnt + 1, vis.set i true, tree⟩
        else .ok ⟨q, cnt + 1, vis.set i true, tree⟩) = .ok s' →
      s'.selectedVertexCount < graph.length →
      Reachable pq graph (.driver rest s'.selectedVertexCount s'.vertexSelectStatus s'.tree)
  | stop {i : Nat} {rest : List Nat} {cnt : Nat} {vis : List Bool}
      {tree : List (List WeightedEdge)} {adjacency : List WeightedEdge} {q : pq.Q}
      {s' : PrimState pq} :
      Reachable pq graph (.driver (i :: rest) cnt vis tree) → vis[i]? = some false →
      graph[i]? = some adjacency →
      enqueueUnselected pq i (vis.set i true) adjacency pq.empty = .ok q →
      (if ¬ pq.isEmpty q = true then
          primAlgorithmOnAComponet pq graph (expansionFuel graph)
            ⟨q, cnt + 1, vis.set i true, tree⟩
        else .ok ⟨q, cnt + 1, vis.set i true, tree⟩) = .ok s' →
      ¬ s'.selectedVertexCount < graph.length →
      Reachable pq graph (.returned s'.selectedVertexCount s'.vertexSelectStatus s'.tree)
  | finish {cnt : Nat} {vis : List Bool} {tree : List (List WeightedEdge)} :
      Reachable pq graph (.driver [] cnt vis tree) →
      Reachable pq graph (.returned cnt vis tree)

/-- The history invariant at a program point. -/
def PointInv (pq : EdgeQueue) (graph : Graph) : ProgramPoint pq → Prop
  | .driver is cnt vis tree =>
    ∃ bs i k, is = List.range' i k ∧ i + k = graph.length ∧
      DriverInv graph bs cnt vis tree ∧ ∀ v < i, v ∈ vertsOf bs
  | .expansion s => ∃ bs r es, ExpansionInv pq graph bs r es s
  | .returned cnt vis tree =>
    ∃ bs, DriverInv graph bs cnt vis tree ∧ ∀ v, v < graph.length → v ∈ vertsOf bs

/-! ## States on which the expansion procedure is called -/

/-- A well-formed state of the expansion procedure: the adjacency indices of the
graph are in range, the status vector and the forest have one entry per vertex,
and both vertex indices of every frontier entry are in range. -/
structure WellFormed (pq : EdgeQueue) (graph : Graph) (s : PrimState pq) : Prop where
  valid : IndexValid graph
  vis_length : s.vertexSelectStatus.length = graph.length
  tree_length : s.tree.length = graph.length
  queue : ∀ e ∈ pq.toList s.edgeQueue, e.1 < graph.length ∧ e.2.1 < graph.length

/-- The state `t` only adds to the state `s`: the status vector keeps its length
and every mark that is set, the forest keeps its length and every entry of `s`
is a prefix of the same entry of `t`, and the absorbed count is not smaller. -/
def OnlyAdds {pq : EdgeQueue} (s t : PrimState pq) : Prop :=
  t.vertexSelectStatus.length = s.vertexSelectStatus.length ∧
  (∀ v : Nat, s.vertexSelectStatus[v]? = some true → t.vertexSelectStatus[v]? = some true) ∧
  t.tree.length = s.tree.length ∧
  (∀ (u : Nat) (l : List WeightedEdge), s.tree[u]? = some l →
    ∃ l', t.tree[u]? = some (l ++ l')) ∧
  s.selectedVertexCount ≤ t.selectedVertexCount

/-! ## The variant without the early-termination checks -/

/-- The expansion procedure with the early return of lines 91-94 removed: after
an absorption the adjacency list of the absorbed vertex is always scanned and
the loop always goes on. -/
def primAlgorithmOnAComponetNoShortCircuit (pq : EdgeQueue) (graph : Graph) :
    Nat → PrimState pq → Except PrimError (PrimState pq)
  | 0, _ => .error .outOfFuel
  | fuel + 1, s =>
    if pq.isEmpty s.edgeQueue then .ok s
    else
      match pq.pop s.edgeQueue with
      | none => .error .undefinedBehaviour
      | some ((u, v, w), edgeQueue) =>
        match s.vertexSelectStatus[v]? with
        | none => .error .undefinedBehaviour
        | some true =>
          primAlgorithmOnAComponetNoShortCircuit pq graph fuel { s with edgeQueue := edgeQueue }
        | some false =>
          let vertexSelectStatus := s.vertexSelectStatus.set v true
          let selectedVertexCount := s.selectedVertexCount + 1
          match s.tree[u]? with
          | none => .error .undefinedBehaviour
          | some treeU =>
            let tree := s.tree.set u (treeU ++ [(v, w)])
            match graph[v]? with
            | none => .error .undefinedBehaviour
            | some adjacency =>
              match enqueueUnselected pq v vertexSelectStatus adjacency edgeQueue with
              | .error err => .error err
              | .ok edgeQueue' =>
                primAlgorithmOnAComponetNoShortCircuit pq graph fuel
                  ⟨edgeQueue', selectedVertexCount, vertexSelectStatus, tree⟩

/-- The driver loop with the break of lines 137-140 removed and the expansion
procedure replaced by its variant: every index is visited. -/
def driverLoopNoShortCircuit (pq : EdgeQueue) (graph : Graph) :
    List Nat → Nat → List Bool → List (List WeightedEdge) →
      Except PrimError (List (List WeightedEdge))
  | [], _, _, minimumSpanningTree => .ok minimumSpanningTree
  | i :: rest, selectedVertexCount, vertexSelectStatus, minimumSpanningTree =>
    match vertexSelectStatus[i]? with
    | none => .error .undefinedBehaviour
    | some true =>
      driverLoopNoShortCircuit pq graph rest selectedVertexCount vertexSelectStatus
        minimumSpanningTree
    | some false =>
      let vertexSelectStatus := vertexSelectStatus.set i true
      let selectedVertexCount := selectedVertexCount + 1
      match graph[i]? with
      | none => .error .undefinedBehaviour
      | some adjacency =>
        match enqueueUnselected pq i vertexSelectStatus adjacency pq.empty with
        | .error err => .error err
        | .ok edgeQueue =>
          let s : PrimState pq :=
            ⟨edgeQueue, selectedVertexCount, vertexSelectStatus, minimumSpanningTree⟩
          match (if ¬ pq.isEmpty edgeQueue then
                  primAlgorithmOnAComponetNoShortCircuit pq graph (expansionFuel graph) s
                else .ok s) with
          | .error err => .error err
          | .ok s' =>
            driverLoopNoShortCircuit pq graph rest s'.selectedVertexCount
              s'.vertexSelectStatus s'.tree

/-- The variant of `primAlgorithm` with both early-termination checks removed. -/
def primAlgorithmNoShortCircuit (pq : EdgeQueue) (graph : Graph) :
    Except PrimError (List (List WeightedEdge)) :=
  driverLoopNoShortCircuit pq graph (List.range graph.length) 0
    (List.replicate graph.length false) (List.replicate graph.length [])

/-- The values of `selectedVertexCount` and `vertexSelectStatus` at the program
points between the statement that marks a vertex and the statement that
increments the count: between lines 118 and 119 of `primAlgorithm` (`seeded`,
the driver has found `i` unvisited and has marked it) and between lines 86 and
87 of `primAlgorithmOnAComponet` (`absorbed`, the entry `(u, v, w)` has been
extracted, `v` was found unvisited and has been marked). -/
inductive MarkedPoint (pq : EdgeQueue) (graph : Graph) : Nat → List Bool → Prop
  | seeded {i : Nat} {rest : List Nat} {cnt : Nat} {vis : List Bool}
      {tree : List (List WeightedEdge)} :
      Reachable pq graph (.driver (i :: rest) cnt vis tree) → vis[i]? = some false →
      MarkedPoint pq graph cnt (vis.set i true)
  | absorbed {s : PrimState pq} {u v : Nat} {w : Int} {q' : pq.Q} :
      Reachable pq graph (.expansion s) → pq.isEmpty s.edgeQueue = false →
      pq.pop s.edgeQueue = some ((u, v, w), q') → s.vertexSelectStatus[v]? = some false →
      MarkedPoint pq graph s.selectedVertexCount (s.vertexSelectStatus.set v true)

/-! # Theorems -/

/-! ## Lemmas on the pieces of the state -/

theorem adj_of_getElem? {graph : Graph} {u : Nat} {a : List WeightedEdge}
    (h : graph[u]? = some a) : adj graph u = a := by
  simp [adj, List.getD, h]

theorem adj_eq_nil_of_le {graph : Graph} {u : Nat} (h : graph.length ≤ u) :
    adj graph u = [] := by
  simp [adj, List.getD, List.getElem?_eq_none h]

theorem adj_mem_lt {graph : Graph} {u : Nat} {e : WeightedEdge} (h : e ∈ adj graph u) :
    u < graph.length := by
  by_contra hlt
  rw [adj_eq_nil_of_le (not_lt.1 hlt)] at h
  simp at h

theorem IndexValid.adj_lt {graph : Graph} (hv : IndexValid graph) {u : Nat} {e : WeightedEdge}
    (h : e ∈ adj graph u) : e.1 < graph.length := by
  have hu := adj_mem_lt h
  have hg : graph[u]? = some graph[u] := List.getElem?_eq_getElem hu
  rw [adj_of_getElem? hg] at h
  exact hv _ (List.getElem_mem hu) _ h

/-- On an all-in-range adjacency list the scan succeeds and adds exactly the
entries whose neighbour is not selected. -/
theorem enqueueUnselected_ok (pq : EdgeQueue) (x : Nat) (vis : List Bool) :
    ∀ (adjacency : List WeightedEdge) (q : pq.Q), (∀ e ∈ adjacency, e.1 < vis.length) →
      ∃ q', enqueueUnselected pq x vis adjacency q = .ok q' ∧
        (pq.toList q').Perm
          (((adjacency.filter (fun e => vis[e.1]? == some false)).map
            (fun e => (x, e.1, e.2))) ++ pq.toList q)
  | [], q, _ => ⟨q, rfl, by simp⟩
  | edge :: rest, q, h => by
    have hlt : edge.1 < vis.length := h edge (List.mem_cons_self _ _)
    have hrest : ∀ e ∈ rest, e.1 < vis.length := fun e he => h e (List.mem_cons_of_mem _ he)
    have hget : vis[edge.1]? = some vis[edge.1] := List.getElem?_eq_getElem hlt
    cases hb : vis[edge.1] with
    | true =>
      rw [hb] at hget
      obtain ⟨q', h1, h2⟩ := enqueueUnselected_ok pq x vis rest q hrest
      refine ⟨q', ?_, ?_⟩
      · simp only [enqueueUnselected, hget, h1]
      · simpa [List.filter_cons, hget] using h2
    | false =>
      rw [hb] at hget
      obtain ⟨q', h1, h2⟩ :=
        enqueueUnselected_ok pq x vis rest (pq.push q (x, edge.1, edge.2)) hrest
      refine ⟨q', ?_, ?_⟩
      · simp only [enqueueUnselected, hget, h1]
      · simp only [List.filter_cons, hget, beq_self_eq_true, if_true, List.map_cons,
          List.cons_append]
        refine h2.trans ?_
        refine (List.Perm.append_left _ (pq.toList_push q _)).trans ?_
        exact List.perm_middle

theorem forestEdgesFrom_set (v : Nat) (w : Int) :
    ∀ (tree : List (List WeightedEdge)) (k u : Nat) (l : List WeightedEdge),
      tree[u]? = some l →
      (forestEdgesFrom k (tree.set u (l ++ [(v, w)]))).Perm
        ((k + u, v, w) :: forestEdgesFrom k tree)
  | [], _, _, _, h => by simp at h
  | a :: rest, k, 0, l, h => by
    simp only [List.getElem?_cons_zero, Option.some.injEq] at h
    subst h
    simp only [List.set_cons_zero, forestEdgesFrom, List.map_append, List.map_cons,
      List.map_nil, Nat.add_zero, List.append_assoc, List.singleton_append]
    exact List.perm_middle
  | a :: rest, k, u + 1, l, h => by
    simp only [List.getElem?_cons_succ] at h
    have ih := forestEdgesFrom_set v w rest (k + 1) u l h
    simp only [List.set_cons_succ, forestEdgesFrom]
    have e : k + 1 + u = k + (u + 1) := by omega
    rw [e] at ih
    exact (List.Perm.append_left _ ih).trans List.perm_middle

theorem forestEdges_set {tree : List (List WeightedEdge)} {u : Nat} {l : List WeightedEdge}
    (v : Nat) (w : Int) (h : tree[u]? = some l) :
    (forestEdges (tree.set u (l ++ [(v, w)]))).Perm ((u, v, w) :: forestEdges tree) := by
  have := forestEdgesFrom_set v w tree 0 u l h
  simpa [forestEdges] using this

theorem forestEdgesFrom_replicate (n : Nat) : ∀ k, forestEdgesFrom k (List.replicate n []) = [] := by
  induction n with
  | zero => intro k; rfl
  | succ n ih => intro k; simp [List.replicate_succ, forestEdgesFrom, ih]

theorem unvisitedDegree_le : ∀ (vis : List Bool) (graph : Graph),
    unvisitedDegree vis graph ≤ edgeCount graph
  | [], _ => by simp [unvisitedDegree]
  | _ :: _, [] => by simp [unvisitedDegree]
  | b :: vis, a :: graph => by
    have ih := unvisitedDegree_le vis graph
    simp only [unvisitedDegree, edgeCount, List.map_cons, List.sum_cons] at ih ⊢
    split <;> omega

theorem unvisitedDegree_set : ∀ (vis : List Bool) (graph : Graph) (v : Nat)
    (a : List WeightedEdge), vis[v]? = some false → graph[v]? = some a →
    unvisitedDegree (vis.set v true) graph + a.length = unvisitedDegree vis graph
  | [], _, _, _, h, _ => by simp at h
  | _ :: _, [], _, _, _, h => by simp at h
  | b :: vis, a' :: graph, 0, a, h1, h2 => by
    simp only [List.getElem?_cons_zero, Option.some.injEq] at h1 h2
    subst h1 h2
    simp [unvisitedDegree]
    omega
  | b :: vis, a' :: graph, v + 1, a, h1, h2 => by
    simp only [List.getElem?_cons_succ] at h1 h2
    have ih := unvisitedDegree_set vis graph v a h1 h2
    simp only [List.set_cons_succ, unvisitedDegree]
    omega

/-- A duplicate-free list of `n` numbers below `n` contains every number below `n`. -/
theorem mem_of_nodup_of_length {l : List Nat} {n : Nat} (hnd : l.Nodup)
    (hlt : ∀ v ∈ l, v < n) (hlen : n ≤ l.length) : ∀ v, v < n → v ∈ l := by
  intro v hv
  have hsub : l.toFinset ⊆ Finset.range n := by
    intro x hx
    exact Finset.mem_range.2 (hlt x (List.mem_toFinset.1 hx))
  have hcard : (Finset.range n).card ≤ l.toFinset.card := by
    rw [List.toFinset_card_of_nodup hnd, Finset.card_range]
    exact hlen
  have := Finset.eq_of_subset_of_card_le hsub hcard
  have hv' : v ∈ l.toFinset := by rw [this]; exact Finset.mem_range.2 hv
  exact List.mem_toFinset.1 hv'

theorem getElem?_set_true_iff {vis : List Bool} {v : Nat} (hv : v < vis.length) (x : Nat) :
    (vis.set v true)[x]? = some true ↔ x = v ∨ vis[x]? = some true := by
  by_cases hx : x = v
  · subst hx
    simp [List.getElem?_set_self, hv]
  · have : v ≠ x := fun h => hx h.symm
    simp [List.getElem?_set_ne this, hx]

theorem getElem?_set_true_false {vis : List Bool} {v : Nat} (x : Nat)
    (h : (vis.set v true)[x]? = some false) : x ≠ v ∧ vis[x]? = some false := by
  by_cases hx : x = v
  · subst hx
    by_cases hv : x < vis.length
    · simp [List.getElem?_set_self, hv] at h
    · have hlen : ¬ x < (vis.set x true).length := by simpa using hv
      rw [List.getElem?_eq_none (not_lt.1 hlen)] at h
      cases h
  · have : v ≠ x := fun h => hx h.symm
    rw [List.getElem?_set_ne this] at h
    exact ⟨hx, h⟩

/-! ## The history invariant -/

theorem mem_vertsOf_cons {r : Nat} {es : List EdgeQueueElement}
    {bs : List (Nat × List EdgeQueueElement)} {x : Nat} :
    x ∈ vertsOf ((r, es) :: bs) ↔ x ∈ r :: children es ∨ x ∈ vertsOf bs := by
  simp [vertsOf, blockVerts, or_assoc]

theorem vertsOf_absorb_perm (r u v : Nat) (w : Int) (es : List EdgeQueueElement)
    (bs : List (Nat × List EdgeQueueElement)) :
    (vertsOf ((r, (u, v, w) :: es) :: bs)).Perm (v :: vertsOf ((r, es) :: bs)) := by
  simp only [vertsOf, blockVerts, children, List.map_cons, List.cons_append]
  exact List.Perm.swap _ _ _

theorem HistoryInv.lt_of_mem {graph : Graph} {hist : List (Nat × List EdgeQueueElement)}
    {cnt : Nat} {vis : List Bool} {tree : List (List WeightedEdge)}
    (h : HistoryInv graph hist cnt vis tree) {v : Nat} (hv : v ∈ vertsOf hist) :
    v < graph.length := by
  have h1 := (h.vis_iff v).2 hv
  by_contra hlt
  rw [List.getElem?_eq_none (by rw [h.vis_length]; exact not_lt.1 hlt)] at h1
  cases h1

theorem HistoryInv.false_iff {graph : Graph} {hist : List (Nat × List EdgeQueueElement)}
    {cnt : Nat} {vis : List Bool} {tree : List (List WeightedEdge)}
    (h : HistoryInv graph hist cnt vis tree) (v : Nat) :
    vis[v]? = some false ↔ v < graph.length ∧ v ∉ vertsOf hist := by
  constructor
  · intro hf
    refine ⟨?_, fun hm => ?_⟩
    · by_contra hlt
      rw [List.getElem?_eq_none (by rw [h.vis_length]; exact not_lt.1 hlt)] at hf
      cases hf
    · rw [(h.vis_iff v).2 hm] at hf
      cases hf
  · rintro ⟨hlt, hm⟩
    have hlt' : v < vis.length := by rw [h.vis_length]; exact hlt
    rw [List.getElem?_eq_getElem hlt']
    cases hb : vis[v] with
    | false => rfl
    | true =>
      exfalso
      apply hm
      apply (h.vis_iff v).1
      rw [List.getElem?_eq_getElem hlt', hb]

theorem HistoryInv.all_of_count {graph : Graph} {hist : List (Nat × List EdgeQueueElement)}
    {cnt : Nat} {vis : List Bool} {tree : List (List WeightedEdge)}
    (h : HistoryInv graph hist cnt vis tree) (hc : ¬ cnt < graph.length) :
    ∀ v, v < graph.length → v ∈ vertsOf hist :=
  mem_of_nodup_of_length h.nodup (fun _ hv => h.lt_of_mem hv)
    (by rw [← h.count]; exact not_lt.1 hc)

theorem closed_of_all {graph : Graph} (hv : IndexValid graph) {V : List Nat}
    (hall : ∀ v, v < graph.length → v ∈ V) : Closed graph V :=
  fun _ _ _ he => hall _ (hv.adj_lt he)

theorem HistoryInv.absorb_hist {graph : Graph} {bs : List (Nat × List EdgeQueueElement)}
    {r : Nat} {es : List EdgeQueueElement}
    {cnt : Nat} {vis : List Bool} {tree : List (List WeightedEdge)}
    (h : HistoryInv graph ((r, es) :: bs) cnt vis tree) {u v : Nat} (w : Int)
    {treeU : List WeightedEdge} (hv : vis[v]? = some false) (hu : tree[u]? = some treeU) :
    HistoryInv graph ((r, (u, v, w) :: es) :: bs) (cnt + 1) (vis.set v true)
      (tree.set u (treeU ++ [(v, w)])) := by
  have hvf := (h.false_iff v).1 hv
  have hperm := vertsOf_absorb_perm r u v w es bs
  refine ⟨by simp [h.vis_length], by simp [h.tree_length], ?_, ?_, ?_, ?_⟩
  · intro x
    rw [getElem?_set_true_iff (by rw [h.vis_length]; exact hvf.1), h.vis_iff x, hperm.mem_iff]
    simp
  · rw [hperm.nodup_iff]
    exact List.nodup_cons.2 ⟨hvf.2, h.nodup⟩
  · rw [hperm.length_eq, h.count]
    simp
  · refine (forestEdges_set v w hu).trans ?_
    simpa [allEdges] using h.edges

theorem HistoryInv.seed_hist {graph : Graph} {bs : List (Nat × List EdgeQueueElement)}
    {cnt : Nat} {vis : List Bool} {tree : List (List WeightedEdge)}
    (h : HistoryInv graph bs cnt vis tree) {i : Nat} (hi : vis[i]? = some false) :
    HistoryInv graph ((i, []) :: bs) (cnt + 1) (vis.set i true) tree := by
  have hvf := (h.false_iff i).1 hi
  refine ⟨by simp [h.vis_length], h.tree_length, ?_, ?_, ?_, ?_⟩
  · intro x
    rw [getElem?_set_true_iff (by rw [h.vis_length]; exact hvf.1), h.vis_iff x]
    simp [vertsOf, blockVerts, children]
  · simpa [vertsOf, blockVerts, children] using And.intro hvf.2 h.nodup
  · simp [vertsOf, blockVerts, children, h.count]
  · simpa [allEdges] using h.edges

theorem ExpansionInv.closed_of_nil {pq : EdgeQueue} {graph : Graph}
    {bs : List (Nat × List EdgeQueueElement)} {r : Nat} {es : List EdgeQueueElement}
    {s : PrimState pq} (hv : IndexValid graph) (inv : ExpansionInv pq graph bs r es s)
    (hq : pq.toList s.edgeQueue = []) : Closed graph (vertsOf ((r, es) :: bs)) := by
  intro x hx e he
  rcases mem_vertsOf_cons.1 hx with hx | hx
  · by_contra hne
    have := inv.crossing x hx e he ((inv.hist.false_iff e.1).2 ⟨hv.adj_lt he, hne⟩)
    rw [hq] at this
    cases this
  · exact mem_vertsOf_cons.2 (Or.inr (inv.progress.1 x hx e he))

theorem ExpansionInv.finish {pq : EdgeQueue} {graph : Graph}
    {bs : List (Nat × List EdgeQueueElement)} {r : Nat} {es : List EdgeQueueElement}
    {s : PrimState pq} (inv : ExpansionInv pq graph bs r es s)
    (hc : Closed graph (vertsOf ((r, es) :: bs))) :
    DriverInv graph ((r, es) :: bs) s.selectedVertexCount s.vertexSelectStatus s.tree :=
  ⟨inv.hist, inv.complete, inv.progress, hc⟩

theorem ExpansionInv.stale {pq : EdgeQueue} {graph : Graph}
    {bs : List (Nat × List EdgeQueueElement)} {r : Nat} {es : List EdgeQueueElement}
    {s : PrimState pq} (inv : ExpansionInv pq graph bs r es s) {u v : Nat} {w : Int}
    {q' : pq.Q} (hpop : pq.pop s.edgeQueue = some ((u, v, w), q'))
    (hvis : s.vertexSelectStatus[v]? = some true) :
    ExpansionInv pq graph bs r es { s with edgeQueue := q' } := by
  have hperm := pq.pop_perm _ _ _ hpop
  refine ⟨inv.hist, inv.complete, inv.progress, ?_, ?_⟩
  · intro e he
    exact inv.queue e (hperm.mem_iff.2 (List.mem_cons_of_mem _ he))
  · intro x hx e he hf
    have hm := hperm.mem_iff.1 (inv.crossing x hx e he hf)
    rcases List.mem_cons.1 hm with heq | hm
    · exfalso
      have : e.1 = v := by
        have := congrArg (fun t => t.2.1) heq
        simpa using this
      rw [this, hvis] at hf
      cases hf
    · exact hm

/-- The facts about the entry extracted from the frontier when its target is not
selected: it leaves the block, it is an adjacency entry, and it is a lightest
adjacency entry from a selected to an unselected vertex. -/
theorem ExpansionInv.progress_absorb {pq : EdgeQueue} {graph : Graph}
    {bs : List (Nat × List EdgeQueueElement)} {r : Nat} {es : List EdgeQueueElement}
    {s : PrimState pq} (hv : IndexValid graph) (inv : ExpansionInv pq graph bs r es s)
    {u v : Nat} {w : Int} {q' : pq.Q} (hpop : pq.pop s.edgeQueue = some ((u, v, w), q'))
    (hvis : s.vertexSelectStatus[v]? = some false) :
    InProgress graph bs r ((u, v, w) :: es) := by
  have hperm := pq.pop_perm _ _ _ hpop
  have hmem : (u, v, w) ∈ pq.toList s.edgeQueue := hperm.mem_iff.2 (List.mem_cons_self _ _)
  have hq := inv.queue _ hmem
  have hvf := (inv.hist.false_iff v).1 hvis
  have hvn : v ∉ r :: children es ∧ v ∉ vertsOf bs := by
    constructor
    · exact fun h => hvf.2 (mem_vertsOf_cons.2 (Or.inl h))
    · exact fun h => hvf.2 (mem_vertsOf_cons.2 (Or.inr h))
  refine ⟨inv.progress.1, inv.progress.2.1, inv.progress.2.2.1, ?_⟩
  refine ⟨inv.progress.2.2.2, hq.1, hvn.2, hvn.1, hq.2, ?_⟩
  intro x y w' hx hy0 hy1 hadj
  have hyn : y ∉ vertsOf ((r, es) :: bs) := by
    intro h
    rcases mem_vertsOf_cons.1 h with h | h
    · exact hy1 h
    · exact hy0 h
  rcases hx with hx | hx
  · exact absurd (inv.progress.1 x hx _ hadj) hy0
  · have hin := inv.crossing x hx (y, w') hadj
      ((inv.hist.false_iff y).2 ⟨hv.adj_lt hadj, hyn⟩)
    have := pq.pop_top _ _ _ hpop _ hin
    simpa [edgeEntryGreaterThanComparator] using this

theorem ExpansionInv.absorb_inv {pq : EdgeQueue} {graph : Graph}
    {bs : List (Nat × List EdgeQueueElement)} {r : Nat} {es : List EdgeQueueElement}
    {s : PrimState pq} (hv : IndexValid graph) (inv : ExpansionInv pq graph bs r es s)
    {u v : Nat} {w : Int} {q' : pq.Q} (hpop : pq.pop s.edgeQueue = some ((u, v, w), q'))
    (hvis : s.vertexSelectStatus[v]? = some false) {treeU : List WeightedEdge}
    (hu : s.tree[u]? = some treeU) {q'' : pq.Q}
    (hq : (pq.toList q'').Perm
      ((((adj graph v).filter
          (fun e => (s.vertexSelectStatus.set v true)[e.1]? == some false)).map
            (fun e => (v, e.1, e.2))) ++ pq.toList q')) :
    ExpansionInv pq graph bs r ((u, v, w) :: es)
      ⟨q'', s.selectedVertexCount + 1, s.vertexSelectStatus.set v true,
        s.tree.set u (treeU ++ [(v, w)])⟩ := by
  have hperm := pq.pop_perm _ _ _ hpop
  refine ⟨inv.hist.absorb_hist w hvis hu, inv.complete, inv.progress_absorb hv hpop hvis, ?_, ?_⟩
  · intro e he
    rcases List.mem_append.1 (hq.mem_iff.1 he) with he | he
    · obtain ⟨e', he', rfl⟩ := List.mem_map.1 he
      refine ⟨by simp [children], ?_⟩
      exact (List.mem_filter.1 he').1
    · have := inv.queue e (hperm.mem_iff.2 (List.mem_cons_of_mem _ he))
      refine ⟨?_, this.2⟩
      rcases List.mem_cons.1 this.1 with h | h
      · simp [h]
      · simp [children] at h ⊢
        exact Or.inr (Or.inr h)
  · intro x hx e he hf
    apply hq.mem_iff.2
    have hx' : x = v ∨ x ∈ r :: children es := by
      simp only [children, List.map_cons, List.mem_cons] at hx ⊢
      tauto
    rcases hx' with rfl | hx'
    · apply List.mem_append_left
      exact List.mem_map.2 ⟨e, List.mem_filter.2 ⟨he, by simpa using hf⟩, rfl⟩
    · apply List.mem_append_right
      have h2 := getElem?_set_true_false e.1 hf
      have hm := hperm.mem_iff.1 (inv.crossing x hx' e he h2.2)
      rcases List.mem_cons.1 hm with heq | hm
      · exfalso
        apply h2.1
        have := congrArg (fun t => t.2.1) heq
        simpa using this
      · exact hm

/-- Total correctness of the expansion procedure: from a state that agrees with a
history and with more fuel than frontier entries plus adjacency entries of
unselected vertices, it returns a state that agrees with a finished history. -/
theorem primAlgorithmOnAComponet_spec (pq : EdgeQueue) (graph : Graph)
    (hv : IndexValid graph) :
    ∀ (fuel : Nat) (s : PrimState pq) (bs : List (Nat × List EdgeQueueElement)) (r : Nat)
      (es : List EdgeQueueElement), ExpansionInv pq graph bs r es s →
      (pq.toList s.edgeQueue).length + unvisitedDegree s.vertexSelectStatus graph < fuel →
      ∃ s' es', primAlgorithmOnAComponet pq graph fuel s = .ok s' ∧
        DriverInv graph ((r, es') :: bs) s'.selectedVertexCount s'.vertexSelectStatus
          s'.tree := by
  intro fuel
  induction fuel with
  | zero => intro s bs r es _ h; omega
  | succ fuel ih =>
    intro s bs r es inv hfuel
    rw [primAlgorithmOnAComponet]
    by_cases hemp : pq.isEmpty s.edgeQueue = true
    · rw [if_pos hemp]
      exact ⟨s, es, rfl, inv.finish (inv.closed_of_nil hv ((pq.isEmpty_iff _).1 hemp))⟩
    · rw [if_neg hemp]
      have hne : pq.toList s.edgeQueue ≠ [] := fun h => hemp ((pq.isEmpty_iff _).2 h)
      cases hpop : pq.pop s.edgeQueue with
      | none => exact absurd ((pq.pop_none_iff _).1 hpop) hne
      | some p =>
        obtain ⟨⟨u, v, w⟩, q'⟩ := p
        have hperm := pq.pop_perm _ _ _ hpop
        have hlen : (pq.toList s.edgeQueue).length = (pq.toList q').length + 1 := by
          rw [hperm.length_eq]; rfl
        have hmem : (u, v, w) ∈ pq.toList s.edgeQueue :=
          hperm.mem_iff.2 (List.mem_cons_self _ _)
        have hq := inv.queue _ hmem
        have hvlt : v < graph.length := hv.adj_lt hq.2
        have hult : u < graph.length :=
          inv.hist.lt_of_mem (mem_vertsOf_cons.2 (Or.inl hq.1))
        obtain ⟨b, hvget⟩ : ∃ b, s.vertexSelectStatus[v]? = some b :=
          ⟨_, List.getElem?_eq_getElem (by rw [inv.hist.vis_length]; exact hvlt)⟩
        simp only []
        cases b with
        | true =>
          simp only [hvget]
          exact ih _ bs r es (inv.stale hpop hvget) (by simp only []; omega)
        | false =>
          simp only [hvget]
          obtain ⟨treeU, huget⟩ : ∃ l, s.tree[u]? = some l :=
            ⟨_, List.getElem?_eq_getElem (by rw [inv.hist.tree_length]; exact hult)⟩
          simp only [huget]
          by_cases hc : s.selectedVertexCount + 1 < graph.length
          · rw [if_neg (not_not.2 hc)]
            obtain ⟨adjacency, hgget⟩ : ∃ a, graph[v]? = some a :=
              ⟨_, List.getElem?_eq_getElem hvlt⟩
            simp only [hgget]
            have hadj := adj_of_getElem? hgget
            have hall : ∀ e ∈ adjacency, e.1 < (s.vertexSelectStatus.set v true).length := by
              intro e he
              rw [List.length_set, inv.hist.vis_length]
              exact hv.adj_lt (hadj ▸ he)
            obtain ⟨q'', hq1, hq2⟩ :=
              enqueueUnselected_ok pq v (s.vertexSelectStatus.set v true) adjacency q' hall
            simp only [hq1]
            rw [← hadj] at hq2
            refine ih _ bs r _ (inv.absorb_inv hv hpop hvget huget hq2) ?_
            simp only []
            have h1 := unvisitedDegree_set _ graph v _ hvget hgget
            have h2 := hq2.length_eq
            rw [List.length_append, List.length_map] at h2
            have h3 := List.length_filter_le
              (fun e => (s.vertexSelectStatus.set v true)[e.1]? == some false) (adj graph v)
            rw [hadj] at h3 h2
            omega
          · rw [if_pos hc]
            refine ⟨_, (u, v, w) :: es, rfl, ?_⟩
            have hist := inv.hist.absorb_hist w hvget huget
            exact ⟨hist, inv.complete, inv.progress_absorb hv hpop hvget,
              closed_of_all hv (hist.all_of_count hc)⟩

theorem Complete.closed {graph : Graph} :
    ∀ {bs : List (Nat × List EdgeQueueElement)}, Complete graph bs → Closed graph (vertsOf bs)
  | [], _ => fun _ hx => by simp [vertsOf] at hx
  | _ :: _, h => h.2.2

theorem DriverInv.result {graph : Graph} {bs : List (Nat × List EdgeQueueElement)}
    {cnt : Nat} {vis : List Bool} {tree : List (List WeightedEdge)}
    (inv : DriverInv graph bs cnt vis tree) (hall : ∀ v, v < graph.length → v ∈ vertsOf bs) :
    RunResult graph tree bs :=
  ⟨inv.hist.tree_length, inv.hist.edges, inv.complete, inv.hist.nodup,
    fun v => ⟨fun h => inv.hist.lt_of_mem h, hall v⟩⟩

/-- The state right after the driver has seeded the frontier from `i` agrees with
the history in which the block of `i` has just been opened. -/
theorem DriverInv.seed_inv {pq : EdgeQueue} {graph : Graph}
    {bs : List (Nat × List EdgeQueueElement)}
    {cnt : Nat} {vis : List Bool} {tree : List (List WeightedEdge)}
    (inv : DriverInv graph bs cnt vis tree) {i : Nat} (hi : vis[i]? = some false)
    (hbelow : ∀ v < i, v ∈ vertsOf bs) {q : pq.Q}
    (hq : (pq.toList q).Perm
      ((((adj graph i).filter (fun e => (vis.set i true)[e.1]? == some false)).map
        (fun e => (i, e.1, e.2))) ++ pq.toList pq.empty)) :
    ExpansionInv pq graph bs i [] ⟨q, cnt + 1, vis.set i true, tree⟩ := by
  rw [pq.toList_empty, List.append_nil] at hq
  refine ⟨inv.hist.seed_hist hi, inv.complete,
    ⟨inv.complete.closed, ((inv.hist.false_iff i).1 hi).2, hbelow, trivial⟩, ?_, ?_⟩
  · intro e he
    obtain ⟨e', he', rfl⟩ := List.mem_map.1 (hq.mem_iff.1 he)
    exact ⟨by simp, (List.mem_filter.1 he').1⟩
  · intro x hx e he hf
    have hx' : x = i := by simpa [children] using hx
    subst hx'
    apply hq.mem_iff.2
    exact List.mem_map.2 ⟨e, List.mem_filter.2 ⟨he, by simpa using hf⟩, rfl⟩

/-- Total correctness of the driver loop from index `i` on. -/
theorem driverLoop_spec (pq : EdgeQueue) (graph : Graph) (hv : IndexValid graph) :
    ∀ (k i : Nat) (bs : List (Nat × List EdgeQueueElement)) (cnt : Nat) (vis : List Bool)
      (tree : List (List WeightedEdge)), i + k = graph.length →
      DriverInv graph bs cnt vis tree → (∀ v < i, v ∈ vertsOf bs) →
      ∃ forest bs', driverLoop pq graph (List.range' i k) cnt vis tree = .ok forest ∧
        RunResult graph forest bs' := by
  intro k
  induction k with
  | zero =>
    intro i bs cnt vis tree hik inv hbelow
    refine ⟨tree, bs, rfl, inv.result ?_⟩
    intro v hvlt
    exact hbelow v (by omega)
  | succ k ih =>
    intro i bs cnt vis tree hik inv hbelow
    have hilt : i < graph.length := by omega
    rw [List.range'_succ, driverLoop]
    obtain ⟨b, hget⟩ : ∃ b, vis[i]? = some b :=
      ⟨_, List.getElem?_eq_getElem (by rw [inv.hist.vis_length]; exact hilt)⟩
    cases b with
    | true =>
      simp only [hget]
      refine ih (i + 1) bs cnt vis tree (by omega) inv ?_
      intro v hvlt
      rcases Nat.lt_succ_iff_lt_or_eq.1 hvlt with h | h
      · exact hbelow v h
      · subst h
        exact (inv.hist.vis_iff v).1 hget
    | false =>
      simp only [hget]
      obtain ⟨adjacency, hgget⟩ : ∃ a, graph[i]? = some a :=
        ⟨_, List.getElem?_eq_getElem hilt⟩
      simp only [hgget]
      have hadj := adj_of_getElem? hgget
      have hall : ∀ e ∈ adjacency, e.1 < (vis.set i true).length := by
        intro e he
        rw [List.length_set, inv.hist.vis_length]
        exact hv.adj_lt (hadj ▸ he)
      obtain ⟨q, hq1, hq2⟩ :=
        enqueueUnselected_ok pq i (vis.set i true) adjacency pq.empty hall
      simp only [hq1]
      rw [← hadj] at hq2
      have einv : ExpansionInv pq graph bs i [] ⟨q, cnt + 1, vis.set i true, tree⟩ :=
        inv.seed_inv hget hbelow hq2
      have hexp : ∃ s' es',
          (if ¬ pq.isEmpty q = true then
            primAlgorithmOnAComponet pq graph (expansionFuel graph)
              ⟨q, cnt + 1, vis.set i true, tree⟩
          else .ok ⟨q, cnt + 1, vis.set i true, tree⟩) = .ok s' ∧
          DriverInv graph ((i, es') :: bs) s'.selectedVertexCount s'.vertexSelectStatus
            s'.tree := by
        by_cases hemp : pq.isEmpty q = true
        · rw [if_neg (not_not.2 hemp)]
          exact ⟨_, [], rfl, einv.finish (einv.closed_of_nil hv ((pq.isEmpty_iff _).1 hemp))⟩
        · rw [if_pos hemp]
          apply primAlgorithmOnAComponet_spec pq graph hv _ _ bs i [] einv
          simp only [expansionFuel]
          have h1 := unvisitedDegree_set _ graph i _ hget hgget
          have h2 := hq2.length_eq
          rw [pq.toList_empty, List.append_nil, List.length_map] at h2
          have h3 := List.length_filter_le
            (fun e => (vis.set i true)[e.1]? == some false) (adj graph i)
          have h4 := unvisitedDegree_le vis graph
          rw [hadj] at h3 h2
          omega
      obtain ⟨s', es', hrun, dinv⟩ := hexp
      simp only [hrun]
      by_cases hc : s'.selectedVertexCount < graph.length
      · rw [if_neg (not_not.2 hc)]
        refine ih (i + 1) _ _ _ _ (by omega) dinv ?_
        intro v hvlt
        rcases Nat.lt_succ_iff_lt_or_eq.1 hvlt with h | h
        · exact mem_vertsOf_cons.2 (Or.inr (hbelow v h))
        · subst h
          exact mem_vertsOf_cons.2 (Or.inl (List.mem_cons_self _ _))
      · rw [if_pos hc]
        exact ⟨_, _, rfl, dinv.result (dinv.hist.all_of_count hc)⟩

/-- Total correctness of `primAlgorithm` on an index-valid graph: it returns a
forest, and the forest records a finished history of the graph. -/
theorem primAlgorithm_spec (pq : EdgeQueue) (graph : Graph) (hv : IndexValid graph) :
    ∃ forest bs, primAlgorithm pq graph = .ok forest ∧ RunResult graph forest bs := by
  rw [primAlgorithm, List.range_eq_range']
  apply driverLoop_spec pq graph hv graph.length 0 [] 0 _ _ (by simp)
  · refine ⟨⟨by simp, by simp, ?_, by simp [vertsOf], by simp [vertsOf], ?_⟩, trivial⟩
    · intro v
      simp only [vertsOf, List.not_mem_nil, iff_false]
      intro h
      have := List.getElem?_replicate (a := false) (n := graph.length) (m := v)
      rw [this] at h
      split at h <;> cases h
    · simp [forestEdges, forestEdgesFrom_replicate, allEdges]
  · intro v h
    omega

/-! ## Connectivity by lists of edges -/

theorem edgeRel_symm {T : List EdgeQueueElement} {a b : Nat} (h : edgeRel T a b) :
    edgeRel T b a := by
  obtain ⟨e, he, h⟩ := h
  exact ⟨e, he, h.symm⟩

theorem edgeRel_mono {T T' : List EdgeQueueElement} (hT : ∀ e ∈ T, e ∈ T') {a b : Nat}
    (h : edgeRel T a b) : edgeRel T' a b := by
  obtain ⟨e, he, h⟩ := h
  exact ⟨e, hT e he, h⟩

theorem ConnMod.symm_mod {S : Nat → Prop} {T : List EdgeQueueElement} {a b : Nat}
    (h : ConnMod S T a b) : ConnMod S T b a := by
  refine Relation.ReflTransGen.symmetric ?_ h
  intro x y hxy
  rcases hxy with ⟨hx, hy⟩ | hxy
  · exact Or.inl ⟨hy, hx⟩
  · exact Or.inr (edgeRel_symm hxy)

theorem ConnMod.mono_mod {S S' : Nat → Prop} {T T' : List EdgeQueueElement}
    (hS : ∀ x, S x → S' x) (hT : ∀ e ∈ T, e ∈ T') {a b : Nat}
    (h : ConnMod S T a b) : ConnMod S' T' a b := by
  refine Relation.ReflTransGen.mono ?_ h
  intro x y hxy
  rcases hxy with ⟨hx, hy⟩ | hxy
  · exact Or.inl ⟨hS x hx, hS y hy⟩
  · exact Or.inr (edgeRel_mono hT hxy)

theorem ConnMod.of_edge {S : Nat → Prop} {T : List EdgeQueueElement} {e : EdgeQueueElement}
    (he : e ∈ T) : ConnMod S T e.1 e.2.1 :=
  Relation.ReflTransGen.single (Or.inr ⟨e, he, Or.inl ⟨rfl, rfl⟩⟩)

theorem ConnMod.of_merged {S : Nat → Prop} {T : List EdgeQueueElement} {a b : Nat}
    (ha : S a) (hb : S b) : ConnMod S T a b :=
  Relation.ReflTransGen.single (Or.inl ⟨ha, hb⟩)

theorem Conn.connMod {S : Nat → Prop} {T : List EdgeQueueElement} {a b : Nat}
    (h : Conn T a b) : ConnMod S T a b :=
  Relation.ReflTransGen.mono (fun _ _ hxy => Or.inr hxy) h

theorem Conn.symm_conn {T : List EdgeQueueElement} {a b : Nat} (h : Conn T a b) : Conn T b a :=
  Relation.ReflTransGen.symmetric (fun _ _ hxy => edgeRel_symm hxy) h

theorem Conn.mono_edges {T T' : List EdgeQueueElement} (hT : ∀ e ∈ T, e ∈ T') {a b : Nat}
    (h : Conn T a b) : Conn T' a b :=
  Relation.ReflTransGen.mono (fun _ _ hxy => edgeRel_mono hT hxy) h

/-- A path that may use the extra pair `x - y` either avoids it, or reaches one
of the two without it and leaves the other without it. -/
theorem reflTransGen_add_pair {α : Type} {r : α → α → Prop} {x y p q : α}
    (h : Relation.ReflTransGen (fun a b => r a b ∨ (a = x ∧ b = y) ∨ (a = y ∧ b = x)) p q) :
    Relation.ReflTransGen r p q ∨
      (Relation.ReflTransGen r p x ∧ Relation.ReflTransGen r y q) ∨
      (Relation.ReflTransGen r p y ∧ Relation.ReflTransGen r x q) := by
  induction h with
  | refl => exact Or.inl Relation.ReflTransGen.refl
  | tail _ hstep ih =>
    rcases hstep with hr | ⟨rfl, rfl⟩ | ⟨rfl, rfl⟩
    · rcases ih with h | ⟨h1, h2⟩ | ⟨h1, h2⟩
      · exact Or.inl (h.tail hr)
      · exact Or.inr (Or.inl ⟨h1, h2.tail hr⟩)
      · exact Or.inr (Or.inr ⟨h1, h2.tail hr⟩)
    · rcases ih with h | ⟨h1, _⟩ | ⟨h1, _⟩
      · exact Or.inr (Or.inl ⟨h, Relation.ReflTransGen.refl⟩)
      · exact Or.inr (Or.inl ⟨h1, Relation.ReflTransGen.refl⟩)
      · exact Or.inl h1
    · rcases ih with h | ⟨h1, _⟩ | ⟨h1, _⟩
      · exact Or.inr (Or.inr ⟨h, Relation.ReflTransGen.refl⟩)
      · exact Or.inl h1
      · exact Or.inr (Or.inr ⟨h1, Relation.ReflTransGen.refl⟩)

/-- Merging one more vertex `v` into `S` acts on connectivity like one extra edge
between `v` and a vertex `s` of `S`. -/
theorem ConnMod.split_merged {S : Nat → Prop} {T : List EdgeQueueElement} {v s p q : Nat}
    (hs : S s) (h : ConnMod (fun x => S x ∨ x = v) T p q) :
    ConnMod S T p q ∨ (ConnMod S T p v ∧ ConnMod S T s q) ∨
      (ConnMod S T p s ∧ ConnMod S T v q) := by
  apply reflTransGen_add_pair (x := v) (y := s)
  refine Relation.ReflTransGen.lift' id ?_ h
  intro a b hab
  have one : ∀ {c d : Nat},
      ((S c ∧ S d) ∨ edgeRel T c d) ∨ (c = v ∧ d = s) ∨ (c = s ∧ d = v) →
      Relation.ReflTransGen
        (fun a b => ((S a ∧ S b) ∨ edgeRel T a b) ∨ (a = v ∧ b = s) ∨ (a = s ∧ b = v)) c d :=
    fun h => Relation.ReflTransGen.single h
  rcases hab with ⟨ha | ha, hb | hb⟩ | hab
  · exact one (Or.inl (Or.inl ⟨ha, hb⟩))
  · subst hb
    exact (one (Or.inl (Or.inl ⟨ha, hs⟩))).trans (one (Or.inr (Or.inr ⟨rfl, rfl⟩)))
  · subst ha
    exact (one (Or.inr (Or.inl ⟨rfl, rfl⟩))).trans (one (Or.inl (Or.inl ⟨hs, hb⟩)))
  · subst ha
    subst hb
    exact Relation.ReflTransGen.refl
  · exact one (Or.inl (Or.inr hab))

/-- A path from outside `S` to inside `S` enters `S` through an edge of `T`, and
before that uses only edges of `T` between vertices outside `S`. -/
theorem ConnMod.first_entrance {S : Nat → Prop} {T : List EdgeQueueElement} {x y : Nat}
    (h : ConnMod S T x y) (hx : ¬ S x) (hy : S y) :
    ∃ a b, ¬ S a ∧ S b ∧ edgeRel T a b ∧
      Relation.ReflTransGen (fun p q => edgeRel T p q ∧ ¬ S p ∧ ¬ S q) x a := by
  induction h using Relation.ReflTransGen.head_induction_on with
  | refl => exact absurd hy hx
  | @head c d hstep _ ih =>
    by_cases hd : S d
    · rcases hstep with ⟨hc, _⟩ | hstep
      · exact absurd hc hx
      · exact ⟨c, d, hx, hd, hstep, Relation.ReflTransGen.refl⟩
    · obtain ⟨a, b, ha, hb, hab, hpath⟩ := ih hd
      rcases hstep with ⟨hc, _⟩ | hstep
      · exact absurd hc hx
      · exact ⟨a, b, ha, hb, hab, Relation.ReflTransGen.head ⟨hstep, hx, hd⟩ hpath⟩

theorem totalWeight_cons (e : EdgeQueueElement) (es : List EdgeQueueElement) :
    totalWeight (e :: es) = e.2.2 + totalWeight es := by
  simp [totalWeight]

theorem totalWeight_perm {es es' : List EdgeQueueElement} (h : es.Perm es') :
    totalWeight es = totalWeight es' := by
  simp only [totalWeight]
  exact (h.map _).sum_eq

theorem perm_cons_eraseEdge {f : EdgeQueueElement} :
    ∀ {T : List EdgeQueueElement}, f ∈ T → T.Perm (f :: eraseEdge T f)
  | [], h => by simp at h
  | x :: rest, h => by
    by_cases hx : x = f
    · simp [eraseEdge, hx]
    · have hf : f ∈ rest := by
        rcases List.mem_cons.1 h with h | h
        · exact absurd h.symm hx
        · exact h
      simp only [eraseEdge, if_neg hx]
      exact ((perm_cons_eraseEdge hf).cons x).trans (List.Perm.swap _ _ _)

theorem totalWeight_erase {T : List EdgeQueueElement} {f : EdgeQueueElement} (hf : f ∈ T) :
    totalWeight T = f.2.2 + totalWeight (eraseEdge T f) :=
  (totalWeight_perm (perm_cons_eraseEdge hf)).trans (totalWeight_cons _ _)

theorem mem_of_mem_eraseEdge {e f : EdgeQueueElement} :
    ∀ {T : List EdgeQueueElement}, e ∈ eraseEdge T f → e ∈ T
  | [], h => by simp [eraseEdge] at h
  | x :: rest, h => by
    by_cases hx : x = f
    · simp only [eraseEdge, if_pos hx] at h
      exact List.mem_cons_of_mem _ h
    · simp only [eraseEdge, if_neg hx] at h
      rcases List.mem_cons.1 h with h | h
      · exact h ▸ List.mem_cons_self _ _
      · exact List.mem_cons_of_mem _ (mem_of_mem_eraseEdge h)

theorem mem_eraseEdge_of_ne {e f : EdgeQueueElement} (hne : e ≠ f) :
    ∀ {T : List EdgeQueueElement}, e ∈ T → e ∈ eraseEdge T f
  | [], h => by simp at h
  | x :: rest, h => by
    by_cases hx : x = f
    · simp only [eraseEdge, if_pos hx]
      rcases List.mem_cons.1 h with h | h
      · exact absurd (h.trans hx) hne
      · exact h
    · simp only [eraseEdge, if_neg hx]
      rcases List.mem_cons.1 h with h | h
      · exact h ▸ List.mem_cons_self _ _
      · exact List.mem_cons_of_mem _ (mem_eraseEdge_of_ne hne h)

theorem eraseEdge_comm (e f : EdgeQueueElement) :
    ∀ T : List EdgeQueueElement, eraseEdge (eraseEdge T e) f = eraseEdge (eraseEdge T f) e
  | [] => rfl
  | x :: rest => by
    by_cases hxe : x = e <;> by_cases hxf : x = f
    · rw [← hxe, ← hxf]
    · subst hxe
      simp [eraseEdge, hxf]
    · subst hxf
      simp [eraseEdge, hxe]
    · simp [eraseEdge, hxe, hxf, eraseEdge_comm e f rest]

theorem eraseEdge_of_not_mem {f : EdgeQueueElement} :
    ∀ {T : List EdgeQueueElement}, f ∉ T → eraseEdge T f = T
  | [], _ => rfl
  | x :: rest, h => by
    have hx : x ≠ f := fun hx => h (hx ▸ List.mem_cons_self _ _)
    have hr : f ∉ rest := fun hr => h (List.mem_cons_of_mem _ hr)
    simp [eraseEdge, hx, eraseEdge_of_not_mem hr]

theorem eraseEdge_perm {f : EdgeQueueElement} {T T' : List EdgeQueueElement}
    (h : T.Perm T') : (eraseEdge T f).Perm (eraseEdge T' f) := by
  by_cases hf : f ∈ T
  · have h1 := perm_cons_eraseEdge hf
    have h2 := perm_cons_eraseEdge (h.mem_iff.1 hf)
    exact List.Perm.cons_inv ((h1.symm.trans h).trans h2)
  · rw [eraseEdge_of_not_mem hf, eraseEdge_of_not_mem (fun h' => hf (h.mem_iff.2 h'))]
    exact h

/-! ## The exchange argument -/

/-- One step of the exchange argument. If `T` joins the vertex `v` outside `S` to
`S` once `S` is merged, then `T` has an edge `f` with exactly one endpoint in `S`
such that `T` without `f` still joins what `T` joined, and still has no cycle if
`T` had none, once `v` is merged into `S` as well. -/
theorem exchange_step {S : Nat → Prop} {T : List EdgeQueueElement} {v s : Nat}
    (hs : S s) (hv : ¬ S v) (hconn : ConnMod S T v s) :
    ∃ f ∈ T, ((S f.1 ∧ ¬ S f.2.1) ∨ (¬ S f.1 ∧ S f.2.1)) ∧
      (∀ a b, ConnMod S T a b → ConnMod (fun x => S x ∨ x = v) (eraseEdge T f) a b) ∧
      (AcyclicMod S T → AcyclicMod (fun x => S x ∨ x = v) (eraseEdge T f)) := by
  obtain ⟨a, b, ha, hb, ⟨f, hf, hfab⟩, hpath⟩ := hconn.first_entrance hv hs
  have hcross : (S f.1 ∧ ¬ S f.2.1) ∨ (¬ S f.1 ∧ S f.2.1) := by
    rcases hfab with ⟨h1, h2⟩ | ⟨h1, h2⟩
    · exact Or.inr ⟨h1 ▸ ha, h2 ▸ hb⟩
    · exact Or.inl ⟨h1 ▸ hb, h2 ▸ ha⟩
  -- edges between vertices outside `S` survive the removal of `f`
  have hout : ∀ p q, (edgeRel T p q ∧ ¬ S p ∧ ¬ S q) → edgeRel (eraseEdge T f) p q := by
    rintro p q ⟨⟨e, he, hepq⟩, hp, hq⟩
    refine ⟨e, mem_eraseEdge_of_ne ?_ he, hepq⟩
    rintro rfl
    rcases hepq with ⟨h1, h2⟩ | ⟨h1, h2⟩ <;> rcases hcross with ⟨h3, h4⟩ | ⟨h3, h4⟩
    · exact hp (h1 ▸ h3)
    · exact hq (h2 ▸ h4)
    · exact hq (h1 ▸ h3)
    · exact hp (h2 ▸ h4)
  have hva : ∀ S' : Nat → Prop, ConnMod S' (eraseEdge T f) v a := fun S' =>
    Relation.ReflTransGen.mono (fun p q hpq => Or.inr (hout p q hpq)) hpath
  have hab' : ConnMod (fun x => S x ∨ x = v) (eraseEdge T f) a b :=
    (hva _).symm_mod.trans (ConnMod.of_merged (Or.inr rfl) (Or.inl hb))
  refine ⟨f, hf, hcross, ?_, ?_⟩
  · intro p q hpq
    refine Relation.ReflTransGen.lift' id ?_ hpq
    rintro c d (⟨hc, hd⟩ | ⟨e, he, hecd⟩)
    · exact ConnMod.of_merged (Or.inl hc) (Or.inl hd)
    · by_cases hef : e = f
      · subst hef
        have hcd : (c = a ∧ d = b) ∨ (c = b ∧ d = a) := by
          rcases hecd with ⟨h1, h2⟩ | ⟨h1, h2⟩ <;> rcases hfab with ⟨h3, h4⟩ | ⟨h3, h4⟩
          · exact Or.inl ⟨h1.symm.trans h3, h2.symm.trans h4⟩
          · exact Or.inr ⟨h1.symm.trans h3, h2.symm.trans h4⟩
          · exact Or.inr ⟨h2.symm.trans h4, h1.symm.trans h3⟩
          · exact Or.inl ⟨h2.symm.trans h4, h1.symm.trans h3⟩
        rcases hcd with ⟨rfl, rfl⟩ | ⟨rfl, rfl⟩
        · exact hab'
        · exact hab'.symm_mod
      · exact Relation.ReflTransGen.single (Or.inr ⟨e, mem_eraseEdge_of_ne hef he, hecd⟩)
  · intro hac e he hcyc
    have heT : e ∈ T := mem_of_mem_eraseEdge he
    have hsub : ∀ x ∈ eraseEdge (eraseEdge T f) e, x ∈ eraseEdge T f :=
      fun x hx => mem_of_mem_eraseEdge hx
    have hfab' : ConnMod S (eraseEdge T f) a b → False := by
      intro h
      rcases hfab with ⟨h1, h2⟩ | ⟨h1, h2⟩
      · exact hac f hf (h1 ▸ h2 ▸ h)
      · exact hac f hf (h1 ▸ h2 ▸ h.symm_mod)
    have hee : ConnMod S (eraseEdge T f) e.1 e.2.1 := ConnMod.of_edge he
    rcases ConnMod.split_merged hb hcyc with h | ⟨h1, h2⟩ | ⟨h1, h2⟩
    · apply hac e heT
      refine h.mono_mod (fun _ hx => hx) ?_
      intro x hx
      rw [eraseEdge_comm] at hx
      exact mem_of_mem_eraseEdge hx
    · have h1' := h1.mono_mod (fun _ hx => hx) hsub
      have h2' := h2.mono_mod (fun _ hx => hx) hsub
      exact hfab' ((((hva S).symm_mod.trans h1'.symm_mod).trans hee).trans h2'.symm_mod)
    · have h1' := h1.mono_mod (fun _ hx => hx) hsub
      have h2' := h2.mono_mod (fun _ hx => hx) hsub
      exact hfab' ((((hva S).symm_mod.trans h2').trans hee.symm_mod).trans h1')

/-- The exchange argument along the steps of a block. A list `T` of graph edges
that joins every vertex of the block to the root, once the vertices absorbed
before and the root are merged, contains, for each selected edge of `es`, an edge
of its own that weighs at least as much; what is left of `T` without these edges
has no cycle, once the whole block is merged, if `T` had none. -/
theorem StepsOK.exchange {graph : Graph} (hsym : Symmetric graph) {V0 : List Nat} {r : Nat} :
    ∀ {es : List EdgeQueueElement}, StepsOK graph V0 r es →
    ∀ T : List EdgeQueueElement, (∀ e ∈ T, (e.2.1, e.2.2) ∈ adj graph e.1) →
      (∀ x ∈ children es, ConnMod (fun x => x ∈ V0 ∨ x ∈ [r]) T x r) →
      ∃ T', (∀ e ∈ T', e ∈ T) ∧
        (∀ a b, ConnMod (fun x => x ∈ V0 ∨ x ∈ [r]) T a b →
          ConnMod (fun x => x ∈ V0 ∨ x ∈ r :: children es) T' a b) ∧
        (AcyclicMod (fun x => x ∈ V0 ∨ x ∈ [r]) T →
          AcyclicMod (fun x => x ∈ V0 ∨ x ∈ r :: children es) T') ∧
        totalWeight es + totalWeight T' ≤ totalWeight T ∧
        T'.length + es.length = T.length
  | [], _, T, _, _ => ⟨T, fun _ h => h, fun _ _ h => h, fun h => h, by simp [totalWeight], rfl⟩
  | e :: es, hsteps, T, hT, hconn => by
    obtain ⟨hes, -, hv0, hv1, -, hmin⟩ := hsteps
    obtain ⟨T1, hsub, hconn1, hac1, hw1, hlen1⟩ := hes.exchange hsym T hT
      (fun x hx => hconn x (by simp only [children, List.map_cons]; exact List.mem_cons_of_mem _ hx))
    have hvr := hconn1 _ _ (hconn e.2.1 (by simp [children]))
    have hvS : ¬ (e.2.1 ∈ V0 ∨ e.2.1 ∈ r :: children es) := fun h => h.elim hv0 hv1
    obtain ⟨f, hf, hcross, hconn2, hac2⟩ :=
      exchange_step (S := fun x => x ∈ V0 ∨ x ∈ r :: children es) (Or.inr (List.mem_cons_self _ _))
        hvS hvr
    have hiff : ∀ x, (x ∈ V0 ∨ x ∈ r :: children (e :: es)) ↔
        ((x ∈ V0 ∨ x ∈ r :: children es) ∨ x = e.2.1) := by
      intro x
      simp only [children, List.map_cons, List.mem_cons]
      constructor
      · rintro (h | h | h | h)
        · exact Or.inl (Or.inl h)
        · exact Or.inl (Or.inr (Or.inl h))
        · exact Or.inr h
        · exact Or.inl (Or.inr (Or.inr h))
      · rintro ((h | h | h) | h)
        · exact Or.inl h
        · exact Or.inr (Or.inl h)
        · exact Or.inr (Or.inr (Or.inr h))
        · exact Or.inr (Or.inr (Or.inl h))
    have hfw : e.2.2 ≤ f.2.2 := by
      have hfadj := hT f (hsub f hf)
      rcases hcross with ⟨h1, h2⟩ | ⟨h1, h2⟩
      · exact hmin f.1 f.2.1 f.2.2 h1 (fun h => h2 (Or.inl h)) (fun h => h2 (Or.inr h)) hfadj
      · exact hmin f.2.1 f.1 f.2.2 h2 (fun h => h1 (Or.inl h)) (fun h => h1 (Or.inr h))
          ((hsym _ _ _).1 hfadj)
    refine ⟨eraseEdge T1 f, fun x hx => hsub x (mem_of_mem_eraseEdge hx), ?_, ?_, ?_, ?_⟩
    · intro a b hab
      exact (hconn2 a b (hconn1 a b hab)).mono_mod (fun x hx => (hiff x).2 hx) (fun _ h => h)
    · intro hac x hx hcyc
      exact hac2 (hac1 hac) x hx (hcyc.mono_mod (fun y hy => (hiff y).1 hy) (fun _ h => h))
    · rw [totalWeight_cons]
      have := totalWeight_erase hf
      omega
    · have := (perm_cons_eraseEdge hf).length_eq
      simp only [List.length_cons] at this ⊢
      omega

/-! ## Blocks of a finished history are the connected components -/

theorem Adjacent.symm_adj {graph : Graph} {u v : Nat} (h : Adjacent graph u v) :
    Adjacent graph v u := by
  obtain ⟨w, h⟩ := h
  exact ⟨w, h.symm⟩

theorem Reach.symm_reach {graph : Graph} {u v : Nat} (h : Reach graph u v) : Reach graph v u :=
  Relation.ReflTransGen.symmetric (fun _ _ hxy => Adjacent.symm_adj hxy) h

theorem Adjacent.mem_adj_of_symmetric {graph : Graph} (hsym : Symmetric graph) {u v : Nat}
    (h : Adjacent graph u v) : ∃ w, (v, w) ∈ adj graph u := by
  obtain ⟨w, h | h⟩ := h
  · exact ⟨w, h⟩
  · exact ⟨w, (hsym _ _ _).1 h⟩

theorem Closed.reach_mem {graph : Graph} (hsym : Symmetric graph) {V : List Nat}
    (hc : Closed graph V) {x y : Nat} (hx : x ∈ V) (h : Reach graph x y) : y ∈ V := by
  induction h with
  | refl => exact hx
  | tail _ hstep ih =>
    obtain ⟨w, hw⟩ := hstep.mem_adj_of_symmetric hsym
    exact hc _ ih _ hw

theorem Reach.lt_length {graph : Graph} (hv : IndexValid graph) {x y : Nat} (hx : x < graph.length)
    (h : Reach graph x y) : y < graph.length := by
  induction h with
  | refl => exact hx
  | tail _ hstep _ =>
    obtain ⟨w, hw | hw⟩ := hstep
    · exact hv.adj_lt hw
    · exact adj_mem_lt hw

theorem StepsOK.edge_mem {graph : Graph} {V0 : List Nat} {r : Nat} :
    ∀ {es : List EdgeQueueElement}, StepsOK graph V0 r es →
      ∀ e ∈ es, e.1 ∈ r :: children es ∧ e.2.1 ∈ r :: children es ∧
        (e.2.1, e.2.2) ∈ adj graph e.1
  | [], _, e, he => by simp at he
  | x :: es, h, e, he => by
    have hsub : ∀ v, v ∈ r :: children es → v ∈ r :: children (x :: es) := by
      intro v hv
      simp only [children, List.map_cons, List.mem_cons] at hv ⊢
      tauto
    rcases List.mem_cons.1 he with rfl | he
    · exact ⟨hsub _ h.2.1, by simp [children], h.2.2.2.2.1⟩
    · have := h.1.edge_mem e he
      exact ⟨hsub _ this.1, hsub _ this.2.1, this.2.2⟩

theorem StepsOK.not_mem {graph : Graph} {V0 : List Nat} {r : Nat} :
    ∀ {es : List EdgeQueueElement}, StepsOK graph V0 r es → ∀ v ∈ children es, v ∉ V0
  | [], _, v, hv => by simp [children] at hv
  | x :: es, h, v, hv => by
    simp only [children, List.map_cons, List.mem_cons] at hv
    rcases hv with rfl | hv
    · exact h.2.2.1
    · exact h.1.not_mem v hv

theorem StepsOK.reach_root {graph : Graph} {V0 : List Nat} {r : Nat} :
    ∀ {es : List EdgeQueueElement}, StepsOK graph V0 r es →
      ∀ v ∈ r :: children es, Reach graph r v
  | [], _, v, hv => by
    have : v = r := by simpa [children] using hv
    subst this
    exact Relation.ReflTransGen.refl
  | x :: es, h, v, hv => by
    have hv' : v = x.2.1 ∨ v ∈ r :: children es := by
      simp only [children, List.map_cons, List.mem_cons] at hv ⊢
      tauto
    rcases hv' with rfl | hv'
    · exact (h.1.reach_root _ h.2.1).tail ⟨x.2.2, Or.inl h.2.2.2.2.1⟩
    · exact h.1.reach_root v hv'

theorem StepsOK.conn {graph : Graph} {V0 : List Nat} {r : Nat} :
    ∀ {es : List EdgeQueueElement}, StepsOK graph V0 r es →
      ∀ v ∈ r :: children es, Conn es r v
  | [], _, v, hv => by
    have : v = r := by simpa [children] using hv
    subst this
    exact Relation.ReflTransGen.refl
  | x :: es, h, v, hv => by
    have hv' : v = x.2.1 ∨ v ∈ r :: children es := by
      simp only [children, List.map_cons, List.mem_cons] at hv ⊢
      tauto
    have hmono : ∀ {a b : Nat}, Conn es a b → Conn (x :: es) a b :=
      fun hab => hab.mono_edges (fun _ he => List.mem_cons_of_mem _ he)
    rcases hv' with rfl | hv'
    · exact (hmono (h.1.conn _ h.2.1)).tail ⟨x, List.mem_cons_self _ _, Or.inl ⟨rfl, rfl⟩⟩
    · exact hmono (h.1.conn v hv')

/-- A vertex joined to another one by edges of `T` is an endpoint of an edge of `T`. -/
theorem Conn.endpoint {T : List EdgeQueueElement} {p q : Nat} (h : Conn T p q) :
    p = q ∨ ((∃ e ∈ T, e.1 = p ∨ e.2.1 = p) ∧ (∃ e ∈ T, e.1 = q ∨ e.2.1 = q)) := by
  induction h with
  | refl => exact Or.inl rfl
  | tail hpb hstep ih =>
    rename_i b c
    obtain ⟨e, he, hbc⟩ := hstep
    have hc : ∃ e ∈ T, e.1 = c ∨ e.2.1 = c :=
      ⟨e, he, hbc.elim (fun h => Or.inr h.2) (fun h => Or.inl h.1)⟩
    have hb : ∃ e ∈ T, e.1 = b ∨ e.2.1 = b :=
      ⟨e, he, hbc.elim (fun h => Or.inl h.1) (fun h => Or.inr h.2)⟩
    rcases ih with rfl | ⟨hp, _⟩
    · exact Or.inr ⟨hb, hc⟩
    · exact Or.inr ⟨hp, hc⟩

/-- Adding an edge to a fresh vertex creates no cycle. -/
theorem Acyclic.cons_leaf {T : List EdgeQueueElement} {e : EdgeQueueElement}
    (hac : Acyclic T) (hne : e.1 ≠ e.2.1) (hfresh : ∀ x ∈ T, x.1 ≠ e.2.1 ∧ x.2.1 ≠ e.2.1) :
    Acyclic (e :: T) := by
  have hnoconn : ∀ {U : List EdgeQueueElement}, (∀ x ∈ U, x ∈ T) → ∀ {p : Nat},
      p ≠ e.2.1 → ¬ Conn U p e.2.1 := by
    intro U hU p hp h
    rcases h.endpoint with h | ⟨_, x, hx, hx'⟩
    · exact hp h
    · rcases hx' with hx' | hx'
      · exact (hfresh x (hU x hx)).1 hx'
      · exact (hfresh x (hU x hx)).2 hx'
  intro x hx hcyc
  by_cases hxe : e = x
  · subst hxe
    simp only [eraseEdge, if_true] at hcyc
    exact hnoconn (fun _ h => h) hne hcyc
  · have hxT : x ∈ T := by
      rcases List.mem_cons.1 hx with h | h
      · exact absurd h.symm hxe
      · exact h
    simp only [eraseEdge, if_neg hxe] at hcyc
    have hsub : ∀ y ∈ eraseEdge T x, y ∈ T := fun y hy => mem_of_mem_eraseEdge hy
    have hlift : Relation.ReflTransGen
        (fun a b => edgeRel (eraseEdge T x) a b ∨ (a = e.1 ∧ b = e.2.1) ∨ (a = e.2.1 ∧ b = e.1))
        x.1 x.2.1 := by
      refine Relation.ReflTransGen.mono ?_ hcyc
      rintro a b ⟨y, hy, hab⟩
      rcases List.mem_cons.1 hy with rfl | hy
      · exact Or.inr (hab.imp (fun h => ⟨h.1.symm, h.2.symm⟩) (fun h => ⟨h.2.symm, h.1.symm⟩))
      · exact Or.inl ⟨y, hy, hab⟩
    rcases reflTransGen_add_pair hlift with h | ⟨_, h2⟩ | ⟨h1, _⟩
    · exact hac x hxT h
    · exact hnoconn hsub (hfresh x hxT).2 (Conn.symm_conn h2)
    · exact hnoconn hsub (hfresh x hxT).1 h1

theorem StepsOK.acyclic {graph : Graph} {V0 : List Nat} {r : Nat} :
    ∀ {es : List EdgeQueueElement}, StepsOK graph V0 r es → Acyclic es
  | [], _ => fun e he => by simp at he
  | x :: es, h => by
    refine h.1.acyclic.cons_leaf ?_ ?_
    · intro heq
      exact h.2.2.2.1 (heq ▸ h.2.1)
    · intro y hy
      have := h.1.edge_mem y hy
      exact ⟨fun heq => h.2.2.2.1 (heq ▸ this.1), fun heq => h.2.2.2.1 (heq ▸ this.2.1)⟩

/-- In a symmetric graph the vertices of a finished block are exactly the vertices
joined to its root. -/
theorem Complete.component {graph : Graph} (hsym : Symmetric graph) {r : Nat}
    {es : List EdgeQueueElement} {bs : List (Nat × List EdgeQueueElement)}
    (h : Complete graph ((r, es) :: bs)) (v : Nat) :
    v ∈ r :: children es ↔ Reach graph r v := by
  obtain ⟨-, ⟨hc0, hr, -, hsteps⟩, hc1⟩ := h
  constructor
  · exact hsteps.reach_root v
  · intro hreach
    have h1 : v ∈ vertsOf ((r, es) :: bs) :=
      hc1.reach_mem hsym (mem_vertsOf_cons.2 (Or.inl (List.mem_cons_self _ _))) hreach
    rcases mem_vertsOf_cons.1 h1 with h1 | h1
    · exact h1
    · exact absurd (hc0.reach_mem hsym h1 hreach.symm_reach) hr

theorem Complete.suffix {graph : Graph} :
    ∀ (l1 : List (Nat × List EdgeQueueElement)) {l2 : List (Nat × List EdgeQueueElement)},
      Complete graph (l1 ++ l2) → Complete graph l2
  | [], _, h => h
  | _ :: l1, _, h => Complete.suffix l1 h.1

theorem mem_vertsOf_iff {v : Nat} :
    ∀ {bs : List (Nat × List EdgeQueueElement)},
      v ∈ vertsOf bs ↔ ∃ b ∈ bs, v ∈ blockVerts b
  | [] => by simp [vertsOf]
  | b :: bs => by
    simp only [vertsOf, List.mem_append, @mem_vertsOf_iff v bs, List.mem_cons,
      exists_eq_or_imp]

theorem mem_allEdges_iff {e : EdgeQueueElement} :
    ∀ {bs : List (Nat × List EdgeQueueElement)}, e ∈ allEdges bs ↔ ∃ b ∈ bs, e ∈ b.2
  | [] => by simp [allEdges]
  | b :: bs => by
    simp only [allEdges, List.mem_append, @mem_allEdges_iff e bs, List.mem_cons,
      exists_eq_or_imp]

theorem Complete.block_mem {graph : Graph} :
    ∀ {bs : List (Nat × List EdgeQueueElement)}, Complete graph bs →
      ∀ b ∈ bs, ∀ e ∈ b.2, e.1 ∈ blockVerts b ∧ e.2.1 ∈ blockVerts b ∧
        (e.2.1, e.2.2) ∈ adj graph e.1
  | [], _, b, hb => by simp at hb
  | b0 :: bs, h, b, hb => by
    rcases List.mem_cons.1 hb with rfl | hb
    · exact h.2.1.2.2.2.edge_mem
    · exact h.1.block_mem b hb

theorem Complete.of_mem {graph : Graph} {bs : List (Nat × List EdgeQueueElement)}
    (h : Complete graph bs) {b : Nat × List EdgeQueueElement} (hb : b ∈ bs) :
    ∃ l2, Complete graph (b :: l2) := by
  obtain ⟨l1, l2, rfl⟩ := List.append_of_mem hb
  exact ⟨l2, Complete.suffix l1 h⟩

/-- In a history that absorbs no vertex twice, the edges of one block are
singled out by any test that accepts the edges inside the block and rejects the
edges leaving other vertices. -/
theorem allEdges_filter_block :
    ∀ {bs : List (Nat × List EdgeQueueElement)},
      (∀ b ∈ bs, ∀ e ∈ b.2, e.1 ∈ blockVerts b) → (vertsOf bs).Nodup →
      ∀ {b : Nat × List EdgeQueueElement}, b ∈ bs → ∀ p : EdgeQueueElement → Bool,
      (∀ e ∈ b.2, p e = true) → (∀ e, e.1 ∉ blockVerts b → p e = false) →
      (allEdges bs).filter p = b.2
  | [], _, _, b, hb, _, _, _ => by simp at hb
  | b0 :: rest, hmem, hnd, b, hb, p, hp1, hp2 => by
    simp only [vertsOf] at hnd
    obtain ⟨-, hnd2, hdisj⟩ := List.nodup_append.1 hnd
    simp only [allEdges, List.filter_append]
    rcases List.mem_cons.1 hb with rfl | hb'
    · have h1 : b.2.filter p = b.2 := List.filter_eq_self.2 hp1
      have h2 : (allEdges rest).filter p = [] := by
        apply List.filter_eq_nil_iff.2
        intro e he
        obtain ⟨b', hb', he'⟩ := mem_allEdges_iff.1 he
        have hin : e.1 ∈ vertsOf rest :=
          mem_vertsOf_iff.2 ⟨b', hb', hmem b' (List.mem_cons_of_mem _ hb') e he'⟩
        rw [hp2 e (fun h => hdisj h hin)]
        simp
      rw [h1, h2, List.append_nil]
    · have h1 : b0.2.filter p = [] := by
        apply List.filter_eq_nil_iff.2
        intro e he
        have hin : e.1 ∈ blockVerts b0 := hmem b0 (List.mem_cons_self _ _) e he
        rw [hp2 e (fun h => hdisj hin (mem_vertsOf_iff.2 ⟨b, hb', h⟩))]
        simp
      have h2 := allEdges_filter_block (fun b' hb' => hmem b' (List.mem_cons_of_mem _ hb'))
        hnd2 hb' p hp1 hp2
      rw [h1, h2, List.nil_append]

/-- In a symmetric graph every connected component is the vertex set of one block
of the history of a run. -/
theorem RunResult.block_of_component {graph : Graph} (hsym : Symmetric graph)
    {forest : List (List WeightedEdge)} {bs : List (Nat × List EdgeQueueElement)}
    (res : RunResult graph forest bs) {C : Finset Nat} (hC : IsComponent graph C) :
    ∃ r es l2, (r, es) ∈ bs ∧ Complete graph ((r, es) :: l2) ∧
      ∀ v, v ∈ C ↔ v ∈ r :: children es := by
  obtain ⟨r0, hr0, hC⟩ := hC
  obtain ⟨⟨r, es⟩, hb, hr0b⟩ := mem_vertsOf_iff.1 ((res.verts_iff r0).2 hr0)
  obtain ⟨l2, hcomp⟩ := res.complete.of_mem hb
  refine ⟨r, es, l2, hb, hcomp, fun v => ?_⟩
  have h0 : Reach graph r r0 := (hcomp.component hsym r0).1 hr0b
  rw [hC v, hcomp.component hsym v]
  exact ⟨fun h => h0.trans h, fun h => h0.symm_reach.trans h⟩

/-- The forest edges leaving (or inside) a component are, up to their order, the
edges selected in the block of that component. -/
theorem RunResult.filter_perm {graph : Graph}
    {forest : List (List WeightedEdge)} {bs : List (Nat × List EdgeQueueElement)}
    (res : RunResult graph forest bs) {r : Nat} {es : List EdgeQueueElement}
    (hb : (r, es) ∈ bs) (p : EdgeQueueElement → Bool)
    (hp1 : ∀ e, e.1 ∈ r :: children es → e.2.1 ∈ r :: children es → p e = true)
    (hp2 : ∀ e, e.1 ∉ r :: children es → p e = false) :
    ((forestEdges forest).filter p).Perm es := by
  have hmem := res.complete.block_mem
  have h : (allEdges bs).filter p = es :=
    allEdges_filter_block (fun b hb e he => (hmem b hb e he).1) res.nodup hb p
      (fun e he => hp1 e (hmem _ hb e he).1 (hmem _ hb e he).2.1) hp2
  exact h ▸ res.edges.filter p

/-- Inside a vertex set that meets the merged set `S` in `r` only, merging `S`
adds no connection between vertices of the set. -/
theorem ConnMod.conn_of_inside {S : Nat → Prop} {T : List EdgeQueueElement} {C : Finset Nat}
    {r : Nat} (hT : ∀ e ∈ T, e.1 ∈ C ∧ e.2.1 ∈ C) (hS : ∀ x, S x → x ∈ C → x = r)
    {a b : Nat} (h : ConnMod S T a b) (ha : a ∈ C) (hb : b ∈ C) : Conn T a b := by
  have key : Conn T (if a ∈ C then a else r) (if b ∈ C then b else r) := by
    refine Relation.ReflTransGen.lift' (fun x => if x ∈ C then x else r) ?_ h
    rintro c d (⟨hc, hd⟩ | ⟨e, he, hcd⟩)
    · have hc' : (if c ∈ C then c else r) = r := by
        split
        · exact hS c hc ‹_›
        · rfl
      have hd' : (if d ∈ C then d else r) = r := by
        split
        · exact hS d hd ‹_›
        · rfl
      simp only [hc', hd']
      exact Relation.ReflTransGen.refl
    · have hcC : c ∈ C := by
        rcases hcd with ⟨h1, _⟩ | ⟨_, h2⟩
        · exact h1 ▸ (hT e he).1
        · exact h2 ▸ (hT e he).2
      have hdC : d ∈ C := by
        rcases hcd with ⟨_, h2⟩ | ⟨h1, _⟩
        · exact h2 ▸ (hT e he).2
        · exact h1 ▸ (hT e he).1
      simp only [if_pos hcC, if_pos hdC]
      exact Relation.ReflTransGen.single ⟨e, he, hcd⟩
  simpa [ha, hb] using key

theorem Acyclic.perm {T T' : List EdgeQueueElement} (h : T.Perm T') (hac : Acyclic T) :
    Acyclic T' := by
  intro e he hcyc
  apply hac e (h.mem_iff.2 he)
  exact hcyc.mono_edges (fun x hx => (eraseEdge_perm h).mem_iff.2 hx)

/-! ## Minimum spanning forest -/

/-- The selected edges of a finished block weigh no more than any spanning tree
of the block's vertex set. -/
theorem Complete.block_minimum {graph : Graph} (hsym : Symmetric graph) {r : Nat}
    {es : List EdgeQueueElement} {l2 : List (Nat × List EdgeQueueElement)}
    (hcomp : Complete graph ((r, es) :: l2)) {C : Finset Nat}
    (hC : ∀ v, v ∈ C ↔ v ∈ r :: children es) {T : List EdgeQueueElement}
    (hT : IsSpanningTree graph C T) : totalWeight es ≤ totalWeight T := by
  obtain ⟨-, ⟨-, hr, -, hsteps⟩, -⟩ := hcomp
  obtain ⟨hTe, hTc, hTa⟩ := hT
  have hrC : r ∈ C := (hC r).2 (List.mem_cons_self _ _)
  have hS : ∀ x, (x ∈ vertsOf l2 ∨ x ∈ [r]) → x ∈ C → x = r := by
    rintro x (hx | hx) hxC
    · rcases List.mem_cons.1 ((hC x).1 hxC) with h | h
      · exact h
      · exact absurd hx (hsteps.not_mem x h)
    · simpa using hx
  have hconn : ∀ x ∈ children es, ConnMod (fun x => x ∈ vertsOf l2 ∨ x ∈ [r]) T x r :=
    fun x hx => (hTc x ((hC x).2 (List.mem_cons_of_mem _ hx)) r hrC).connMod
  have hacm : AcyclicMod (fun x => x ∈ vertsOf l2 ∨ x ∈ [r]) T := by
    intro e he hcyc
    apply hTa e he
    exact ConnMod.conn_of_inside (C := C) (r := r)
      (fun x hx => (hTe x (mem_of_mem_eraseEdge hx)).2) hS hcyc (hTe e he).2.1 (hTe e he).2.2
  obtain ⟨T', hsub, -, hac, hw, -⟩ :=
    hsteps.exchange hsym T (fun e he => (hTe e he).1) hconn
  have hac' := hac hacm
  have hnil : T' = [] := by
    cases T' with
    | nil => rfl
    | cons e rest =>
      exfalso
      have he : e ∈ e :: rest := List.mem_cons_self _ _
      have heT := hTe e (hsub e he)
      exact hac' e he
        (ConnMod.of_merged (Or.inr ((hC _).1 heT.2.1)) (Or.inr ((hC _).1 heT.2.2)))
  rw [hnil] at hw
  simpa [totalWeight] using hw

/-- A criterion for symmetry that can be checked by going through the adjacency
lists. -/
theorem symmetric_of_forall {graph : Graph}
    (h : ∀ u < graph.length, ∀ e ∈ adj graph u, (u, e.2) ∈ adj graph e.1) :
    Symmetric graph := by
  intro u v w
  constructor
  · intro huv
    exact h u (adj_mem_lt huv) (v, w) huv
  · intro hvu
    exact h v (adj_mem_lt hvu) (u, w) hvu

/-- C1. MST optimality: on an index-valid symmetric graph `primAlgorithm` returns
a forest, and for every connected component `C` with at least two vertices the
forest edges between vertices of `C` weigh, in total, no more than any spanning
tree of `C` built from graph edges. -/
theorem primAlgorithm_minimum_weight (pq : EdgeQueue) (graph : Graph)
    (hvalid : IndexValid graph) (hsym : Symmetric graph) :
    ∃ forest, primAlgorithm pq graph = .ok forest ∧
      ∀ C : Finset Nat, IsComponent graph C → 2 ≤ C.card →
        ∀ T : List EdgeQueueElement, IsSpanningTree graph C T →
          totalWeight (edgesWithin C (forestEdges forest)) ≤ totalWeight T := by
  obtain ⟨forest, bs, hrun, res⟩ := primAlgorithm_spec pq graph hvalid
  refine ⟨forest, hrun, fun C hC _ T hT => ?_⟩
  obtain ⟨r, es, l2, hb, hcomp, hCiff⟩ := res.block_of_component hsym hC
  have hperm := res.filter_perm hb (fun e => decide (e.1 ∈ C) && decide (e.2.1 ∈ C))
    (fun e h1 h2 => by simp [(hCiff _).2 h1, (hCiff _).2 h2])
    (fun e h1 => by
      have : e.1 ∉ C := fun h => h1 ((hCiff _).1 h)
      simp [this])
  rw [edgesWithin, totalWeight_perm hperm]
  exact hcomp.block_minimum hsym hCiff hT

/-- C2. Spanning tree per component: on an index-valid symmetric graph
`primAlgorithm` returns a forest, and for every connected component `C` the
forest edges whose parent lies in `C` have both endpoints in `C`, contain no
cycle and connect every pair of vertices of `C`. -/
theorem primAlgorithm_spanning_tree (pq : EdgeQueue) (graph : Graph)
    (hvalid : IndexValid graph) (hsym : Symmetric graph) :
    ∃ forest, primAlgorithm pq graph = .ok forest ∧
      ∀ C : Finset Nat, IsComponent graph C →
        (∀ e ∈ edgesFrom C (forestEdges forest), e.1 ∈ C ∧ e.2.1 ∈ C) ∧
        Acyclic (edgesFrom C (forestEdges forest)) ∧
        ∀ a ∈ C, ∀ b ∈ C, Conn (edgesFrom C (forestEdges forest)) a b := by
  obtain ⟨forest, bs, hrun, res⟩ := primAlgorithm_spec pq graph hvalid
  refine ⟨forest, hrun, fun C hC => ?_⟩
  obtain ⟨r, es, l2, hb, hcomp, hCiff⟩ := res.block_of_component hsym hC
  have hperm : (edgesFrom C (forestEdges forest)).Perm es :=
    res.filter_perm hb (fun e => decide (e.1 ∈ C))
      (fun e h1 _ => by simp [(hCiff _).2 h1])
      (fun e h1 => by
        have : e.1 ∉ C := fun h => h1 ((hCiff _).1 h)
        simp [this])
  have hsteps : StepsOK graph (vertsOf l2) r es := hcomp.2.1.2.2.2
  refine ⟨?_, hsteps.acyclic.perm hperm.symm, ?_⟩
  · intro e he
    have := hsteps.edge_mem e (hperm.mem_iff.1 he)
    exact ⟨(hCiff _).2 this.1, (hCiff _).2 this.2.1⟩
  · intro a ha b hb'
    have h1 := hsteps.conn a ((hCiff a).1 ha)
    have h2 := hsteps.conn b ((hCiff b).1 hb')
    exact Conn.mono_edges (fun x hx => hperm.mem_iff.2 hx) (h1.symm_conn.trans h2)

/-! ## Counting edges and components -/

theorem forestEdgesFrom_length :
    ∀ (forest : List (List WeightedEdge)) (k : Nat),
      (forestEdgesFrom k forest).length = (forest.map List.length).sum
  | [], _ => rfl
  | l :: rest, k => by
    simp [forestEdgesFrom, forestEdgesFrom_length rest (k + 1)]

theorem vertsOf_length :
    ∀ bs : List (Nat × List EdgeQueueElement),
      (vertsOf bs).length = bs.length + (allEdges bs).length
  | [] => rfl
  | b :: bs => by
    simp only [vertsOf, allEdges, blockVerts, children, List.length_append, List.length_cons,
      List.length_map, vertsOf_length bs]
    omega

theorem RunResult.vertsOf_length_eq {graph : Graph} {forest : List (List WeightedEdge)}
    {bs : List (Nat × List EdgeQueueElement)} (res : RunResult graph forest bs) :
    (vertsOf bs).length = graph.length := by
  have h : (vertsOf bs).toFinset = Finset.range graph.length := by
    ext v
    simp [res.verts_iff v]
  rw [← List.toFinset_card_of_nodup res.nodup, h, Finset.card_range]

/-- In a history that absorbs no vertex twice, a vertex lies in one block only. -/
theorem same_block {v : Nat} :
    ∀ {bs : List (Nat × List EdgeQueueElement)}, (vertsOf bs).Nodup →
      ∀ {b b' : Nat × List EdgeQueueElement}, b ∈ bs → b' ∈ bs →
      v ∈ blockVerts b → v ∈ blockVerts b' → b = b'
  | [], _, _, _, hb, _, _, _ => by simp at hb
  | b0 :: rest, hnd, b, b', hb, hb', hv, hv' => by
    simp only [vertsOf] at hnd
    obtain ⟨-, hnd2, hdisj⟩ := List.nodup_append.1 hnd
    rcases List.mem_cons.1 hb with h1 | h1 <;> rcases List.mem_cons.1 hb' with h2 | h2
    · rw [h1, h2]
    · subst h1
      exact (hdisj hv (mem_vertsOf_iff.2 ⟨b', h2, hv'⟩)).elim
    · subst h2
      exact (hdisj hv' (mem_vertsOf_iff.2 ⟨b, h1, hv⟩)).elim
    · exact same_block hnd2 h1 h2 hv hv'

theorem nodup_of_vertsOf_nodup :
    ∀ {bs : List (Nat × List EdgeQueueElement)}, (vertsOf bs).Nodup → bs.Nodup
  | [], _ => List.nodup_nil
  | b0 :: rest, hnd => by
    have hnd' := hnd
    simp only [vertsOf] at hnd'
    obtain ⟨-, hnd2, hdisj⟩ := List.nodup_append.1 hnd'
    refine List.nodup_cons.2 ⟨fun hmem => ?_, nodup_of_vertsOf_nodup hnd2⟩
    have h0 : b0.1 ∈ blockVerts b0 := List.mem_cons_self _ _
    exact hdisj h0 (mem_vertsOf_iff.2 ⟨b0, hmem, h0⟩)

/-- In a symmetric graph the connected components are the vertex sets of the
blocks of the history of a run. -/
theorem RunResult.isComponent_iff {graph : Graph} (hsym : Symmetric graph)
    {forest : List (List WeightedEdge)} {bs : List (Nat × List EdgeQueueElement)}
    (res : RunResult graph forest bs) (C : Finset Nat) :
    IsComponent graph C ↔ ∃ b ∈ bs, (blockVerts b).toFinset = C := by
  constructor
  · intro hC
    obtain ⟨r, es, l2, hb, -, hCiff⟩ := res.block_of_component hsym hC
    refine ⟨(r, es), hb, ?_⟩
    ext v
    rw [List.mem_toFinset, hCiff v]
    rfl
  · rintro ⟨⟨r, es⟩, hb, rfl⟩
    obtain ⟨l2, hcomp⟩ := res.complete.of_mem hb
    have hr : r < graph.length :=
      (res.verts_iff r).1 (mem_vertsOf_iff.2 ⟨(r, es), hb, List.mem_cons_self _ _⟩)
    refine ⟨r, hr, fun v => ?_⟩
    rw [List.mem_toFinset]
    exact hcomp.component hsym v

theorem RunResult.numComponents_eq {graph : Graph} (hsym : Symmetric graph)
    {forest : List (List WeightedEdge)} {bs : List (Nat × List EdgeQueueElement)}
    (res : RunResult graph forest bs) : numComponents graph = bs.length := by
  have hset : {C : Finset Nat | IsComponent graph C} =
      ((bs.toFinset.image (fun b => (blockVerts b).toFinset) : Finset (Finset Nat)) :
        Set (Finset Nat)) := by
    ext C
    simp only [Set.mem_setOf_eq, Finset.coe_image, Set.mem_image, Finset.mem_coe,
      List.mem_toFinset]
    exact res.isComponent_iff hsym C
  rw [numComponents, hset, Set.ncard_coe_Finset, Finset.card_image_of_injOn,
    List.toFinset_card_of_nodup (nodup_of_vertsOf_nodup res.nodup)]
  intro b hb b' hb' heq
  have hb1 : b ∈ bs := List.mem_toFinset.1 hb
  have hb2 : b' ∈ bs := List.mem_toFinset.1 hb'
  have h0 : b.1 ∈ blockVerts b := List.mem_cons_self _ _
  have h1 : b.1 ∈ blockVerts b' := by
    have : b.1 ∈ (blockVerts b).toFinset := List.mem_toFinset.2 h0
    simp only [] at heq
    rw [heq] at this
    exact List.mem_toFinset.1 this
  exact same_block res.nodup hb1 hb2 h0 h1

/-- C3. Edge count: on an index-valid symmetric graph `primAlgorithm` returns a
forest whose lists hold, in total, as many pairs as the vertex count minus the
number of connected components of the graph. -/
theorem primAlgorithm_edge_count (pq : EdgeQueue) (graph : Graph)
    (hvalid : IndexValid graph) (hsym : Symmetric graph) :
    ∃ forest, primAlgorithm pq graph = .ok forest ∧
      (forest.map List.length).sum = graph.length - numComponents graph := by
  obtain ⟨forest, bs, hrun, res⟩ := primAlgorithm_spec pq graph hvalid
  refine ⟨forest, hrun, ?_⟩
  have h1 := forestEdgesFrom_length forest 0
  have h2 : (forestEdges forest).length = (allEdges bs).length := res.edges.length_eq
  have h3 := vertsOf_length bs
  have h4 := res.vertsOf_length_eq
  have h5 := res.numComponents_eq hsym
  rw [forestEdges] at h2
  omega

/-! ## Shape of the result -/

theorem primAlgorithmOnAComponet_tree_length (pq : EdgeQueue) (graph : Graph) :
    ∀ (fuel : Nat) (s s' : PrimState pq),
      primAlgorithmOnAComponet pq graph fuel s = .ok s' → s'.tree.length = s.tree.length := by
  intro fuel
  induction fuel with
  | zero =>
    intro s s' h
    simp [primAlgorithmOnAComponet] at h
  | succ fuel ih =>
    intro s s' h
    rw [primAlgorithmOnAComponet] at h
    split at h
    · cases h
      rfl
    · split at h
      · cases h
      · split at h
        · cases h
        · have := ih _ _ h
          simpa using this
        · simp only [] at h
          split at h
          · cases h
          · split at h
            · cases h
              simp
            · split at h
              · cases h
              · split at h
                · cases h
                · have := ih _ _ h
                  simpa using this

theorem driverLoop_length (pq : EdgeQueue) (graph : Graph) :
    ∀ (is : List Nat) (cnt : Nat) (vis : List Bool) (tree forest : List (List WeightedEdge)),
      driverLoop pq graph is cnt vis tree = .ok forest → forest.length = tree.length := by
  intro is
  induction is with
  | nil =>
    intro cnt vis tree forest h
    simp only [driverLoop] at h
    cases h
    rfl
  | cons i rest ih =>
    intro cnt vis tree forest h
    rw [driverLoop] at h
    split at h
    · cases h
    · exact ih _ _ _ _ h
    · simp only [] at h
      split at h
      · cases h
      · split at h
        · cases h
        · split at h
          · cases h
          · rename_i s' hs'
            have hlen : s'.tree.length = tree.length := by
              split at hs'
              · exact primAlgorithmOnAComponet_tree_length pq graph _ _ _ hs'
              · cases hs'
                rfl
            split at h
            · cases h
              exact hlen
            · rw [ih _ _ _ _ h, hlen]

/-- C4. Output shape: whenever `primAlgorithm` returns a forest, on any graph and
on any path through the code, the forest has as many entries as the graph has
vertices. -/
theorem primAlgorithm_length (pq : EdgeQueue) (graph : Graph)
    (forest : List (List WeightedEdge)) (h : primAlgorithm pq graph = .ok forest) :
    forest.length = graph.length := by
  rw [primAlgorithm] at h
  rw [driverLoop_length pq graph _ _ _ _ _ h, List.length_replicate]

theorem mem_forestEdgesFrom {v : Nat} {w : Int} :
    ∀ {forest : List (List WeightedEdge)} {k u : Nat} {l : List WeightedEdge},
      forest[u]? = some l → (v, w) ∈ l → (k + u, v, w) ∈ forestEdgesFrom k forest
  | [], _, _, _, h, _ => by simp at h
  | a :: rest, k, 0, l, h, hm => by
    simp only [List.getElem?_cons_zero, Option.some.injEq] at h
    subst h
    simp only [forestEdgesFrom, List.mem_append, List.mem_map]
    exact Or.inl ⟨(v, w), hm, rfl⟩
  | a :: rest, k, u + 1, l, h, hm => by
    simp only [List.getElem?_cons_succ] at h
    have := mem_forestEdgesFrom (k := k + 1) h hm
    simp only [forestEdgesFrom, List.mem_append]
    have e : k + 1 + u = k + (u + 1) := by omega
    exact Or.inr (e ▸ this)

theorem RunResult.forest_mem_adj {graph : Graph} {forest : List (List WeightedEdge)}
    {bs : List (Nat × List EdgeQueueElement)} (res : RunResult graph forest bs)
    {u : Nat} {l : List WeightedEdge} (hl : forest[u]? = some l) {e : WeightedEdge}
    (he : e ∈ l) : e ∈ adj graph u := by
  have h1 : (u, e.1, e.2) ∈ forestEdges forest := by
    have := mem_forestEdgesFrom (k := 0) (v := e.1) (w := e.2) hl he
    simpa [forestEdges] using this
  obtain ⟨b, hb, hmem⟩ := mem_allEdges_iff.1 (res.edges.mem_iff.1 h1)
  exact (res.complete.block_mem b hb _ hmem).2.2

/-- C5. Forest edges are graph edges stored at their parent: on an index-valid
graph, symmetric or not, `primAlgorithm` returns a forest, and every pair in
`forest[u]` is a pair of the adjacency list `graph[u]`. -/
theorem primAlgorithm_forest_subset (pq : EdgeQueue) (graph : Graph)
    (hvalid : IndexValid graph) :
    ∃ forest, primAlgorithm pq graph = .ok forest ∧
      ∀ (u : Nat) (l : List WeightedEdge), forest[u]? = some l →
        ∀ e ∈ l, ∃ adjacency, graph[u]? = some adjacency ∧ e ∈ adjacency := by
  obtain ⟨forest, bs, hrun, res⟩ := primAlgorithm_spec pq graph hvalid
  refine ⟨forest, hrun, fun u l hl e he => ?_⟩
  have h := res.forest_mem_adj hl he
  have hu := adj_mem_lt h
  refine ⟨graph[u], List.getElem?_eq_getElem hu, ?_⟩
  rwa [adj_of_getElem? (List.getElem?_eq_getElem hu)] at h

/-- C7. No failure on valid input: on a graph all of whose adjacency entries name
a vertex of the graph, `primAlgorithm` returns a forest; no bounds-checked access
throws and no unchecked access is out of bounds. -/
theorem primAlgorithm_returns (pq : EdgeQueue) (graph : Graph) (hvalid : IndexValid graph) :
    ∃ forest, primAlgorithm pq graph = .ok forest := by
  obtain ⟨forest, _, hrun, _⟩ := primAlgorithm_spec pq graph hvalid
  exact ⟨forest, hrun⟩

/-- C9. Empty and edgeless graphs: on `n` isolated vertices `primAlgorithm`
returns `n` empty lists; the graph without vertices gives the empty forest and
the graph with one vertex gives one empty entry. -/
theorem primAlgorithm_edgeless (pq : EdgeQueue) :
    (∀ n : Nat, primAlgorithm pq (List.replicate n []) = .ok (List.replicate n [])) ∧
    primAlgorithm pq [] = .ok [] ∧ primAlgorithm pq [[]] = .ok [[]] := by
  have key : ∀ n : Nat,
      primAlgorithm pq (List.replicate n []) = .ok (List.replicate n []) := by
    intro n
    have hvalid : IndexValid (List.replicate n ([] : List WeightedEdge)) := by
      intro adjacency ha e he
      rw [(List.mem_replicate.1 ha).2] at he
      simp at he
    obtain ⟨forest, bs, hrun, res⟩ := primAlgorithm_spec pq _ hvalid
    rw [hrun]
    congr 1
    apply List.eq_replicate_iff.2
    refine ⟨by simpa using res.forest_length, fun l hl => ?_⟩
    obtain ⟨u, hu, rfl⟩ := List.getElem_of_mem hl
    cases hfu : forest[u] with
    | nil => rfl
    | cons e rest =>
      exfalso
      have hmem := res.forest_mem_adj (List.getElem?_eq_getElem hu) (e := e) (by rw [hfu]; simp)
      have hadj : adj (List.replicate n ([] : List WeightedEdge)) u = [] := by
        have hu' : u < n := by simpa [res.forest_length] using hu
        simp [adj, List.getD, hu']
      rw [hadj] at hmem
      simp at hmem
  exact ⟨key, key 0, key 1⟩

/-! ## Out-of-range neighbour indices -/

/-- A scan of an adjacency list that holds an out-of-range neighbour index fails
with `outOfRange`, whatever the other entries are. -/
theorem enqueueUnselected_outOfRange (pq : EdgeQueue) (x : Nat) (vis : List Bool) :
    ∀ (adjacency : List WeightedEdge) (q : pq.Q), (∃ e ∈ adjacency, vis.length ≤ e.1) →
      enqueueUnselected pq x vis adjacency q = .error .outOfRange
  | [], _, h => by
    obtain ⟨e, he, _⟩ := h
    simp at he
  | edge :: rest, q, h => by
    rw [enqueueUnselected]
    split
    · rfl
    · rename_i hget
      apply enqueueUnselected_outOfRange pq x vis rest
      obtain ⟨e, he, hle⟩ := h
      rcases List.mem_cons.1 he with rfl | he
      · rw [List.getElem?_eq_none hle] at hget
        cases hget
      · exact ⟨e, he, hle⟩
    · rename_i hget
      apply enqueueUnselected_outOfRange pq x vis rest
      obtain ⟨e, he, hle⟩ := h
      rcases List.mem_cons.1 he with rfl | he
      · rw [List.getElem?_eq_none hle] at hget
        cases hget
      · exact ⟨e, he, hle⟩

/-! ## Shifting all weights: the shifted run simulates the original run -/

theorem comparator_shiftEntry (c : Int) (a b : EdgeQueueElement) :
    edgeEntryGreaterThanComparator (shiftEntry c a) (shiftEntry c b) =
      edgeEntryGreaterThanComparator a b := by
  simp [edgeEntryGreaterThanComparator, shiftEntry]

theorem shiftWeights_length (c : Int) (graph : List (List WeightedEdge)) :
    (shiftWeights c graph).length = graph.length := by
  simp [shiftWeights]

theorem shiftWeights_getElem? (c : Int) (graph : List (List WeightedEdge)) (u : Nat) :
    (shiftWeights c graph)[u]? = (graph[u]?).map (fun l => l.map (fun e => (e.1, e.2 + c))) := by
  simp [shiftWeights]

theorem shiftWeights_set (c : Int) (tree : List (List WeightedEdge)) (u v : Nat) (w : Int)
    (l : List WeightedEdge) :
    (shiftWeights c tree).set u (l.map (fun e => (e.1, e.2 + c)) ++ [(v, w + c)]) =
      shiftWeights c (tree.set u (l ++ [(v, w)])) := by
  simp [shiftWeights, List.map_set]

theorem expansionFuel_shiftWeights (c : Int) (graph : Graph) :
    expansionFuel (shiftWeights c graph) = expansionFuel graph := by
  simp [expansionFuel, edgeCount, shiftWeights, Function.comp_def]

theorem enqueueUnselected_shift {pq : EdgeQueue} {R : pq.Q → pq.Q → Prop} (c : Int)
    (hR : QueueSimulation pq.empty pq.push pq.pop pq.isEmpty (shiftEntry c) R)
    (x : Nat) (vis : List Bool) :
    ∀ (adjacency : List WeightedEdge) (q q' : pq.Q), R q q' →
      ExceptRel R (enqueueUnselected pq x vis adjacency q)
        (enqueueUnselected pq x vis (adjacency.map (fun e => (e.1, e.2 + c))) q')
  | [], q, q', h => h
  | edge :: rest, q, q', h => by
    simp only [List.map_cons, enqueueUnselected]
    cases hget : vis[edge.1]? with
    | none => exact rfl
    | some b =>
      cases b with
      | true => exact enqueueUnselected_shift c hR x vis rest q q' h
      | false =>
        exact enqueueUnselected_shift c hR x vis rest _ _ (hR.push_rel q q' (x, edge.1, edge.2) h)

theorem primAlgorithmOnAComponet_shift {pq : EdgeQueue} {R : pq.Q → pq.Q → Prop} (c : Int)
    (hR : QueueSimulation pq.empty pq.push pq.pop pq.isEmpty (shiftEntry c) R)
    (graph : Graph) :
    ∀ (fuel : Nat) (s s' : PrimState pq), StateRel R c s s' →
      ExceptRel (StateRel R c) (primAlgorithmOnAComponet pq graph fuel s)
        (primAlgorithmOnAComponet pq (shiftWeights c graph) fuel s') := by
  intro fuel
  induction fuel with
  | zero =>
    intro s s' _
    exact rfl
  | succ fuel ih =>
    intro s s' hs
    obtain ⟨hq, hcnt, hvis, htree⟩ := hs
    simp only [primAlgorithmOnAComponet]
    rw [← hR.isEmpty_rel _ _ hq]
    cases hemp : pq.isEmpty s.edgeQueue with
    | true => exact ⟨hq, hcnt, hvis, htree⟩
    | false =>
      simp only [Bool.false_eq_true, if_false]
      cases hpop : pq.pop s.edgeQueue with
      | none =>
        rw [hR.pop_none _ _ hq hpop]
        exact rfl
      | some p =>
        obtain ⟨⟨u, v, w⟩, q1⟩ := p
        obtain ⟨q1', hpop', hq1⟩ := hR.pop_some _ _ _ _ hq hpop
        rw [hpop']
        simp only [shiftEntry, hvis]
        cases hget : s.vertexSelectStatus[v]? with
        | none => exact rfl
        | some b =>
          cases b with
          | true => exact ih _ _ ⟨hq1, hcnt, rfl, htree⟩
          | false =>
            simp only [htree, shiftWeights_getElem?, hcnt, shiftWeights_length]
            cases htu : s.tree[u]? with
            | none => exact rfl
            | some treeU =>
              simp only [Option.map_some']
              rw [shiftWeights_set]
              by_cases hc : s.selectedVertexCount + 1 < graph.length
              · simp only [hc, not_true_eq_false, if_false]
                cases hgv : graph[v]? with
                | none => exact rfl
                | some adjacency =>
                  simp only [Option.map_some']
                  have hscan := enqueueUnselected_shift c hR v
                    (s.vertexSelectStatus.set v true) adjacency q1 q1' hq1
                  revert hscan
                  cases enqueueUnselected pq v (s.vertexSelectStatus.set v true) adjacency q1 with
                  | error e1 =>
                    cases enqueueUnselected pq v (s.vertexSelectStatus.set v true)
                        (adjacency.map (fun e => (e.1, e.2 + c))) q1' with
                    | error e2 => exact fun h => h
                    | ok _ => exact fun h => h.elim
                  | ok q2 =>
                    cases enqueueUnselected pq v (s.vertexSelectStatus.set v true)
                        (adjacency.map (fun e => (e.1, e.2 + c))) q1' with
                    | error e2 => exact fun h => h.elim
                    | ok q2' => exact fun h => ih _ _ ⟨h, rfl, rfl, rfl⟩
              · simp only [hc, not_false_eq_true, if_true]
                exact ⟨hq1, rfl, rfl, rfl⟩

theorem driverLoop_shift {pq : EdgeQueue} {R : pq.Q → pq.Q → Prop} (c : Int)
    (hR : QueueSimulation pq.empty pq.push pq.pop pq.isEmpty (shiftEntry c) R)
    (graph : Graph) :
    ∀ (is : List Nat) (cnt : Nat) (vis : List Bool) (tree : List (List WeightedEdge)),
      ExceptRel (fun f f' => f' = shiftWeights c f) (driverLoop pq graph is cnt vis tree)
        (driverLoop pq (shiftWeights c graph) is cnt vis (shiftWeights c tree)) := by
  intro is
  induction is with
  | nil =>
    intro cnt vis tree
    exact rfl
  | cons i rest ih =>
    intro cnt vis tree
    simp only [driverLoop]
    cases hget : vis[i]? with
    | none => exact rfl
    | some b =>
      cases b with
      | true => exact ih cnt vis tree
      | false =>
        simp only [shiftWeights_getElem?, shiftWeights_length, expansionFuel_shiftWeights]
        cases hgi : graph[i]? with
        | none => exact rfl
        | some adjacency =>
          simp only [Option.map_some']
          have hscan := enqueueUnselected_shift c hR i (vis.set i true) adjacency
            pq.empty pq.empty hR.empty_rel
          revert hscan
          cases enqueueUnselected pq i (vis.set i true) adjacency pq.empty with
          | error e1 =>
            cases enqueueUnselected pq i (vis.set i true)
                (adjacency.map (fun e => (e.1, e.2 + c))) pq.empty with
            | error e2 => exact fun h => h
            | ok _ => exact fun h => h.elim
          | ok q =>
            cases enqueueUnselected pq i (vis.set i true)
                (adjacency.map (fun e => (e.1, e.2 + c))) pq.empty with
            | error e2 => exact fun h => h.elim
            | ok q' =>
              intro hq
              simp only []
              have hexp : ExceptRel (StateRel R c)
                  (if ¬ pq.isEmpty q = true then
                    primAlgorithmOnAComponet pq graph (expansionFuel graph)
                      ⟨q, cnt + 1, vis.set i true, tree⟩
                  else .ok ⟨q, cnt + 1, vis.set i true, tree⟩)
                  (if ¬ pq.isEmpty q' = true then
                    primAlgorithmOnAComponet pq (shiftWeights c graph) (expansionFuel graph)
                      ⟨q', cnt + 1, vis.set i true, shiftWeights c tree⟩
                  else .ok ⟨q', cnt + 1, vis.set i true, shiftWeights c tree⟩) := by
                rw [← hR.isEmpty_rel _ _ hq]
                by_cases hemp : pq.isEmpty q = true
                · simp only [hemp, not_true_eq_false, if_false]
                  exact ⟨hq, rfl, rfl, rfl⟩
                · simp only [hemp, not_false_eq_true, if_true]
                  exact primAlgorithmOnAComponet_shift c hR graph _ _ _ ⟨hq, rfl, rfl, rfl⟩
              revert hexp
              generalize (if ¬ pq.isEmpty q = true then
                    primAlgorithmOnAComponet pq graph (expansionFuel graph)
                      ⟨q, cnt + 1, vis.set i true, tree⟩
                  else .ok ⟨q, cnt + 1, vis.set i true, tree⟩) = X
              generalize (if ¬ pq.isEmpty q' = true then
                    primAlgorithmOnAComponet pq (shiftWeights c graph) (expansionFuel graph)
                      ⟨q', cnt + 1, vis.set i true, shiftWeights c tree⟩
                  else .ok ⟨q', cnt + 1, vis.set i true, shiftWeights c tree⟩) = X'
              cases X with
              | error e1 =>
                cases X' with
                | error e2 => exact fun h => h
                | ok _ => exact fun h => h.elim
              | ok s1 =>
                cases X' with
                | error e2 => exact fun h => h.elim
                | ok s1' =>
                  rintro ⟨-, h2, h3, h4⟩
                  simp only [h2, h3, h4]
                  by_cases hc : s1.selectedVertexCount < graph.length
                  · simp only [hc, not_true_eq_false, if_false]
                    exact ih _ _ _
                  · simp only [hc, not_false_eq_true, if_true]
                    exact rfl

/-- C8. Weights are only compared: adding `c` to every edge weight of a graph
changes the result of `primAlgorithm` by adding `c` to every stored weight and
nothing else (same parents, same children, same order, same failure if any); so a
graph with negative weights is processed like its shifted positive counterpart. -/
theorem primAlgorithm_shiftWeights (pq : EdgeQueue) (graph : Graph) (c : Int) :
    primAlgorithm pq (shiftWeights c graph) =
      (primAlgorithm pq graph).map (shiftWeights c) := by
  obtain ⟨R, hR⟩ := pq.comparisonBased (shiftEntry c) (comparator_shiftEntry c)
  have h := driverLoop_shift c hR graph (List.range graph.length) 0
    (List.replicate graph.length false) (List.replicate graph.length [])
  have hrep : shiftWeights c (List.replicate graph.length []) =
      List.replicate graph.length [] := by
    simp [shiftWeights]
  rw [hrep] at h
  simp only [primAlgorithm, shiftWeights_length]
  revert h
  cases driverLoop pq graph (List.range graph.length) 0
      (List.replicate graph.length false) (List.replicate graph.length []) with
  | error e1 =>
    cases driverLoop pq (shiftWeights c graph) (List.range graph.length) 0
        (List.replicate graph.length false) (List.replicate graph.length []) with
    | error e2 =>
      intro h
      have : e1 = e2 := h
      rw [this]
      rfl
    | ok _ => exact fun h => h.elim
  | ok f =>
    cases driverLoop pq (shiftWeights c graph) (List.range graph.length) 0
        (List.replicate graph.length false) (List.replicate graph.length []) with
    | error e2 => exact fun h => h.elim
    | ok f' =>
      intro h
      have : f' = shiftWeights c f := h
      rw [this]
      rfl

/-! ## Single steps, for running the algorithm with an arbitrary queue -/

theorem EdgeQueue.isEmpty_of_perm_nil (pq : EdgeQueue) {q : pq.Q}
    (h : (pq.toList q).Perm []) : pq.isEmpty q = true :=
  (pq.isEmpty_iff q).2 (List.Perm.eq_nil h)

theorem EdgeQueue.isEmpty_of_perm_cons (pq : EdgeQueue) {q : pq.Q} {e : EdgeQueueElement}
    {rest : List EdgeQueueElement} (h : (pq.toList q).Perm (e :: rest)) :
    pq.isEmpty q = false := by
  cases hq : pq.isEmpty q with
  | false => rfl
  | true =>
    rw [(pq.isEmpty_iff q).1 hq] at h
    exact absurd h.symm.eq_nil (List.cons_ne_nil _ _)

/-- When one entry is strictly lighter than all the others, `top()` is that entry. -/
theorem EdgeQueue.pop_of_min (pq : EdgeQueue) {q : pq.Q} {e : EdgeQueueElement}
    {rest : List EdgeQueueElement} (hperm : (pq.toList q).Perm (e :: rest))
    (hmin : ∀ x ∈ rest, e.2.2 < x.2.2) :
    ∃ q', pq.pop q = some (e, q') ∧ (pq.toList q').Perm rest := by
  cases hpop : pq.pop q with
  | none =>
    rw [(pq.pop_none_iff q).1 hpop] at hperm
    exact absurd hperm.symm.eq_nil (List.cons_ne_nil _ _)
  | some p =>
    obtain ⟨e', q'⟩ := p
    have hp := pq.pop_perm _ _ _ hpop
    have htop := pq.pop_top _ _ _ hpop e (hperm.mem_iff.2 (List.mem_cons_self _ _))
    have hle : e'.2.2 ≤ e.2.2 := by
      simpa [edgeEntryGreaterThanComparator] using htop
    have hmem : e' ∈ e :: rest :=
      hperm.mem_iff.1 (hp.mem_iff.2 (List.mem_cons_self _ _))
    have he : e' = e := by
      rcases List.mem_cons.1 hmem with h | h
      · exact h
      · exact absurd (hmin e' h) (not_lt.2 hle)
    subst he
    exact ⟨q', rfl, List.Perm.cons_inv (hp.symm.trans hperm)⟩

theorem primAlgorithmOnAComponet_done (pq : EdgeQueue) (graph : Graph) (fuel : Nat)
    (s : PrimState pq) (h : pq.isEmpty s.edgeQueue = true) :
    primAlgorithmOnAComponet pq graph (fuel + 1) s = .ok s := by
  rw [primAlgorithmOnAComponet, if_pos h]

theorem primAlgorithmOnAComponet_stale (pq : EdgeQueue) (graph : Graph) (fuel : Nat)
    (s : PrimState pq) {u v : Nat} {w : Int} {q' : pq.Q}
    (hne : pq.isEmpty s.edgeQueue = false) (hpop : pq.pop s.edgeQueue = some ((u, v, w), q'))
    (hvis : s.vertexSelectStatus[v]? = some true) :
    primAlgorithmOnAComponet pq graph (fuel + 1) s =
      primAlgorithmOnAComponet pq graph fuel { s with edgeQueue := q' } := by
  rw [primAlgorithmOnAComponet]
  simp only [hne, hpop, hvis, Bool.false_eq_true, if_false]

theorem primAlgorithmOnAComponet_last (pq : EdgeQueue) (graph : Graph) (fuel : Nat)
    (s : PrimState pq) {u v : Nat} {w : Int} {q' : pq.Q} {treeU : List WeightedEdge}
    (hne : pq.isEmpty s.edgeQueue = false) (hpop : pq.pop s.edgeQueue = some ((u, v, w), q'))
    (hvis : s.vertexSelectStatus[v]? = some false) (htree : s.tree[u]? = some treeU)
    (hc : ¬ s.selectedVertexCount + 1 < graph.length) :
    primAlgorithmOnAComponet pq graph (fuel + 1) s =
      .ok ⟨q', s.selectedVertexCount + 1, s.vertexSelectStatus.set v true,
        s.tree.set u (treeU ++ [(v, w)])⟩ := by
  rw [primAlgorithmOnAComponet]
  simp only [hne, hpop, hvis, htree, hc, Bool.false_eq_true, if_false, not_false_eq_true,
    if_true]

theorem primAlgorithmOnAComponet_absorb (pq : EdgeQueue) (graph : Graph) (fuel : Nat)
    (s : PrimState pq) {u v : Nat} {w : Int} {q' q'' : pq.Q}
    {treeU adjacency : List WeightedEdge}
    (hne : pq.isEmpty s.edgeQueue = false) (hpop : pq.pop s.edgeQueue = some ((u, v, w), q'))
    (hvis : s.vertexSelectStatus[v]? = some false) (htree : s.tree[u]? = some treeU)
    (hc : s.selectedVertexCount + 1 < graph.length) (hadj : graph[v]? = some adjacency)
    (hscan : enqueueUnselected pq v (s.vertexSelectStatus.set v true) adjacency q' = .ok q'') :
    primAlgorithmOnAComponet pq graph (fuel + 1) s =
      primAlgorithmOnAComponet pq graph fuel
        ⟨q'', s.selectedVertexCount + 1, s.vertexSelectStatus.set v true,
          s.tree.set u (treeU ++ [(v, w)])⟩ := by
  rw [primAlgorithmOnAComponet]
  simp only [hne, hpop, hvis, htree, hc, hadj, hscan, Bool.false_eq_true, if_false,
    not_true_eq_false]

theorem driverLoop_skip (pq : EdgeQueue) (graph : Graph) (i : Nat) (rest : List Nat)
    (cnt : Nat) (vis : List Bool) (tree : List (List WeightedEdge))
    (hvis : vis[i]? = some true) :
    driverLoop pq graph (i :: rest) cnt vis tree = driverLoop pq graph rest cnt vis tree := by
  rw [driverLoop]
  simp only [hvis]

theorem driverLoop_seed (pq : EdgeQueue) (graph : Graph) (i : Nat) (rest : List Nat)
    (cnt : Nat) (vis : List Bool) (tree : List (List WeightedEdge))
    {adjacency : List WeightedEdge} {q : pq.Q} {s' : PrimState pq}
    (hvis : vis[i]? = some false) (hadj : graph[i]? = some adjacency)
    (hscan : enqueueUnselected pq i (vis.set i true) adjacency pq.empty = .ok q)
    (hexp : (if ¬ pq.isEmpty q = true then
        primAlgorithmOnAComponet pq graph (expansionFuel graph)
          ⟨q, cnt + 1, vis.set i true, tree⟩
      else .ok ⟨q, cnt + 1, vis.set i true, tree⟩) = .ok s') :
    driverLoop pq graph (i :: rest) cnt vis tree =
      if ¬ (s'.selectedVertexCount < graph.length) then .ok s'.tree
      else driverLoop pq graph rest s'.selectedVertexCount s'.vertexSelectStatus s'.tree := by
  rw [driverLoop]
  simp only [hvis, hadj, hscan, hexp]

/-! ## The disconnected example, and the claims at concrete inputs -/

theorem disconnectedExample_run (pq : EdgeQueue) :
    primAlgorithm pq disconnectedExample = .ok [[(1, 3)], [], [(3, 1)], [(4, 2)], []] := by
  -- the component of vertex 0
  have hp0 : (pq.toList (pq.push pq.empty (0, 1, 3))).Perm [(0, 1, 3)] := by
    have := pq.toList_push pq.empty (0, 1, 3)
    rwa [pq.toList_empty] at this
  obtain ⟨q1, hpop0, hq1⟩ := pq.pop_of_min hp0 (by simp)
  have e0 : primAlgorithmOnAComponet pq disconnectedExample (expansionFuel disconnectedExample)
      ⟨pq.push pq.empty (0, 1, 3), 1, [true, false, false, false, false],
        [[], [], [], [], []]⟩ =
      .ok ⟨q1, 2, [true, true, false, false, false], [[(1, 3)], [], [], [], []]⟩ := by
    show primAlgorithmOnAComponet pq disconnectedExample (8 + 1) _ = _
    rw [primAlgorithmOnAComponet_absorb pq disconnectedExample 8
      ⟨pq.push pq.empty (0, 1, 3), 1, [true, false, false, false, false], [[], [], [], [], []]⟩
      (pq.isEmpty_of_perm_cons hp0) hpop0
      (show ([true, false, false, false, false] : List Bool)[1]? = some false from rfl)
      (show ([[], [], [], [], []] : List (List WeightedEdge))[0]? = some [] from rfl)
      (show 1 + 1 < disconnectedExample.length by decide)
      (show disconnectedExample[1]? = some [(0, 3)] from rfl)
      (show enqueueUnselected pq 1 _ [(0, 3)] q1 = .ok q1 from rfl)]
    exact primAlgorithmOnAComponet_done pq disconnectedExample 7 _
      (pq.isEmpty_of_perm_nil hq1)
  -- the component of vertex 2
  have hp2 : (pq.toList (pq.push (pq.push pq.empty (2, 3, 1)) (2, 4, 10))).Perm
      [(2, 3, 1), (2, 4, 10)] := by
    have h1 := pq.toList_push pq.empty (2, 3, 1)
    rw [pq.toList_empty] at h1
    exact ((pq.toList_push _ (2, 4, 10)).trans (h1.cons _)).trans (List.Perm.swap _ _ _)
  obtain ⟨q3, hpop2, hq3⟩ := pq.pop_of_min hp2 (by simp)
  have hp4 : (pq.toList (pq.push q3 (3, 4, 2))).Perm [(3, 4, 2), (2, 4, 10)] :=
    (pq.toList_push q3 (3, 4, 2)).trans (hq3.cons _)
  obtain ⟨q5, hpop4, -⟩ := pq.pop_of_min hp4 (by simp)
  have e2 : primAlgorithmOnAComponet pq disconnectedExample (expansionFuel disconnectedExample)
      ⟨pq.push (pq.push pq.empty (2, 3, 1)) (2, 4, 10), 3, [true, true, true, false, false],
        [[(1, 3)], [], [], [], []]⟩ =
      .ok ⟨q5, 5, [true, true, true, true, true], [[(1, 3)], [], [(3, 1)], [(4, 2)], []]⟩ := by
    show primAlgorithmOnAComponet pq disconnectedExample (8 + 1) _ = _
    rw [primAlgorithmOnAComponet_absorb pq disconnectedExample 8
      ⟨pq.push (pq.push pq.empty (2, 3, 1)) (2, 4, 10), 3, [true, true, true, false, false],
        [[(1, 3)], [], [], [], []]⟩
      (pq.isEmpty_of_perm_cons hp2) hpop2
      (show ([true, true, true, false, false] : List Bool)[3]? = some false from rfl)
      (show ([[(1, 3)], [], [], [], []] : List (List WeightedEdge))[2]? = some [] from rfl)
      (show 3 + 1 < disconnectedExample.length by decide)
      (show disconnectedExample[3]? = some [(2, 1), (4, 2)] from rfl)
      (show enqueueUnselected pq 3 _ [(2, 1), (4, 2)] q3 = .ok (pq.push q3 (3, 4, 2)) from rfl)]
    exact primAlgorithmOnAComponet_last pq disconnectedExample 7
      ⟨pq.push q3 (3, 4, 2), 4, [true, true, true, true, false],
        [[(1, 3)], [], [(3, 1)], [], []]⟩
      (pq.isEmpty_of_perm_cons hp4) hpop4
      (show ([true, true, true, true, false] : List Bool)[4]? = some false from rfl)
      (show ([[(1, 3)], [], [(3, 1)], [], []] : List (List WeightedEdge))[3]? = some [] from rfl)
      (show ¬ 4 + 1 < disconnectedExample.length by decide)
  -- the driver
  show driverLoop pq disconnectedExample [0, 1, 2, 3, 4] 0
    [false, false, false, false, false] [[], [], [], [], []] = _
  rw [driverLoop_seed pq disconnectedExample 0 [1, 2, 3, 4] 0
    [false, false, false, false, false] [[], [], [], [], []]
    (show ([false, false, false, false, false] : List Bool)[0]? = some false from rfl)
    (show disconnectedExample[0]? = some [(1, 3)] from rfl)
    (show enqueueUnselected pq 0 _ [(1, 3)] pq.empty = .ok (pq.push pq.empty (0, 1, 3)) from rfl)
    (by rw [if_pos (by simp [pq.isEmpty_of_perm_cons hp0])]; exact e0)]
  rw [if_neg (show ¬ ¬ 2 < disconnectedExample.length by decide)]
  rw [driverLoop_skip pq disconnectedExample 1 [2, 3, 4] 2 [true, true, false, false, false]
    [[(1, 3)], [], [], [], []]
    (show ([true, true, false, false, false] : List Bool)[1]? = some true from rfl)]
  rw [driverLoop_seed pq disconnectedExample 2 [3, 4] 2 [true, true, false, false, false]
    [[(1, 3)], [], [], [], []]
    (show ([true, true, false, false, false] : List Bool)[2]? = some false from rfl)
    (show disconnectedExample[2]? = some [(3, 1), (4, 10)] from rfl)
    (show enqueueUnselected pq 2 _ [(3, 1), (4, 10)] pq.empty =
      .ok (pq.push (pq.push pq.empty (2, 3, 1)) (2, 4, 10)) from rfl)
    (by rw [if_pos (by simp [pq.isEmpty_of_perm_cons hp2])]; exact e2)]
  rw [if_pos (show ¬ 5 < disconnectedExample.length by decide)]

theorem disconnectedExample_valid : IndexValid disconnectedExample := by
  unfold IndexValid disconnectedExample
  decide

theorem disconnectedExample_symmetric : Symmetric disconnectedExample := by
  apply symmetric_of_forall
  unfold disconnectedExample adj
  decide

theorem disconnectedExample_component : IsComponent disconnectedExample {2, 3, 4} := by
  have h23 : Adjacent disconnectedExample 2 3 := ⟨1, Or.inl (by decide)⟩
  have h34 : Adjacent disconnectedExample 3 4 := ⟨2, Or.inl (by decide)⟩
  have hclosed : Closed disconnectedExample [2, 3, 4] := by
    unfold Closed disconnectedExample adj
    decide
  refine ⟨2, by decide, fun v => ⟨fun hv => ?_, fun hv => ?_⟩⟩
  · simp only [Finset.mem_insert, Finset.mem_singleton] at hv
    rcases hv with rfl | rfl | rfl
    · exact Relation.ReflTransGen.refl
    · exact Relation.ReflTransGen.single h23
    · exact (Relation.ReflTransGen.single h23).tail h34
  · have := hclosed.reach_mem disconnectedExample_symmetric (by decide) hv
    simpa using this

theorem disconnectedExample_tree :
    IsSpanningTree disconnectedExample {2, 3, 4} [(2, 4, 10), (3, 4, 2)] := by
  have h24 : Conn [(2, 4, 10), (3, 4, 2)] 2 4 :=
    Relation.ReflTransGen.single ⟨(2, 4, 10), by decide, Or.inl ⟨rfl, rfl⟩⟩
  have h34 : Conn [(2, 4, 10), (3, 4, 2)] 3 4 :=
    Relation.ReflTransGen.single ⟨(3, 4, 2), by decide, Or.inl ⟨rfl, rfl⟩⟩
  have hall : ∀ a ∈ ({2, 3, 4} : Finset Nat), Conn [(2, 4, 10), (3, 4, 2)] a 4 := by
    intro a ha
    simp only [Finset.mem_insert, Finset.mem_singleton] at ha
    rcases ha with rfl | rfl | rfl
    · exact h24
    · exact h34
    · exact Relation.ReflTransGen.refl
  refine ⟨?_, fun a ha b hb => (hall a ha).trans (hall b hb).symm_conn, ?_⟩
  · unfold disconnectedExample adj
    decide
  · intro e he hcyc
    have hend := hcyc.endpoint
    clear hcyc
    revert e
    decide

/-- C10. Disconnected example: on the graph with the edges 0-1 (3), 2-3 (1), 3-4 (2)
and 2-4 (10), `primAlgorithm` returns, whatever the queue, the forest
`[[(1,3)], [], [(3,1)], [(4,2)], []]`; its total weight is 6, its edges from
`{0,1}` join 0 and 1, its edges from `{2,3,4}` join 2, 3 and 4, and it has no edge
between 2 and 4. -/
theorem primAlgorithm_disconnectedExample (pq : EdgeQueue) :
    primAlgorithm pq disconnectedExample = .ok [[(1, 3)], [], [(3, 1)], [(4, 2)], []] ∧
    totalWeight (forestEdges [[(1, 3)], [], [(3, 1)], [(4, 2)], []]) = 3 + 1 + 2 ∧
    Conn (edgesFrom {0, 1} (forestEdges [[(1, 3)], [], [(3, 1)], [(4, 2)], []])) 0 1 ∧
    Conn (edgesFrom {2, 3, 4} (forestEdges [[(1, 3)], [], [(3, 1)], [(4, 2)], []])) 2 3 ∧
    Conn (edgesFrom {2, 3, 4} (forestEdges [[(1, 3)], [], [(3, 1)], [(4, 2)], []])) 3 4 ∧
    ∀ e ∈ forestEdges [[(1, 3)], [], [(3, 1)], [(4, 2)], []],
      ¬ (e.1 = 2 ∧ e.2.1 = 4) ∧ ¬ (e.1 = 4 ∧ e.2.1 = 2) := by
  refine ⟨disconnectedExample_run pq, by decide, ?_, ?_, ?_, by decide⟩
  · exact Relation.ReflTransGen.single ⟨(0, 1, 3), by decide, Or.inl ⟨rfl, rfl⟩⟩
  · exact Relation.ReflTransGen.single ⟨(2, 3, 1), by decide, Or.inl ⟨rfl, rfl⟩⟩
  · exact Relation.ReflTransGen.single ⟨(3, 4, 2), by decide, Or.inl ⟨rfl, rfl⟩⟩

/-- Witness of C1: on the disconnected example, with the reference queue, the
forest edges inside the component `{2,3,4}` weigh no more than the spanning tree
made of the edges 2-4 and 3-4. -/
theorem primAlgorithm_minimum_weight_witness :
    IndexValid disconnectedExample ∧ Symmetric disconnectedExample ∧
    IsComponent disconnectedExample {2, 3, 4} ∧ 2 ≤ ({2, 3, 4} : Finset Nat).card ∧
    IsSpanningTree disconnectedExample {2, 3, 4} [(2, 4, 10), (3, 4, 2)] ∧
    ∃ forest, primAlgorithm listQueue disconnectedExample = .ok forest ∧
      totalWeight (edgesWithin {2, 3, 4} (forestEdges forest)) ≤
        totalWeight [(2, 4, 10), (3, 4, 2)] := by
  obtain ⟨forest, hrun, h⟩ := primAlgorithm_minimum_weight listQueue disconnectedExample
    disconnectedExample_valid disconnectedExample_symmetric
  exact ⟨disconnectedExample_valid, disconnectedExample_symmetric,
    disconnectedExample_component, by decide, disconnectedExample_tree, forest, hrun,
    h _ disconnectedExample_component (by decide) _ disconnectedExample_tree⟩

/-- Witness of C2: on the disconnected example, with the reference queue, the
forest edges leaving the component `{2,3,4}` form a spanning tree of it. -/
theorem primAlgorithm_spanning_tree_witness :
    IndexValid disconnectedExample ∧ Symmetric disconnectedExample ∧
    IsComponent disconnectedExample {2, 3, 4} ∧
    ∃ forest, primAlgorithm listQueue disconnectedExample = .ok forest ∧
      (∀ e ∈ edgesFrom {2, 3, 4} (forestEdges forest), e.1 ∈ ({2, 3, 4} : Finset Nat) ∧
        e.2.1 ∈ ({2, 3, 4} : Finset Nat)) ∧
      Acyclic (edgesFrom {2, 3, 4} (forestEdges forest)) ∧
      ∀ a ∈ ({2, 3, 4} : Finset Nat), ∀ b ∈ ({2, 3, 4} : Finset Nat),
        Conn (edgesFrom {2, 3, 4} (forestEdges forest)) a b := by
  obtain ⟨forest, hrun, h⟩ := primAlgorithm_spanning_tree listQueue disconnectedExample
    disconnectedExample_valid disconnectedExample_symmetric
  exact ⟨disconnectedExample_valid, disconnectedExample_symmetric,
    disconnectedExample_component, forest, hrun, h _ disconnectedExample_component⟩

/-- Witness of C3: the edge count on the disconnected example. -/
theorem primAlgorithm_edge_count_witness :
    IndexValid disconnectedExample ∧ Symmetric disconnectedExample ∧
    ∃ forest, primAlgorithm listQueue disconnectedExample = .ok forest ∧
      (forest.map List.length).sum =
        disconnectedExample.length - numComponents disconnectedExample :=
  ⟨disconnectedExample_valid, disconnectedExample_symmetric,
    primAlgorithm_edge_count listQueue disconnectedExample disconnectedExample_valid
      disconnectedExample_symmetric⟩

/-- Witness of C4: the forest of the disconnected example has five entries. -/
theorem primAlgorithm_length_witness :
    primAlgorithm listQueue disconnectedExample =
      .ok [[(1, 3)], [], [(3, 1)], [(4, 2)], []] ∧
    ([[(1, 3)], [], [(3, 1)], [(4, 2)], []] : List (List WeightedEdge)).length =
      disconnectedExample.length :=
  ⟨rfl, primAlgorithm_length listQueue disconnectedExample _ rfl⟩

/-- Witness of C5: the forest of the disconnected example holds graph edges only. -/
theorem primAlgorithm_forest_subset_witness :
    IndexValid disconnectedExample ∧
    ∃ forest, primAlgorithm listQueue disconnectedExample = .ok forest ∧
      ∀ (u : Nat) (l : List WeightedEdge), forest[u]? = some l →
        ∀ e ∈ l, ∃ adjacency, disconnectedExample[u]? = some adjacency ∧ e ∈ adjacency :=
  ⟨disconnectedExample_valid,
    primAlgorithm_forest_subset listQueue disconnectedExample disconnectedExample_valid⟩

/-- Witness of C7: the disconnected example is index-valid and yields a forest. -/
theorem primAlgorithm_returns_witness :
    IndexValid disconnectedExample ∧
    ∃ forest, primAlgorithm listQueue disconnectedExample = .ok forest :=
  ⟨disconnectedExample_valid,
    primAlgorithm_returns listQueue disconnectedExample disconnectedExample_valid⟩

/-! ## Runs that check an out-of-range neighbour index fail -/

theorem ExpansionChecksBad.expansion_fails {pq : EdgeQueue} {graph : Graph} {fuel : Nat}
    {s : PrimState pq} (h : ExpansionChecksBad pq graph fuel s) :
    primAlgorithmOnAComponet pq graph fuel s = .error .outOfRange := by
  induction h with
  | @here fuel s u v w q' treeU adjacency hne hpop hvis htree hc hadj hlen hbad =>
    have hscan := enqueueUnselected_outOfRange pq v (s.vertexSelectStatus.set v true)
      adjacency q' (by simpa [hlen] using hbad)
    rw [primAlgorithmOnAComponet]
    simp only [hne, hpop, hvis, htree, hadj, hscan, hc, Bool.false_eq_true, if_false,
      not_true_eq_false]
  | stale hne hpop hvis _ ih =>
    rw [primAlgorithmOnAComponet_stale pq graph _ _ hne hpop hvis]
    exact ih
  | absorb hne hpop hvis htree hc hadj hscan _ ih =>
    rw [primAlgorithmOnAComponet_absorb pq graph _ _ hne hpop hvis htree hc hadj hscan]
    exact ih

theorem DriverChecksBad.driver_fails {pq : EdgeQueue} {graph : Graph} {is : List Nat} {cnt : Nat}
    {vis : List Bool} {tree : List (List WeightedEdge)}
    (h : DriverChecksBad pq graph is cnt vis tree) :
    driverLoop pq graph is cnt vis tree = .error .outOfRange := by
  induction h with
  | @seed i rest cnt vis tree adjacency hvis hadj hlen hbad =>
    have hscan := enqueueUnselected_outOfRange pq i (vis.set i true) adjacency pq.empty
      (by simpa [hlen] using hbad)
    rw [driverLoop]
    simp only [hvis, hadj, hscan]
  | @expansion i rest cnt vis tree adjacency q hvis hadj hscan hne hexp =>
    rw [driverLoop]
    simp only [hvis, hadj, hscan, hne, hexp.expansion_fails, Bool.false_eq_true, not_false_eq_true,
      if_true]
  | skip hvis _ ih =>
    rw [driverLoop_skip _ _ _ _ _ _ _ hvis]
    exact ih
  | next hvis hadj hscan hexp hc _ ih =>
    rw [driverLoop_seed _ _ _ _ _ _ _ hvis hadj hscan hexp, if_neg (not_not.2 hc)]
    exact ih

/-- C6. Out-of-range failure. Whenever a run of `primAlgorithm` comes to check the
selection status of an adjacency entry whose neighbour index is not below the
vertex count, while seeding the frontier from a driver vertex or while expanding
from a vertex just absorbed, `primAlgorithm` fails with `outOfRange` and returns
no forest; every scan of an adjacency list that holds such an entry fails with
`outOfRange`; and `primAlgorithm` fails with `outOfRange` on every non-empty graph
whose first adjacency list holds such an entry. -/
theorem primAlgorithm_outOfRange (pq : EdgeQueue) (graph : Graph) :
    (DriverChecksBad pq graph (List.range graph.length) 0
        (List.replicate graph.length false) (List.replicate graph.length []) →
      primAlgorithm pq graph = .error .outOfRange) ∧
    (∀ (x : Nat) (vis : List Bool) (adjacency : List WeightedEdge) (q : pq.Q),
      vis.length = graph.length → (∃ e ∈ adjacency, graph.length ≤ e.1) →
      enqueueUnselected pq x vis adjacency q = .error .outOfRange) ∧
    (∀ adjacency : List WeightedEdge, graph[0]? = some adjacency →
      (∃ e ∈ adjacency, graph.length ≤ e.1) →
      primAlgorithm pq graph = .error .outOfRange) := by
  refine ⟨fun h => h.driver_fails, ?_, ?_⟩
  · intro x vis adjacency q hlen hbad
    exact enqueueUnselected_outOfRange pq x vis adjacency q (by simpa [hlen] using hbad)
  · intro adjacency hadj hbad
    have hpos : 0 < graph.length := by
      by_contra h
      rw [List.getElem?_eq_none (not_lt.1 h)] at hadj
      cases hadj
    apply DriverChecksBad.driver_fails
    rw [List.range_eq_range']
    obtain ⟨k, hk⟩ : ∃ k, graph.length = k + 1 := ⟨graph.length - 1, by omega⟩
    rw [hk, List.range'_succ, ← hk]
    refine DriverChecksBad.seed ?_ hadj (by simp) hbad
    rw [List.getElem?_replicate]
    simp [hpos]

/-- Witness of C6: a graph whose first adjacency list names the vertex 7 fails
while the driver seeds the frontier, and a graph whose second adjacency list does
so fails while the expansion procedure expands from vertex 1. -/
theorem primAlgorithm_outOfRange_witness :
    primAlgorithm listQueue [[(1, 1), (7, 2)], [(0, 1)]] = .error .outOfRange ∧
    primAlgorithm listQueue [[(1, 1)], [(0, 1), (7, 2)], []] = .error .outOfRange := by
  refine ⟨(primAlgorithm_outOfRange listQueue [[(1, 1), (7, 2)], [(0, 1)]]).2.2
    [(1, 1), (7, 2)] rfl ⟨(7, 2), by decide, by decide⟩,
    (primAlgorithm_outOfRange listQueue [[(1, 1)], [(0, 1), (7, 2)], []]).1 ?_⟩
  show DriverChecksBad listQueue [[(1, 1)], [(0, 1), (7, 2)], []] [0, 1, 2] 0
    [false, false, false] [[], [], []]
  refine DriverChecksBad.expansion (show ([false, false, false] : List Bool)[0]? = some false from rfl)
    (show ([[(1, 1)], [(0, 1), (7, 2)], []] : Graph)[0]? = some [(1, 1)] from rfl)
    (show enqueueUnselected listQueue 0 _ [(1, 1)] listQueue.empty = .ok [(0, 1, 1)] from rfl)
    rfl ?_
  show ExpansionChecksBad listQueue [[(1, 1)], [(0, 1), (7, 2)], []] (3 + 1)
    ⟨[(0, 1, 1)], 1, [true, false, false], [[], [], []]⟩
  exact ExpansionChecksBad.here rfl
    (show listQueue.pop [(0, 1, 1)] = some ((0, 1, 1), []) from rfl)
    (show ([true, false, false] : List Bool)[1]? = some false from rfl)
    (show ([[], [], []] : List (List WeightedEdge))[0]? = some [] from rfl)
    (by decide)
    (show ([[(1, 1)], [(0, 1), (7, 2)], []] : Graph)[1]? = some [(0, 1), (7, 2)] from rfl)
    rfl ⟨(7, 2), by decide, by decide⟩

/-! ## The fuel is never exhausted -/

theorem enqueueUnselected_length (pq : EdgeQueue) (x : Nat) (vis : List Bool) :
    ∀ (adjacency : List WeightedEdge) (q q' : pq.Q),
      enqueueUnselected pq x vis adjacency q = .ok q' →
      (pq.toList q').length ≤ (pq.toList q).length + adjacency.length
  | [], q, q', h => by
    simp only [enqueueUnselected, Except.ok.injEq] at h
    subst h
    simp
  | edge :: rest, q, q', h => by
    rw [enqueueUnselected] at h
    split at h
    · cases h
    · have := enqueueUnselected_length pq x vis rest q q' h
      simp only [List.length_cons]
      omega
    · have := enqueueUnselected_length pq x vis rest _ q' h
      have hp := (pq.toList_push q (x, edge.1, edge.2)).length_eq
      simp only [List.length_cons] at hp ⊢
      omega

theorem enqueueUnselected_ne_outOfFuel (pq : EdgeQueue) (x : Nat) (vis : List Bool) :
    ∀ (adjacency : List WeightedEdge) (q : pq.Q),
      enqueueUnselected pq x vis adjacency q ≠ .error .outOfFuel
  | [], q => by simp [enqueueUnselected]
  | edge :: rest, q => by
    rw [enqueueUnselected]
    split
    · simp
    · exact enqueueUnselected_ne_outOfFuel pq x vis rest _
    · exact enqueueUnselected_ne_outOfFuel pq x vis rest _

/-- The expansion procedure does not run out of fuel when started with more fuel
than there are frontier entries and adjacency entries of unselected vertices, on
any graph and from any state. -/
theorem primAlgorithmOnAComponet_fuel (pq : EdgeQueue) (graph : Graph) :
    ∀ (fuel : Nat) (s : PrimState pq),
      (pq.toList s.edgeQueue).length + unvisitedDegree s.vertexSelectStatus graph < fuel →
      primAlgorithmOnAComponet pq graph fuel s ≠ .error .outOfFuel := by
  intro fuel
  induction fuel with
  | zero => intro s h; omega
  | succ fuel ih =>
    intro s hfuel
    rw [primAlgorithmOnAComponet]
    cases hemp : pq.isEmpty s.edgeQueue with
    | true => simp
    | false =>
      simp only [Bool.false_eq_true, if_false]
      cases hpop : pq.pop s.edgeQueue with
      | none => simp
      | some p =>
        obtain ⟨⟨u, v, w⟩, q'⟩ := p
        have hlen : (pq.toList s.edgeQueue).length = (pq.toList q').length + 1 := by
          rw [(pq.pop_perm _ _ _ hpop).length_eq]; rfl
        simp only []
        cases hget : s.vertexSelectStatus[v]? with
        | none => simp
        | some b =>
          cases b with
          | true =>
            simp only []
            exact ih _ (by simp only []; omega)
          | false =>
            simp only []
            cases htu : s.tree[u]? with
            | none => simp
            | some treeU =>
              simp only []
              by_cases hc : s.selectedVertexCount + 1 < graph.length
              · simp only [hc, not_true_eq_false, if_false]
                cases hgv : graph[v]? with
                | none => simp
                | some adjacency =>
                  simp only []
                  cases hscan : enqueueUnselected pq v (s.vertexSelectStatus.set v true)
                      adjacency q' with
                  | error e =>
                    simp only []
                    intro h
                    have he : e = .outOfFuel := by
                      injection h
                    subst he
                    exact enqueueUnselected_ne_outOfFuel pq _ _ _ _ hscan
                  | ok q'' =>
                    simp only []
                    apply ih
                    simp only []
                    have h1 := unvisitedDegree_set _ graph v _ hget hgv
                    have h2 := enqueueUnselected_length pq v _ adjacency q' q'' hscan
                    omega
              · simp only [hc, not_false_eq_true, if_true]
                simp

/-- The driver loop never reports exhausted fuel, on any graph. -/
theorem driverLoop_fuel (pq : EdgeQueue) (graph : Graph) :
    ∀ (is : List Nat) (cnt : Nat) (vis : List Bool) (tree : List (List WeightedEdge)),
      driverLoop pq graph is cnt vis tree ≠ .error .outOfFuel := by
  intro is
  induction is with
  | nil => intro cnt vis tree; simp [driverLoop]
  | cons i rest ih =>
    intro cnt vis tree
    rw [driverLoop]
    cases hget : vis[i]? with
    | none => simp
    | some b =>
      cases b with
      | true => exact ih _ _ _
      | false =>
        simp only []
        cases hgi : graph[i]? with
        | none => simp
        | some adjacency =>
          simp only []
          cases hscan : enqueueUnselected pq i (vis.set i true) adjacency pq.empty with
          | error e =>
            simp only []
            intro h
            have he : e = .outOfFuel := by
              injection h
            subst he
            exact enqueueUnselected_ne_outOfFuel pq _ _ _ _ hscan
          | ok q =>
            simp only []
            have hexp : (if ¬ pq.isEmpty q = true then
                  primAlgorithmOnAComponet pq graph (expansionFuel graph)
                    ⟨q, cnt + 1, vis.set i true, tree⟩
                else .ok ⟨q, cnt + 1, vis.set i true, tree⟩) ≠ .error .outOfFuel := by
              split
              · apply primAlgorithmOnAComponet_fuel
                simp only [expansionFuel]
                have h1 := unvisitedDegree_set _ graph i _ hget hgi
                have h2 := enqueueUnselected_length pq i _ adjacency pq.empty q hscan
                have h3 := unvisitedDegree_le vis graph
                rw [pq.toList_empty] at h2
                simp only [List.length_nil] at h2
                omega
              · simp
            revert hexp
            generalize (if ¬ pq.isEmpty q = true then
                  primAlgorithmOnAComponet pq graph (expansionFuel graph)
                    ⟨q, cnt + 1, vis.set i true, tree⟩
                else .ok ⟨q, cnt + 1, vis.set i true, tree⟩) = X
            intro hX
            cases X with
            | error e =>
              simp only []
              intro h
              have he : e = .outOfFuel := by
                injection h
              exact hX (by rw [he])
            | ok s' =>
              simp only []
              split
              · simp
              · exact ih _ _ _

/-- The fuel of the model is never exhausted: `primAlgorithm` ends, on every
graph, with a forest or with one of the two failures of the code. -/
theorem primAlgorithm_ne_outOfFuel (pq : EdgeQueue) (graph : Graph) :
    primAlgorithm pq graph ≠ .error .outOfFuel :=
  driverLoop_fuel pq graph _ _ _ _

/-! ## The notion of spanning tree

Two checks of the definition `Acyclic`: it excludes every closed walk that uses
each edge of the list at most as often as the list holds it, and on a connected
component a connecting list of graph edges is `Acyclic` exactly when it has one
edge less than the component has vertices. -/

theorem IsWalk.conn_of_walk {U : List EdgeQueueElement} :
    ∀ {c : List EdgeQueueElement} {a b : Nat}, IsWalk c a b → (∀ x ∈ c, x ∈ U) → Conn U a b
  | [], a, b, h, _ => by
    have : a = b := h
    subst this
    exact Relation.ReflTransGen.refl
  | e :: c, a, b, h, hU => by
    have he : e ∈ U := hU e (List.mem_cons_self _ _)
    have hc : ∀ x ∈ c, x ∈ U := fun x hx => hU x (List.mem_cons_of_mem _ hx)
    rcases h with ⟨h1, h2⟩ | ⟨h1, h2⟩
    · exact Relation.ReflTransGen.head ⟨e, he, Or.inl ⟨h1, rfl⟩⟩ (h2.conn_of_walk hc)
    · exact Relation.ReflTransGen.head ⟨e, he, Or.inr ⟨rfl, h1⟩⟩ (h2.conn_of_walk hc)

/-- A list of edges without a cycle has no closed walk that uses each edge at most
as often as the list holds it. -/
theorem Acyclic.no_closed_walk {T : List EdgeQueueElement} (hac : Acyclic T)
    (c : List EdgeQueueElement) (a : Nat) (hne : c ≠ []) (hsub : c.Subperm T) :
    ¬ IsWalk c a a := by
  cases c with
  | nil => exact absurd rfl hne
  | cons e c =>
    intro hwalk
    have heT : e ∈ T := hsub.subset (List.mem_cons_self _ _)
    have hin : ∀ x ∈ c, x ∈ eraseEdge T e := by
      have h1 : (e :: c).Subperm (e :: eraseEdge T e) :=
        hsub.trans (perm_cons_eraseEdge heT).subperm
      exact fun x hx => ((List.subperm_cons e).1 h1).subset hx
    rcases hwalk with ⟨h1, h2⟩ | ⟨h1, h2⟩
    · exact hac e heT (h1 ▸ (h2.conn_of_walk hin).symm_conn)
    · exact hac e heT (h1 ▸ h2.conn_of_walk hin)

theorem StepsOK.nodup {graph : Graph} {V0 : List Nat} {r : Nat} :
    ∀ {es : List EdgeQueueElement}, StepsOK graph V0 r es → (r :: children es).Nodup
  | [], _ => by simp [children]
  | e :: es, h => by
    have ih := h.1.nodup
    have hperm : (r :: children (e :: es)).Perm (e.2.1 :: r :: children es) := by
      simp only [children, List.map_cons]
      exact List.Perm.swap _ _ _
    rw [hperm.nodup_iff]
    exact List.nodup_cons.2 ⟨h.2.2.2.1, ih⟩

/-- Removing an edge whose endpoints stay joined disconnects nothing. -/
theorem Conn.erase_of_conn {T : List EdgeQueueElement} {e : EdgeQueueElement}
    (he : Conn (eraseEdge T e) e.1 e.2.1) {a b : Nat} (h : Conn T a b) :
    Conn (eraseEdge T e) a b := by
  refine Relation.ReflTransGen.lift' id ?_ h
  rintro c d ⟨x, hx, hcd⟩
  by_cases hxe : x = e
  · subst hxe
    rcases hcd with ⟨rfl, rfl⟩ | ⟨rfl, rfl⟩
    · exact he
    · exact he.symm_conn
  · exact Relation.ReflTransGen.single ⟨x, mem_eraseEdge_of_ne hxe hx, hcd⟩

/-- On the vertex set `C` of a finished block, a list of graph edges inside `C`
that connects `C` has no cycle exactly when it has as many edges as the block. -/
theorem Complete.block_acyclic_iff_length {graph : Graph} (hsym : Symmetric graph) {r : Nat}
    {es : List EdgeQueueElement} {l2 : List (Nat × List EdgeQueueElement)}
    (hcomp : Complete graph ((r, es) :: l2)) {C : Finset Nat}
    (hC : ∀ v, v ∈ C ↔ v ∈ r :: children es) {T : List EdgeQueueElement}
    (hTe : ∀ e ∈ T, (e.2.1, e.2.2) ∈ adj graph e.1 ∧ e.1 ∈ C ∧ e.2.1 ∈ C)
    (hTc : ∀ a ∈ C, ∀ b ∈ C, Conn T a b) : Acyclic T ↔ T.length = es.length := by
  obtain ⟨-, ⟨-, hr, -, hsteps⟩, -⟩ := hcomp
  have hrC : r ∈ C := (hC r).2 (List.mem_cons_self _ _)
  have hS : ∀ x, (x ∈ vertsOf l2 ∨ x ∈ [r]) → x ∈ C → x = r := by
    rintro x (hx | hx) hxC
    · rcases List.mem_cons.1 ((hC x).1 hxC) with h | h
      · exact h
      · exact absurd hx (hsteps.not_mem x h)
    · simpa using hx
  have hlower : ∀ U : List EdgeQueueElement,
      (∀ e ∈ U, (e.2.1, e.2.2) ∈ adj graph e.1 ∧ e.1 ∈ C ∧ e.2.1 ∈ C) →
      (∀ a ∈ C, ∀ b ∈ C, Conn U a b) → es.length ≤ U.length := by
    intro U hUe hUc
    obtain ⟨T', -, -, -, -, hlen⟩ := hsteps.exchange hsym U (fun e he => (hUe e he).1)
      (fun x hx => (hUc x ((hC x).2 (List.mem_cons_of_mem _ hx)) r hrC).connMod)
    have hlen' : T'.length + es.length = U.length := hlen
    omega
  constructor
  · intro hTa
    have hacm : AcyclicMod (fun x => x ∈ vertsOf l2 ∨ x ∈ [r]) T := by
      intro e he hcyc
      apply hTa e he
      exact ConnMod.conn_of_inside (C := C) (r := r)
        (fun x hx => (hTe x (mem_of_mem_eraseEdge hx)).2) hS hcyc (hTe e he).2.1 (hTe e he).2.2
    obtain ⟨T', hsub, -, hac, -, hlen⟩ := hsteps.exchange hsym T (fun e he => (hTe e he).1)
      (fun x hx => (hTc x ((hC x).2 (List.mem_cons_of_mem _ hx)) r hrC).connMod)
    have hac' := hac hacm
    have hnil : T' = [] := by
      cases T' with
      | nil => rfl
      | cons e rest =>
        exfalso
        have he : e ∈ e :: rest := List.mem_cons_self _ _
        have heT := hTe e (hsub e he)
        exact hac' e he
          (ConnMod.of_merged (Or.inr ((hC _).1 heT.2.1)) (Or.inr ((hC _).1 heT.2.2)))
    have hlen' : T'.length + es.length = T.length := hlen
    rw [hnil] at hlen'
    simpa using hlen'.symm
  · intro hlen e he hcyc
    have h1 := hlower (eraseEdge T e) (fun x hx => hTe x (mem_of_mem_eraseEdge hx))
      (fun a ha b hb => Conn.erase_of_conn hcyc (hTc a ha b hb))
    have h2 := (perm_cons_eraseEdge he).length_eq
    simp only [List.length_cons] at h2
    omega

/-- On a connected component `C` of an index-valid symmetric graph, a list of graph
edges inside `C` that connects `C` has no cycle exactly when it has one edge less
than `C` has vertices: the definition of `IsSpanningTree` agrees with the
definition of a tree by its number of edges. -/
theorem acyclic_iff_length {graph : Graph} (hvalid : IndexValid graph)
    (hsym : Symmetric graph) {C : Finset Nat} (hC : IsComponent graph C)
    {T : List EdgeQueueElement}
    (hTe : ∀ e ∈ T, (e.2.1, e.2.2) ∈ adj graph e.1 ∧ e.1 ∈ C ∧ e.2.1 ∈ C)
    (hTc : ∀ a ∈ C, ∀ b ∈ C, Conn T a b) : Acyclic T ↔ T.length + 1 = C.card := by
  obtain ⟨forest, bs, -, res⟩ := primAlgorithm_spec listQueue graph hvalid
  obtain ⟨r, es, l2, -, hcomp, hCiff⟩ := res.block_of_component hsym hC
  have hcard : C.card = es.length + 1 := by
    have hCeq : C = (r :: children es).toFinset := by
      ext v
      rw [List.mem_toFinset, hCiff v]
    have hsteps : StepsOK graph (vertsOf l2) r es := hcomp.2.1.2.2.2
    rw [hCeq, List.toFinset_card_of_nodup hsteps.nodup]
    simp [children]
  rw [hcomp.block_acyclic_iff_length hsym hCiff hTe hTc, hcard]
  omega

/-! ## Small graphs, run with an arbitrary queue -/

theorem EdgeQueue.toList_push_empty (pq : EdgeQueue) (e : EdgeQueueElement) :
    (pq.toList (pq.push pq.empty e)).Perm [e] := by
  have := pq.toList_push pq.empty e
  rwa [pq.toList_empty] at this

theorem EdgeQueue.isEmpty_empty (pq : EdgeQueue) : pq.isEmpty pq.empty = true :=
  (pq.isEmpty_iff _).2 pq.toList_empty

/-- A graph with two vertices whose first adjacency list is the single entry
`(1, w)`: the forest is `[[(1, w)], []]`, whatever the second adjacency list is. -/
theorem two_vertices_run (pq : EdgeQueue) (w : Int) (adjacency : List WeightedEdge) :
    primAlgorithm pq [[(1, w)], adjacency] = .ok [[(1, w)], []] := by
  have hp := pq.toList_push_empty (0, 1, w)
  obtain ⟨q1, hpop, -⟩ := pq.pop_of_min hp (by simp)
  have e0 : primAlgorithmOnAComponet pq [[(1, w)], adjacency]
      (expansionFuel [[(1, w)], adjacency])
      ⟨pq.push pq.empty (0, 1, w), 1, [true, false], [[], []]⟩ =
      .ok ⟨q1, 2, [true, true], [[(1, w)], []]⟩ :=
    primAlgorithmOnAComponet_last pq [[(1, w)], adjacency] (edgeCount [[(1, w)], adjacency])
      ⟨pq.push pq.empty (0, 1, w), 1, [true, false], [[], []]⟩
      (pq.isEmpty_of_perm_cons hp) hpop
      (show ([true, false] : List Bool)[1]? = some false from rfl)
      (show ([[], []] : List (List WeightedEdge))[0]? = some [] from rfl)
      (show ¬ 1 + 1 < ([[(1, w)], adjacency] : Graph).length by simp)
  show driverLoop pq [[(1, w)], adjacency] [0, 1] 0 [false, false] [[], []] = _
  rw [driverLoop_seed pq [[(1, w)], adjacency] 0 [1] 0 [false, false] [[], []]
    (show ([false, false] : List Bool)[0]? = some false from rfl)
    (show ([[(1, w)], adjacency] : Graph)[0]? = some [(1, w)] from rfl)
    (show enqueueUnselected pq 0 _ [(1, w)] pq.empty = .ok (pq.push pq.empty (0, 1, w)) from rfl)
    (by rw [if_pos (by simp [pq.isEmpty_of_perm_cons hp])]; exact e0)]
  rw [if_pos (show ¬ 2 < ([[(1, w)], adjacency] : Graph).length by simp)]

/-- The graph in which the edge between 0 and 1 is listed at vertex 1 only: no
edge is selected. -/
theorem one_sided_run (pq : EdgeQueue) (w : Int) :
    primAlgorithm pq [[], [(0, w)]] = .ok [[], []] := by
  show driverLoop pq [[], [(0, w)]] [0, 1] 0 [false, false] [[], []] = _
  rw [driverLoop_seed pq [[], [(0, w)]] 0 [1] 0 [false, false] [[], []]
    (show ([false, false] : List Bool)[0]? = some false from rfl)
    (show ([[], [(0, w)]] : Graph)[0]? = some [] from rfl)
    (show enqueueUnselected pq 0 _ [] pq.empty = .ok pq.empty from rfl)
    (show _ = Except.ok ⟨pq.empty, 1, [true, false], [[], []]⟩ by
      rw [if_neg (by simp [pq.isEmpty_empty])]; rfl)]
  rw [if_neg (show ¬ ¬ 1 < ([[], [(0, w)]] : Graph).length by simp)]
  rw [driverLoop_seed pq [[], [(0, w)]] 1 [] 1 [true, false] [[], []]
    (show ([true, false] : List Bool)[1]? = some false from rfl)
    (show ([[], [(0, w)]] : Graph)[1]? = some [(0, w)] from rfl)
    (show enqueueUnselected pq 1 _ [(0, w)] pq.empty = .ok pq.empty from rfl)
    (show _ = Except.ok ⟨pq.empty, 2, [true, true], [[], []]⟩ by
      rw [if_neg (by simp [pq.isEmpty_empty])]; rfl)]
  rw [if_pos (show ¬ 2 < ([[], [(0, w)]] : Graph).length by simp)]

/-- C11. Two-vertex example: on two vertices joined by one edge of weight `w`
(in particular `w = 5`), `primAlgorithm` returns the forest `[[(1, w)], []]`:
one entry is the one-element list holding the other vertex with the weight `w`,
the other entry is empty. -/
theorem primAlgorithm_two_vertices (pq : EdgeQueue) (w : Int) :
    primAlgorithm pq [[(1, w)], [(0, w)]] = .ok [[(1, w)], []] ∧
    primAlgorithm pq [[(1, 5)], [(0, 5)]] = .ok [[(1, 5)], []] ∧
    ∃ forest, primAlgorithm pq [[(1, w)], [(0, w)]] = .ok forest ∧
      ((forest[0]? = some [(1, w)] ∧ forest[1]? = some []) ∨
        (forest[0]? = some [] ∧ forest[1]? = some [(0, w)])) ∧
      ¬ ((forest[0]? = some [(1, w)] ∧ forest[1]? = some []) ∧
        (forest[0]? = some [] ∧ forest[1]? = some [(0, w)])) :=
  ⟨two_vertices_run pq w _, two_vertices_run pq 5 _, [[(1, w)], []],
    two_vertices_run pq w _, Or.inl ⟨rfl, rfl⟩, fun h => by simp at h⟩

/-- C19. An out-of-range index can go undetected: the graph
`[[(1,1)], [(0,1),(7,2)]]` has an adjacency entry naming the vertex 7, yet
`primAlgorithm` returns the forest `[[(1,1)], []]`; the adjacency list of vertex
1, whose absorption brings the count to the vertex count, is never scanned, so
the result is the same whatever this list holds. -/
theorem primAlgorithm_undetected_index (pq : EdgeQueue) :
    ¬ IndexValid [[(1, 1)], [(0, 1), (7, 2)]] ∧
    primAlgorithm pq [[(1, 1)], [(0, 1), (7, 2)]] = .ok [[(1, 1)], []] ∧
    ∀ adjacency : List WeightedEdge,
      primAlgorithm pq [[(1, 1)], adjacency] = .ok [[(1, 1)], []] := by
  refine ⟨?_, two_vertices_run pq 1 _, two_vertices_run pq 1⟩
  unfold IndexValid
  decide

theorem oneSided_valid : IndexValid [[], [(0, 5)]] := by
  unfold IndexValid
  decide

theorem oneSided_adjacent : Adjacent [[], [(0, 5)]] 0 1 :=
  ⟨5, Or.inr (by decide)⟩

theorem oneSided_reach (r v : Nat) (hr : r < 2) :
    Reach [[], [(0, 5)]] r v ↔ v < 2 := by
  constructor
  · intro h
    exact h.lt_length oneSided_valid hr
  · intro hv
    have h01 : Reach [[], [(0, 5)]] 0 1 := Relation.ReflTransGen.single oneSided_adjacent
    interval_cases r <;> interval_cases v
    · exact Relation.ReflTransGen.refl
    · exact h01
    · exact h01.symm_reach
    · exact Relation.ReflTransGen.refl

theorem oneSided_numComponents : numComponents [[], [(0, 5)]] = 1 := by
  have hset : {C : Finset Nat | IsComponent [[], [(0, 5)]] C} = {Finset.range 2} := by
    ext C
    simp only [Set.mem_setOf_eq, Set.mem_singleton_iff]
    constructor
    · rintro ⟨r, hr, hC⟩
      ext v
      rw [hC v, oneSided_reach r v hr, Finset.mem_range]
    · rintro rfl
      exact ⟨0, by decide, fun v => by rw [oneSided_reach 0 v (by decide), Finset.mem_range]⟩
  rw [numComponents, hset, Set.ncard_singleton]

/-- C20. Asymmetric input is tolerated and treated as directed: on every
index-valid graph, symmetric or not, `primAlgorithm` returns a forest; the graph
`[[], [(0,5)]]`, whose two vertices are joined by an edge listed at vertex 1
only, yields `[[], []]`, whereas `[[(1,5)], []]` yields `[[(1,5)], []]`; so on the
first graph, which is index-valid, not symmetric and has one connected component,
the forest has fewer edges than the vertex count minus the number of connected
components. -/
theorem primAlgorithm_asymmetric (pq : EdgeQueue) :
    (∀ graph : Graph, IndexValid graph → ∃ forest, primAlgorithm pq graph = .ok forest) ∧
    primAlgorithm pq [[], [(0, 5)]] = .ok [[], []] ∧
    primAlgorithm pq [[(1, 5)], []] = .ok [[(1, 5)], []] ∧
    IndexValid [[], [(0, 5)]] ∧ ¬ Symmetric [[], [(0, 5)]] ∧
    Reach [[], [(0, 5)]] 0 1 ∧ numComponents [[], [(0, 5)]] = 1 ∧
    (([[], []] : List (List WeightedEdge)).map List.length).sum <
      ([[], [(0, 5)]] : Graph).length - numComponents [[], [(0, 5)]] := by
  refine ⟨fun graph hvalid => ?_, one_sided_run pq 5, two_vertices_run pq 5 [], oneSided_valid,
    ?_, Relation.ReflTransGen.single oneSided_adjacent, oneSided_numComponents, ?_⟩
  · obtain ⟨forest, _, hrun, _⟩ := primAlgorithm_spec pq graph hvalid
    exact ⟨forest, hrun⟩
  · intro hsym
    have h := (hsym 1 0 5).1 (by decide)
    revert h
    decide
  · rw [oneSided_numComponents]
    decide

/-- Witness of C20: the first part at the one-sided graph, with the reference
queue. -/
theorem primAlgorithm_asymmetric_witness :
    IndexValid [[], [(0, 5)]] ∧ ∃ forest, primAlgorithm listQueue [[], [(0, 5)]] = .ok forest :=
  ⟨oneSided_valid, (primAlgorithm_asymmetric listQueue).1 _ oneSided_valid⟩

/-! ## The history invariant holds at every program point -/

theorem range'_eq_cons {i a k : Nat} {rest : List Nat} (h : i :: rest = List.range' a k) :
    i = a ∧ ∃ k', k = k' + 1 ∧ rest = List.range' (a + 1) k' := by
  cases k with
  | zero => simp at h
  | succ k =>
    rw [List.range'_succ] at h
    injection h with h1 h2
    exact ⟨h1, k, rfl, h2⟩

/-- The state in which the driver finds the variables after seeding from `i` and
running the expansion procedure, if the frontier is not empty, agrees with the
history in which the block of `i` is finished. -/
theorem DriverInv.after_expansion {pq : EdgeQueue} {graph : Graph} (hv : IndexValid graph)
    {bs : List (Nat × List EdgeQueueElement)}
    {cnt : Nat} {vis : List Bool} {tree : List (List WeightedEdge)}
    (inv : DriverInv graph bs cnt vis tree) {i : Nat} (hget : vis[i]? = some false)
    (hbelow : ∀ v < i, v ∈ vertsOf bs) {adjacency : List WeightedEdge}
    (hgi : graph[i]? = some adjacency) {q : pq.Q}
    (hscan : enqueueUnselected pq i (vis.set i true) adjacency pq.empty = .ok q)
    {s' : PrimState pq}
    (hexp : (if ¬ pq.isEmpty q = true then
        primAlgorithmOnAComponet pq graph (expansionFuel graph)
          ⟨q, cnt + 1, vis.set i true, tree⟩
      else .ok ⟨q, cnt + 1, vis.set i true, tree⟩) = .ok s') :
    ∃ es', DriverInv graph ((i, es') :: bs) s'.selectedVertexCount s'.vertexSelectStatus
      s'.tree := by
  have hadj := adj_of_getElem? hgi
  have hall : ∀ e ∈ adjacency, e.1 < (vis.set i true).length := by
    intro e he
    rw [List.length_set, inv.hist.vis_length]
    exact hv.adj_lt (hadj ▸ he)
  obtain ⟨q0, hq1, hq2⟩ := enqueueUnselected_ok pq i (vis.set i true) adjacency pq.empty hall
  rw [hscan] at hq1
  injection hq1 with hq1
  subst hq1
  rw [← hadj] at hq2
  have einv : ExpansionInv pq graph bs i [] ⟨q, cnt + 1, vis.set i true, tree⟩ :=
    inv.seed_inv hget hbelow hq2
  by_cases hemp : pq.isEmpty q = true
  · rw [if_neg (not_not.2 hemp)] at hexp
    injection hexp with hexp
    subst hexp
    exact ⟨[], einv.finish (einv.closed_of_nil hv ((pq.isEmpty_iff _).1 hemp))⟩
  · rw [if_pos hemp] at hexp
    obtain ⟨s1, es', hrun, dinv⟩ := primAlgorithmOnAComponet_spec pq graph hv
      (expansionFuel graph) _ bs i [] einv (by
        simp only [expansionFuel]
        have h1 := unvisitedDegree_set _ graph i _ hget hgi
        have h2 := hq2.length_eq
        rw [pq.toList_empty, List.append_nil, List.length_map] at h2
        have h3 := List.length_filter_le
          (fun e => (vis.set i true)[e.1]? == some false) (adj graph i)
        have h4 := unvisitedDegree_le vis graph
        rw [hadj] at h3 h2
        omega)
    rw [hrun] at hexp
    injection hexp with hexp
    subst hexp
    exact ⟨es', dinv⟩

/-- On an index-valid graph the state at every program point of the run agrees
with a history of the run. -/
theorem Reachable.inv {pq : EdgeQueue} {graph : Graph} (hv : IndexValid graph)
    {p : ProgramPoint pq} (h : Reachable pq graph p) : PointInv pq graph p := by
  induction h with
  | start =>
    refine ⟨[], 0, graph.length, List.range_eq_range' _, by simp, ?_, fun v h => by omega⟩
    refine ⟨⟨by simp, by simp, ?_, by simp [vertsOf], by simp [vertsOf], ?_⟩, trivial⟩
    · intro v
      simp only [vertsOf, List.not_mem_nil, iff_false]
      intro h
      rw [List.getElem?_replicate] at h
      split at h <;> cases h
    · simp [forestEdges, forestEdgesFrom_replicate, allEdges]
  | skipVertex _ hvis ih =>
    obtain ⟨bs, a, k, his, hak, inv, hbelow⟩ := ih
    obtain ⟨rfl, k', rfl, rfl⟩ := range'_eq_cons his
    refine ⟨bs, _ + 1, k', rfl, by omega, inv, fun v hvlt => ?_⟩
    rcases Nat.lt_succ_iff_lt_or_eq.1 hvlt with h | h
    · exact hbelow v h
    · subst h
      exact (inv.hist.vis_iff v).1 hvis
  | @enter i rest cnt vis tree adjacency q _ hvis hadj hscan _ ih =>
    obtain ⟨bs, a, k, his, hak, inv, hbelow⟩ := ih
    obtain ⟨rfl, k', rfl, rfl⟩ := range'_eq_cons his
    have hadj' := adj_of_getElem? hadj
    have hall : ∀ e ∈ adjacency, e.1 < (vis.set i true).length := by
      intro e he
      rw [List.length_set, inv.hist.vis_length]
      exact hv.adj_lt (hadj' ▸ he)
    obtain ⟨q0, hq1, hq2⟩ := enqueueUnselected_ok pq i (vis.set i true) adjacency pq.empty hall
    rw [hscan] at hq1
    injection hq1 with hq1
    subst hq1
    rw [← hadj'] at hq2
    exact ⟨bs, i, [], inv.seed_inv hvis hbelow hq2⟩
  | stale _ _ hpop hvis ih =>
    obtain ⟨bs, r, es, inv⟩ := ih
    exact ⟨bs, r, es, inv.stale hpop hvis⟩
  | @absorb s u v w q' q'' treeU adjacency _ _ hpop hvis htree _ hadj hscan ih =>
    obtain ⟨bs, r, es, inv⟩ := ih
    have hadj' := adj_of_getElem? hadj
    have hall : ∀ e ∈ adjacency, e.1 < (s.vertexSelectStatus.set v true).length := by
      intro e he
      rw [List.length_set, inv.hist.vis_length]
      exact hv.adj_lt (hadj' ▸ he)
    obtain ⟨q0, hq1, hq2⟩ :=
      enqueueUnselected_ok pq v (s.vertexSelectStatus.set v true) adjacency q' hall
    rw [hscan] at hq1
    injection hq1 with hq1
    subst hq1
    rw [← hadj'] at hq2
    exact ⟨bs, r, (u, v, w) :: es, inv.absorb_inv hv hpop hvis htree hq2⟩
  | @advance i rest cnt vis tree adjacency q s' _ hvis hadj hscan hexp _ ih =>
    obtain ⟨bs, a, k, his, hak, inv, hbelow⟩ := ih
    obtain ⟨rfl, k', rfl, rfl⟩ := range'_eq_cons his
    obtain ⟨es', dinv⟩ := inv.after_expansion hv hvis hbelow hadj hscan hexp
    refine ⟨(i, es') :: bs, i + 1, k', rfl, by omega, dinv, fun v hvlt => ?_⟩
    rcases Nat.lt_succ_iff_lt_or_eq.1 hvlt with h | h
    · exact mem_vertsOf_cons.2 (Or.inr (hbelow v h))
    · subst h
      exact mem_vertsOf_cons.2 (Or.inl (List.mem_cons_self _ _))
  | @stop i rest cnt vis tree adjacency q s' _ hvis hadj hscan hexp hc ih =>
    obtain ⟨bs, a, k, his, hak, inv, hbelow⟩ := ih
    obtain ⟨rfl, k', rfl, rfl⟩ := range'_eq_cons his
    obtain ⟨es', dinv⟩ := inv.after_expansion hv hvis hbelow hadj hscan hexp
    exact ⟨(i, es') :: bs, dinv, dinv.hist.all_of_count hc⟩
  | finish _ ih =>
    obtain ⟨bs, a, k, his, hak, inv, hbelow⟩ := ih
    have hk : k = 0 := by
      cases k with
      | zero => rfl
      | succ k => simp [List.range'_succ] at his
    subst hk
    exact ⟨bs, inv, fun v hvlt => hbelow v (by omega)⟩

/-! ## The cut property at every absorption -/

/-- The two-vertex graph with one edge of weight 5 is index-valid. -/
theorem twoVertices_valid : IndexValid [[(1, 5)], [(0, 5)]] := by
  unfold IndexValid
  decide

/-- After seeding from vertex 0 the expansion procedure is entered on the
two-vertex graph with the frontier holding the one edge. -/
theorem twoVertices_reachable :
    Reachable listQueue [[(1, 5)], [(0, 5)]]
      (.expansion ⟨[(0, 1, 5)], 1, [true, false], [[], []]⟩) :=
  @Reachable.enter listQueue [[(1, 5)], [(0, 5)]] 0 [1] 0 [false, false] [[], []] [(1, 5)]
    [(0, 1, 5)] (@Reachable.start listQueue [[(1, 5)], [(0, 5)]]) rfl rfl rfl rfl

/-- C12 (cut property at every absorption): on an index-valid graph, whenever the
extraction loop of the expansion procedure is at its head in a state `s` of the
run, the entry `(u, v, w)` is extracted and `v` is not yet visited (so that `v`
is absorbed), then `u` is visited, `(v, w)` is an adjacency entry of `u`, and for
every adjacency entry `(y, w')` of a visited `x` with `y` not visited the
frontier contains `(x, y, w')` and `w ≤ w'`. -/
theorem primAlgorithmOnAComponet_cut_property (pq : EdgeQueue) (graph : Graph)
    (hv : IndexValid graph) (s : PrimState pq) (hr : Reachable pq graph (.expansion s))
    (u v : Nat) (w : Int) (q' : pq.Q)
    (hpop : pq.pop s.edgeQueue = some ((u, v, w), q'))
    (hvis : s.vertexSelectStatus[v]? = some false) :
    s.vertexSelectStatus[u]? = some true ∧ (v, w) ∈ adj graph u ∧
    ∀ x y w', s.vertexSelectStatus[x]? = some true →
      s.vertexSelectStatus[y]? = some false → (y, w') ∈ adj graph x →
      (x, y, w') ∈ pq.toList s.edgeQueue ∧ w ≤ w' := by
  obtain ⟨bs, r, es, inv⟩ := hr.inv hv
  have hprog := (inv.progress_absorb hv hpop hvis).2.2.2
  obtain ⟨_, hu, _, _, hadj, hmin⟩ := hprog
  have hvf := (inv.hist.false_iff v).1 hvis
  refine ⟨(inv.hist.vis_iff u).2 (mem_vertsOf_cons.2 (Or.inl hu)), hadj, ?_⟩
  intro x y w' hx hy hxy
  have hxm := mem_vertsOf_cons.1 ((inv.hist.vis_iff x).1 hx)
  have hyf := (inv.hist.false_iff y).1 hy
  have hy1 : y ∉ vertsOf bs := fun h => hyf.2 (mem_vertsOf_cons.2 (Or.inr h))
  have hy2 : y ∉ r :: children es := fun h => hyf.2 (mem_vertsOf_cons.2 (Or.inl h))
  refine ⟨?_, hmin x y w' hxm.symm hy1 hy2 hxy⟩
  rcases hxm with hxb | hxb
  · exact inv.crossing x hxb (y, w') hxy hy
  · exact absurd (inv.complete.closed x hxb (y, w') hxy) hy1

/-- Witness of C12: the only absorption of the run on the two-vertex graph. -/
theorem primAlgorithmOnAComponet_cut_property_witness :
    IndexValid [[(1, 5)], [(0, 5)]] ∧
    Reachable listQueue [[(1, 5)], [(0, 5)]]
      (.expansion ⟨[(0, 1, 5)], 1, [true, false], [[], []]⟩) ∧
    ([true, false][0]? = some true ∧ ((1, (5 : Int)) ∈ adj [[(1, 5)], [(0, 5)]] 0) ∧
    ∀ x y w', [true, false][x]? = some true → [true, false][y]? = some false →
      (y, w') ∈ adj [[(1, 5)], [(0, 5)]] x →
      (x, y, w') ∈ listQueue.toList [(0, 1, 5)] ∧ (5 : Int) ≤ w') :=
  ⟨twoVertices_valid, twoVertices_reachable,
    primAlgorithmOnAComponet_cut_property listQueue [[(1, 5)], [(0, 5)]] twoVertices_valid
      ⟨[(0, 1, 5)], 1, [true, false], [[], []]⟩ twoVertices_reachable 0 1 5 [] rfl rfl⟩

/-! ## Children and roots of the forest -/

/-- The children of a forest, with multiplicity, are the first components of all
its pairs. -/
theorem children_forestEdgesFrom :
    ∀ (forest : List (List WeightedEdge)) (k : Nat),
      children (forestEdgesFrom k forest) = forest.flatten.map Prod.fst
  | [], _ => by simp [forestEdgesFrom, children]
  | l :: rest, k => by
    have ih := children_forestEdgesFrom rest (k + 1)
    simp only [children] at ih
    simp only [forestEdgesFrom, children, List.map_append, List.map_map, List.flatten_cons, ih]
    rfl

/-- The vertices of a history are the roots of its blocks and the children of its
edges. -/
theorem vertsOf_perm :
    ∀ (bs : List (Nat × List EdgeQueueElement)),
      (vertsOf bs).Perm (bs.map Prod.fst ++ children (allEdges bs))
  | [] => by simp [vertsOf, allEdges, children]
  | b :: bs => by
    have ih := vertsOf_perm bs
    simp only [vertsOf, blockVerts, allEdges, children, List.map_cons, List.map_append,
      List.cons_append] at ih ⊢
    refine List.Perm.cons _ ?_
    refine (List.Perm.append_left _ ih).trans ?_
    rw [← List.append_assoc, ← List.append_assoc]
    exact List.Perm.append_right _ List.perm_append_comm

theorem StepsOK.source_ne {graph : Graph} {V0 : List Nat} {r : Nat} :
    ∀ {es : List EdgeQueueElement}, StepsOK graph V0 r es → ∀ e ∈ es, e.1 ≠ e.2.1
  | [], _, e, he => by simp at he
  | x :: es, h, e, he => by
    rcases List.mem_cons.1 he with rfl | he
    · intro heq
      exact h.2.2.2.1 (heq ▸ h.2.1)
    · exact h.1.source_ne e he

theorem Complete.no_self_loop {graph : Graph} :
    ∀ {bs : List (Nat × List EdgeQueueElement)}, Complete graph bs →
      ∀ e ∈ allEdges bs, e.1 ≠ e.2.1
  | [], _, e, he => by simp [allEdges] at he
  | b :: bs, h, e, he => by
    simp only [allEdges, List.mem_append] at he
    rcases he with he | he
    · exact h.2.1.2.2.2.source_ne e he
    · exact h.1.no_self_loop e he

/-- The children of the returned forest are pairwise distinct. -/
theorem RunResult.children_nodup {graph : Graph} {forest : List (List WeightedEdge)}
    {bs : List (Nat × List EdgeQueueElement)} (res : RunResult graph forest bs) :
    (forest.flatten.map Prod.fst).Nodup := by
  rw [← children_forestEdgesFrom forest 0]
  have h1 : (children (forestEdges forest)).Perm (children (allEdges bs)) :=
    res.edges.map _
  have h2 : (bs.map Prod.fst ++ children (allEdges bs)).Nodup :=
    (vertsOf_perm bs).nodup_iff.1 res.nodup
  exact h1.nodup_iff.2 (List.Nodup.of_append_right h2)

/-- C16 (no vertex is absorbed twice): on an index-valid graph, symmetric or not,
`primAlgorithm` returns a forest in which every vertex is the first component of
at most one pair, counted over all entries with multiplicity; no entry
`forest[u]` contains a pair whose child is `u` itself, and no entry contains two
pairs with the same child. -/
theorem primAlgorithm_absorbs_once (pq : EdgeQueue) (graph : Graph) (hv : IndexValid graph) :
    ∃ forest, primAlgorithm pq graph = .ok forest ∧
      (∀ v, (forest.flatten.map Prod.fst).count v ≤ 1) ∧
      (∀ (u : Nat) (l : List WeightedEdge), forest[u]? = some l → ∀ w, (u, w) ∉ l) ∧
      (∀ (u : Nat) (l : List WeightedEdge), forest[u]? = some l → ∀ v, (l.map Prod.fst).count v ≤ 1) := by
  obtain ⟨forest, bs, hrun, res⟩ := primAlgorithm_spec pq graph hv
  have hnd := res.children_nodup
  refine ⟨forest, hrun, fun v => List.nodup_iff_count_le_one.1 hnd v, ?_, ?_⟩
  · intro u l hl w hw
    have hm : (0 + u, u, w) ∈ forestEdgesFrom 0 forest := mem_forestEdgesFrom hl hw
    rw [Nat.zero_add] at hm
    exact res.complete.no_self_loop _ (res.edges.mem_iff.1 hm) rfl
  · intro u l hl v
    have hsub : List.Sublist l forest.flatten :=
      List.sublist_flatten_of_mem (List.mem_iff_getElem?.2 ⟨u, hl⟩)
    exact (List.Sublist.count_le (hsub.map Prod.fst) v).trans
      (List.nodup_iff_count_le_one.1 hnd v)

/-- Witness of C16: the disconnected example. -/
theorem primAlgorithm_absorbs_once_witness :
    IndexValid disconnectedExample ∧
    ∃ forest, primAlgorithm listQueue disconnectedExample = .ok forest ∧
      (∀ v, (forest.flatten.map Prod.fst).count v ≤ 1) ∧
      (∀ (u : Nat) (l : List WeightedEdge), forest[u]? = some l → ∀ w, (u, w) ∉ l) ∧
      (∀ (u : Nat) (l : List WeightedEdge), forest[u]? = some l → ∀ v, (l.map Prod.fst).count v ≤ 1) :=
  ⟨disconnectedExample_valid,
    primAlgorithm_absorbs_once listQueue disconnectedExample disconnectedExample_valid⟩

/-! ## Component roots -/

/-- The root of a finished block is the least vertex it can reach. -/
theorem Complete.root_least {graph : Graph} (hsym : Symmetric graph) {r : Nat}
    {es : List EdgeQueueElement} {bs : List (Nat × List EdgeQueueElement)}
    (h : Complete graph ((r, es) :: bs)) {u : Nat} (hu : Reach graph r u) : r ≤ u := by
  have hmem := (h.component hsym u).2 hu
  obtain ⟨-, ⟨-, hr, hbelow, hsteps⟩, -⟩ := h
  by_contra hlt
  have hub : u ∈ vertsOf bs := hbelow u (by omega)
  rcases List.mem_cons.1 hmem with h1 | h1
  · subst h1
    exact hr hub
  · exact hsteps.not_mem u h1 hub

/-- In a finished history of an index-valid symmetric graph the roots of the
blocks are the vertices that are least in their component. -/
theorem Complete.root_iff {graph : Graph} (hsym : Symmetric graph)
    {bs : List (Nat × List EdgeQueueElement)} (h : Complete graph bs) {v : Nat}
    (hv : v ∈ vertsOf bs) : v ∈ bs.map Prod.fst ↔ ∀ u, Reach graph v u → v ≤ u := by
  constructor
  · intro hroot u hu
    obtain ⟨⟨r, es⟩, hb, hr⟩ := List.mem_map.1 hroot
    simp only at hr
    subst hr
    obtain ⟨l2, hc⟩ := h.of_mem hb
    exact hc.root_least hsym hu
  · intro hleast
    obtain ⟨⟨r, es⟩, hb, hvb⟩ := mem_vertsOf_iff.1 hv
    obtain ⟨l2, hc⟩ := h.of_mem hb
    have h1 : Reach graph r v := (hc.component hsym v).1 hvb
    have h2 : r ≤ v := hc.root_least hsym h1
    have h3 : v ≤ r := hleast r h1.symm_reach
    have h4 : v = r := by omega
    subst h4
    exact List.mem_map.2 ⟨(v, es), hb, rfl⟩

/-- C17 (component roots): on an index-valid symmetric graph, a vertex is a child
nowhere in the forest returned by `primAlgorithm` if and only if it is the
lowest-indexed vertex of its connected component; and whenever the driver seeds
from a vertex `i`, no vertex of the component of `i` is visited yet, `i` is the
lowest-indexed vertex of its component, every vertex of lower index is visited
already and the indices still to come are larger than `i`. -/
theorem primAlgorithm_component_roots (pq : EdgeQueue) (graph : Graph)
    (hv : IndexValid graph) (hsym : Symmetric graph) :
    (∃ forest, primAlgorithm pq graph = .ok forest ∧
      ∀ v, v < graph.length →
        (v ∉ forest.flatten.map Prod.fst ↔ ∀ u, Reach graph v u → v ≤ u)) ∧
    (∀ (i : Nat) (rest : List Nat) (cnt : Nat) (vis : List Bool)
        (tree : List (List WeightedEdge)),
      Reachable pq graph (.driver (i :: rest) cnt vis tree) → vis[i]? = some false →
      (∀ u, Reach graph i u → i ≤ u ∧ vis[u]? = some false) ∧
      (∀ j, j < i → vis[j]? = some true) ∧ (∀ j ∈ rest, i < j)) := by
  constructor
  · obtain ⟨forest, bs, hrun, res⟩ := primAlgorithm_spec pq graph hv
    refine ⟨forest, hrun, fun v hlt => ?_⟩
    have hvm : v ∈ vertsOf bs := (res.verts_iff v).2 hlt
    have hperm := vertsOf_perm bs
    have hnd : (bs.map Prod.fst ++ children (allEdges bs)).Nodup :=
      hperm.nodup_iff.1 res.nodup
    have hch : v ∈ forest.flatten.map Prod.fst ↔ v ∈ children (allEdges bs) := by
      rw [← children_forestEdgesFrom forest 0]
      exact (List.Perm.map (fun e : EdgeQueueElement => e.2.1) res.edges).mem_iff
    rw [hch, ← res.complete.root_iff hsym hvm]
    have hor := List.mem_append.1 (hperm.mem_iff.1 hvm)
    have hdisj := List.disjoint_of_nodup_append hnd
    constructor
    · intro hn
      exact hor.resolve_right hn
    · intro hr hc
      exact hdisj hr hc
  · intro i rest cnt vis tree hr hvis
    obtain ⟨bs, a, k, his, hak, inv, hbelow⟩ := hr.inv hv
    obtain ⟨rfl, k', rfl, rfl⟩ := range'_eq_cons his
    have hi := (inv.hist.false_iff i).1 hvis
    refine ⟨fun u hu => ?_, fun j hj => (inv.hist.vis_iff j).2 (hbelow j hj), ?_⟩
    · have hun : u ∉ vertsOf bs := fun hm =>
        hi.2 (inv.complete.closed.reach_mem hsym hm hu.symm_reach)
      refine ⟨?_, (inv.hist.false_iff u).2 ⟨hu.lt_length hv hi.1, hun⟩⟩
      by_contra hlt
      exact hun (hbelow u (by omega))
    · intro j hj
      have := (List.mem_range'_1.1 hj).1
      omega

/-- Witness of C17: the disconnected example. -/
theorem primAlgorithm_component_roots_witness :
    IndexValid disconnectedExample ∧ Symmetric disconnectedExample ∧
    ((∃ forest, primAlgorithm listQueue disconnectedExample = .ok forest ∧
      ∀ v, v < disconnectedExample.length →
        (v ∉ forest.flatten.map Prod.fst ↔ ∀ u, Reach disconnectedExample v u → v ≤ u)) ∧
    (∀ (i : Nat) (rest : List Nat) (cnt : Nat) (vis : List Bool)
        (tree : List (List WeightedEdge)),
      Reachable listQueue disconnectedExample (.driver (i :: rest) cnt vis tree) →
      vis[i]? = some false →
      (∀ u, Reach disconnectedExample i u → i ≤ u ∧ vis[u]? = some false) ∧
      (∀ j, j < i → vis[j]? = some true) ∧ (∀ j ∈ rest, i < j))) :=
  ⟨disconnectedExample_valid, disconnectedExample_symmetric,
    primAlgorithm_component_roots listQueue disconnectedExample disconnectedExample_valid
      disconnectedExample_symmetric⟩

/-! ## Reasoning along the extraction loop -/

/-- The four ways in which a call of the expansion procedure returns a state: the
frontier is empty; a stale entry is dropped and the loop goes on; the last
vertex is absorbed; a vertex is absorbed, its adjacency list is scanned and the
loop goes on. -/
theorem primAlgorithmOnAComponet_cases (pq : EdgeQueue) (graph : Graph) (fuel : Nat)
    (s s' : PrimState pq) (h : primAlgorithmOnAComponet pq graph (fuel + 1) s = .ok s') :
    (pq.isEmpty s.edgeQueue = true ∧ s' = s) ∨
    (∃ u v w q', pq.isEmpty s.edgeQueue = false ∧ pq.pop s.edgeQueue = some ((u, v, w), q') ∧
      s.vertexSelectStatus[v]? = some true ∧
      primAlgorithmOnAComponet pq graph fuel { s with edgeQueue := q' } = .ok s') ∨
    (∃ u v w q' treeU, pq.isEmpty s.edgeQueue = false ∧
      pq.pop s.edgeQueue = some ((u, v, w), q') ∧ s.vertexSelectStatus[v]? = some false ∧
      s.tree[u]? = some treeU ∧ ¬ s.selectedVertexCount + 1 < graph.length ∧
      s' = ⟨q', s.selectedVertexCount + 1, s.vertexSelectStatus.set v true,
        s.tree.set u (treeU ++ [(v, w)])⟩) ∨
    (∃ u v w q' treeU adjacency q'', pq.isEmpty s.edgeQueue = false ∧
      pq.pop s.edgeQueue = some ((u, v, w), q') ∧ s.vertexSelectStatus[v]? = some false ∧
      s.tree[u]? = some treeU ∧ s.selectedVertexCount + 1 < graph.length ∧
      graph[v]? = some adjacency ∧
      enqueueUnselected pq v (s.vertexSelectStatus.set v true) adjacency q' = .ok q'' ∧
      primAlgorithmOnAComponet pq graph fuel
        ⟨q'', s.selectedVertexCount + 1, s.vertexSelectStatus.set v true,
          s.tree.set u (treeU ++ [(v, w)])⟩ = .ok s') := by
  rw [primAlgorithmOnAComponet] at h
  cases hemp : pq.isEmpty s.edgeQueue with
  | true =>
    simp only [hemp, if_true] at h
    injection h with h
    exact Or.inl ⟨rfl, h.symm⟩
  | false =>
    simp only [hemp, Bool.false_eq_true, if_false] at h
    cases hpop : pq.pop s.edgeQueue with
    | none => simp [hpop] at h
    | some p =>
      obtain ⟨⟨u, v, w⟩, q'⟩ := p
      simp only [hpop] at h
      cases hget : s.vertexSelectStatus[v]? with
      | none => simp [hget] at h
      | some b =>
        cases b with
        | true =>
          simp only [hget] at h
          exact Or.inr (Or.inl ⟨u, v, w, q', rfl, rfl, hget, h⟩)
        | false =>
          simp only [hget] at h
          cases htu : s.tree[u]? with
          | none => simp [htu] at h
          | some treeU =>
            simp only [htu] at h
            by_cases hc : s.selectedVertexCount + 1 < graph.length
            · simp only [hc, not_true_eq_false, if_false] at h
              cases hgv : graph[v]? with
              | none => simp [hgv] at h
              | some adjacency =>
                simp only [hgv] at h
                cases hscan : enqueueUnselected pq v (s.vertexSelectStatus.set v true)
                    adjacency q' with
                | error e => simp [hscan] at h
                | ok q'' =>
                  simp only [hscan] at h
                  exact Or.inr (Or.inr (Or.inr
                    ⟨u, v, w, q', treeU, adjacency, q'', rfl, rfl, hget, htu, hc, hgv, hscan, h⟩))
            · simp only [hc, not_false_eq_true, if_true] at h
              injection h with h
              exact Or.inr (Or.inr (Or.inl ⟨u, v, w, q', treeU, rfl, rfl, hget, htu, hc, h.symm⟩))

/-- A rule for the extraction loop: a property `P` of the state at the head of
the loop that is kept by dropping a stale entry and by an absorption that goes
on, and that yields `Q` when the loop ends, gives `Q` of the returned state. -/
theorem primAlgorithmOnAComponet_rule (pq : EdgeQueue) (graph : Graph)
    (P Q : PrimState pq → Prop)
    (hdone : ∀ s, P s → pq.isEmpty s.edgeQueue = true → Q s)
    (hstale : ∀ (s : PrimState pq) (u v : Nat) (w : Int) (q' : pq.Q), P s →
      pq.isEmpty s.edgeQueue = false → pq.pop s.edgeQueue = some ((u, v, w), q') →
      s.vertexSelectStatus[v]? = some true → P { s with edgeQueue := q' })
    (hlast : ∀ (s : PrimState pq) (u v : Nat) (w : Int) (q' : pq.Q)
      (treeU : List WeightedEdge), P s →
      pq.isEmpty s.edgeQueue = false → pq.pop s.edgeQueue = some ((u, v, w), q') →
      s.vertexSelectStatus[v]? = some false → s.tree[u]? = some treeU →
      ¬ s.selectedVertexCount + 1 < graph.length →
      Q ⟨q', s.selectedVertexCount + 1, s.vertexSelectStatus.set v true,
        s.tree.set u (treeU ++ [(v, w)])⟩)
    (habsorb : ∀ (s : PrimState pq) (u v : Nat) (w : Int) (q' : pq.Q)
      (treeU adjacency : List WeightedEdge) (q'' : pq.Q), P s →
      pq.isEmpty s.edgeQueue = false → pq.pop s.edgeQueue = some ((u, v, w), q') →
      s.vertexSelectStatus[v]? = some false → s.tree[u]? = some treeU →
      s.selectedVertexCount + 1 < graph.length → graph[v]? = some adjacency →
      enqueueUnselected pq v (s.vertexSelectStatus.set v true) adjacency q' = .ok q'' →
      P ⟨q'', s.selectedVertexCount + 1, s.vertexSelectStatus.set v true,
        s.tree.set u (treeU ++ [(v, w)])⟩) :
    ∀ (fuel : Nat) (s s' : PrimState pq),
      primAlgorithmOnAComponet pq graph fuel s = .ok s' → P s → Q s' := by
  intro fuel
  induction fuel with
  | zero =>
    intro s s' h
    simp [primAlgorithmOnAComponet] at h
  | succ fuel ih =>
    intro s s' h hP
    rcases primAlgorithmOnAComponet_cases pq graph fuel s s' h with
      ⟨hemp, rfl⟩ | ⟨u, v, w, q', hemp, hpop, hvis, hrun⟩ |
      ⟨u, v, w, q', treeU, hemp, hpop, hvis, htu, hc, rfl⟩ |
      ⟨u, v, w, q', treeU, adjacency, q'', hemp, hpop, hvis, htu, hc, hgv, hscan, hrun⟩
    · exact hdone _ hP hemp
    · exact ih _ _ hrun (hstale s u v w q' hP hemp hpop hvis)
    · exact hlast s u v w q' treeU hP hemp hpop hvis htu hc
    · exact ih _ _ hrun (habsorb s u v w q' treeU adjacency q'' hP hemp hpop hvis htu hc hgv hscan)

/-- More fuel does not change the state a call of the expansion procedure returns. -/
theorem primAlgorithmOnAComponet_fuel_succ (pq : EdgeQueue) (graph : Graph) :
    ∀ (fuel : Nat) (s s' : PrimState pq),
      primAlgorithmOnAComponet pq graph fuel s = .ok s' →
      primAlgorithmOnAComponet pq graph (fuel + 1) s = .ok s' := by
  intro fuel
  induction fuel with
  | zero =>
    intro s s' h
    simp [primAlgorithmOnAComponet] at h
  | succ fuel ih =>
    intro s s' h
    rcases primAlgorithmOnAComponet_cases pq graph fuel s s' h with
      ⟨hemp, rfl⟩ | ⟨u, v, w, q', hemp, hpop, hvis, hrun⟩ |
      ⟨u, v, w, q', treeU, hemp, hpop, hvis, htu, hc, rfl⟩ |
      ⟨u, v, w, q', treeU, adjacency, q'', hemp, hpop, hvis, htu, hc, hgv, hscan, hrun⟩
    · exact primAlgorithmOnAComponet_done pq graph _ _ hemp
    · rw [primAlgorithmOnAComponet_stale pq graph _ s hemp hpop hvis]
      exact ih _ _ hrun
    · exact primAlgorithmOnAComponet_last pq graph _ s hemp hpop hvis htu hc
    · rw [primAlgorithmOnAComponet_absorb pq graph _ s hemp hpop hvis htu hc hgv hscan]
      exact ih _ _ hrun

theorem primAlgorithmOnAComponet_fuel_le (pq : EdgeQueue) (graph : Graph)
    {fuel fuel' : Nat} (hle : fuel ≤ fuel') {s s' : PrimState pq}
    (h : primAlgorithmOnAComponet pq graph fuel s = .ok s') :
    primAlgorithmOnAComponet pq graph fuel' s = .ok s' := by
  induction hle with
  | refl => exact h
  | step _ ih => exact primAlgorithmOnAComponet_fuel_succ pq graph _ _ _ ih

/-- The extraction loop ends with an empty frontier or with every vertex counted. -/
theorem primAlgorithmOnAComponet_exit (pq : EdgeQueue) (graph : Graph) (fuel : Nat)
    (s s' : PrimState pq) (h : primAlgorithmOnAComponet pq graph fuel s = .ok s') :
    pq.isEmpty s'.edgeQueue = true ∨ ¬ s'.selectedVertexCount < graph.length :=
  primAlgorithmOnAComponet_rule pq graph (fun _ => True)
    (fun t => pq.isEmpty t.edgeQueue = true ∨ ¬ t.selectedVertexCount < graph.length)
    (fun _ _ h => Or.inl h) (fun _ _ _ _ _ _ _ _ _ => trivial)
    (fun _ _ _ _ _ _ _ _ _ _ _ hc => Or.inr hc)
    (fun _ _ _ _ _ _ _ _ _ _ _ _ _ _ _ _ => trivial) fuel s s' h trivial

/-! ## Termination of the extraction loop -/

/-- At the head of the extraction loop, the frontier and the adjacency lists of
the vertices not yet visited hold together no more entries than the graph has. -/
theorem Reachable.measure_le {pq : EdgeQueue} {graph : Graph} {p : ProgramPoint pq}
    (h : Reachable pq graph p) :
    match p with
    | .expansion s =>
      (pq.toList s.edgeQueue).length + unvisitedDegree s.vertexSelectStatus graph ≤
        edgeCount graph
    | _ => True := by
  induction h with
  | start => trivial
  | skipVertex _ _ _ => trivial
  | @enter i rest cnt vis tree adjacency q _ hvis hadj hscan _ _ =>
    show (pq.toList q).length + unvisitedDegree (vis.set i true) graph ≤ edgeCount graph
    have h1 := unvisitedDegree_set vis graph i adjacency hvis hadj
    have h2 := enqueueUnselected_length pq i _ adjacency pq.empty q hscan
    have h3 := unvisitedDegree_le vis graph
    rw [pq.toList_empty] at h2
    simp only [List.length_nil] at h2
    omega
  | @stale s u v w q' _ _ hpop _ ih =>
    show (pq.toList q').length + unvisitedDegree s.vertexSelectStatus graph ≤ edgeCount graph
    have hlen := (pq.pop_perm _ _ _ hpop).length_eq
    simp only [List.length_cons] at hlen
    have ih' : (pq.toList s.edgeQueue).length + unvisitedDegree s.vertexSelectStatus graph ≤
        edgeCount graph := ih
    omega
  | @absorb s u v w q' q'' treeU adjacency _ _ hpop hvis _ _ hadj hscan ih =>
    show (pq.toList q'').length + unvisitedDegree (s.vertexSelectStatus.set v true) graph ≤
      edgeCount graph
    have hlen := (pq.pop_perm _ _ _ hpop).length_eq
    simp only [List.length_cons] at hlen
    have h1 := unvisitedDegree_set s.vertexSelectStatus graph v adjacency hvis hadj
    have h2 := enqueueUnselected_length pq v _ adjacency q' q'' hscan
    have ih' : (pq.toList s.edgeQueue).length + unvisitedDegree s.vertexSelectStatus graph ≤
        edgeCount graph := ih
    omega
  | advance _ _ _ _ _ _ _ => trivial
  | stop _ _ _ _ _ _ _ => trivial
  | finish _ _ => trivial

/-- The absorbed count never exceeds the number of vertices. -/
theorem HistoryInv.count_le {graph : Graph} {hist : List (Nat × List EdgeQueueElement)}
    {cnt : Nat} {vis : List Bool} {tree : List (List WeightedEdge)}
    (h : HistoryInv graph hist cnt vis tree) : cnt ≤ graph.length := by
  have hsub : (vertsOf hist).toFinset ⊆ Finset.range graph.length := by
    intro x hx
    exact Finset.mem_range.2 (h.lt_of_mem (List.mem_toFinset.1 hx))
  have hcard := Finset.card_le_card hsub
  rw [List.toFinset_card_of_nodup h.nodup, Finset.card_range, ← h.count] at hcard
  exact hcard

/-- C13 (termination): on an index-valid graph, at every head of the extraction
loop that the run reaches, the frontier and the adjacency lists of the unvisited
vertices hold together at most as many entries as the graph has, and the loop
run from there returns one and the same state for every amount of fuel above
that number, a state whose frontier is empty or whose absorbed count is the
number of vertices; and `primAlgorithm` returns a forest. -/
theorem primAlgorithm_terminates (pq : EdgeQueue) (graph : Graph) (hv : IndexValid graph) :
    (∀ s : PrimState pq, Reachable pq graph (.expansion s) →
      (pq.toList s.edgeQueue).length + unvisitedDegree s.vertexSelectStatus graph ≤
        edgeCount graph ∧
      ∃ s', (∀ fuel,
          (pq.toList s.edgeQueue).length + unvisitedDegree s.vertexSelectStatus graph < fuel →
          primAlgorithmOnAComponet pq graph fuel s = .ok s') ∧
        (pq.isEmpty s'.edgeQueue = true ∨ s'.selectedVertexCount = graph.length)) ∧
    ∃ forest, primAlgorithm pq graph = .ok forest := by
  refine ⟨fun s hr => ⟨hr.measure_le, ?_⟩, ?_⟩
  · obtain ⟨bs, r, es, inv⟩ := hr.inv hv
    obtain ⟨s', es', hrun, dinv⟩ := primAlgorithmOnAComponet_spec pq graph hv _ s bs r es inv
      (Nat.lt_succ_self _)
    refine ⟨s', fun fuel hfuel => primAlgorithmOnAComponet_fuel_le pq graph hfuel hrun, ?_⟩
    rcases primAlgorithmOnAComponet_exit pq graph _ s s' hrun with h | h
    · exact Or.inl h
    · have := dinv.hist.count_le
      exact Or.inr (by omega)
  · obtain ⟨forest, bs, hrun, -⟩ := primAlgorithm_spec pq graph hv
    exact ⟨forest, hrun⟩

/-- Witness of C13: the two-vertex graph with one edge. -/
theorem primAlgorithm_terminates_witness :
    IndexValid [[(1, 5)], [(0, 5)]] ∧
    ((∀ s : PrimState listQueue, Reachable listQueue [[(1, 5)], [(0, 5)]] (.expansion s) →
      (listQueue.toList s.edgeQueue).length +
          unvisitedDegree s.vertexSelectStatus [[(1, 5)], [(0, 5)]] ≤
        edgeCount [[(1, 5)], [(0, 5)]] ∧
      ∃ s', (∀ fuel,
          (listQueue.toList s.edgeQueue).length +
            unvisitedDegree s.vertexSelectStatus [[(1, 5)], [(0, 5)]] < fuel →
          primAlgorithmOnAComponet listQueue [[(1, 5)], [(0, 5)]] fuel s = .ok s') ∧
        (listQueue.isEmpty s'.edgeQueue = true ∨
          s'.selectedVertexCount = ([[(1, 5)], [(0, 5)]] : Graph).length)) ∧
    ∃ forest, primAlgorithm listQueue [[(1, 5)], [(0, 5)]] = .ok forest) :=
  ⟨twoVertices_valid, primAlgorithm_terminates listQueue [[(1, 5)], [(0, 5)]] twoVertices_valid⟩

/-! ## The absorbed count and the visited marks -/

/-- The number of marks set is the number of indices that carry a set mark. -/
theorem count_true_eq_filter (vis : List Bool) :
    vis.count true =
      ((List.range vis.length).filter (fun i => vis[i]? == some true)).length := by
  induction vis using List.reverseRecOn with
  | nil => rfl
  | append_singleton xs b ih =>
    rw [List.count_append, List.length_append, List.length_singleton, List.range_succ,
      List.filter_append, List.length_append, ih]
    congr 1
    · congr 1
      apply List.filter_congr
      intro i hi
      rw [List.getElem?_append_left (List.mem_range.1 hi)]
    · cases b <;> simp

/-- The absorbed count of a state that agrees with a history is the number of
marks set. -/
theorem HistoryInv.count_eq {graph : Graph} {hist : List (Nat × List EdgeQueueElement)}
    {cnt : Nat} {vis : List Bool} {tree : List (List WeightedEdge)}
    (h : HistoryInv graph hist cnt vis tree) : cnt = vis.count true := by
  rw [h.count, count_true_eq_filter]
  apply List.Perm.length_eq
  rw [List.perm_ext_iff_of_nodup h.nodup ((List.nodup_range _).filter _)]
  intro v
  rw [List.mem_filter, List.mem_range, ← h.vis_iff v, beq_iff_eq]
  constructor
  · intro hv
    refine ⟨?_, hv⟩
    by_contra hlt
    rw [List.getElem?_eq_none (not_lt.1 hlt)] at hv
    cases hv
  · exact fun hv => hv.2

/-- The state at a program point agrees with the history of the run so far. -/
theorem PointInv.history_inv {pq : EdgeQueue} {graph : Graph} {p : ProgramPoint pq}
    (h : PointInv pq graph p) :
    ∃ bs, HistoryInv graph bs p.count p.status p.forest := by
  cases p with
  | driver is cnt vis tree =>
    obtain ⟨bs, _, _, _, _, inv, _⟩ := h
    exact ⟨bs, inv.hist⟩
  | expansion s =>
    obtain ⟨bs, r, es, inv⟩ := h
    exact ⟨_, inv.hist⟩
  | returned cnt vis tree =>
    obtain ⟨bs, inv, _⟩ := h
    exact ⟨bs, inv.hist⟩

/-- A run of the driver loop that yields a forest ends at a return point with
that forest. -/
theorem Reachable.driverLoop_returned {pq : EdgeQueue} {graph : Graph} :
    ∀ (is : List Nat) (cnt : Nat) (vis : List Bool) (tree forest : List (List WeightedEdge)),
      Reachable pq graph (.driver is cnt vis tree) →
      driverLoop pq graph is cnt vis tree = .ok forest →
      ∃ cnt' vis', Reachable pq graph (.returned cnt' vis' forest) := by
  intro is
  induction is with
  | nil =>
    intro cnt vis tree forest hr h
    simp only [driverLoop] at h
    injection h with h
    subst h
    exact ⟨cnt, vis, hr.finish⟩
  | cons i rest ih =>
    intro cnt vis tree forest hr h
    rw [driverLoop] at h
    cases hget : vis[i]? with
    | none => simp [hget] at h
    | some b =>
      cases b with
      | true =>
        simp only [hget] at h
        exact ih _ _ _ _ (hr.skipVertex hget) h
      | false =>
        simp only [hget] at h
        cases hadj : graph[i]? with
        | none => simp [hadj] at h
        | some adjacency =>
          simp only [hadj] at h
          cases hscan : enqueueUnselected pq i (vis.set i true) adjacency pq.empty with
          | error e => simp [hscan] at h
          | ok q =>
            simp only [hscan] at h
            cases hexp : (if ¬ pq.isEmpty q = true then
                primAlgorithmOnAComponet pq graph (expansionFuel graph)
                  ⟨q, cnt + 1, vis.set i true, tree⟩
              else .ok ⟨q, cnt + 1, vis.set i true, tree⟩) with
            | error e =>
              rw [hexp] at h
              cases h
            | ok s' =>
              simp only [hexp] at h
              by_cases hc : s'.selectedVertexCount < graph.length
              · simp only [hc, not_true_eq_false, if_false] at h
                exact ih _ _ _ _ (hr.advance hget hadj hscan hexp hc) h
              · simp only [hc, not_false_eq_true, if_true] at h
                injection h with h
                subst h
                exact ⟨_, _, hr.stop hget hadj hscan hexp hc⟩

/-- Between the mark and the increment the count is one behind the number of
marks set, on an index-valid graph. -/
theorem MarkedPoint.count_succ {pq : EdgeQueue} {graph : Graph} (hv : IndexValid graph)
    {cnt : Nat} {vis : List Bool} (h : MarkedPoint pq graph cnt vis) :
    vis.count true = cnt + 1 ∧ vis.length = graph.length ∧ cnt < graph.length := by
  cases h with
  | @seeded i rest cnt vis0 tree hr hvis =>
    obtain ⟨bs, _, _, _, _, inv, _⟩ := hr.inv hv
    have hist := inv.hist.seed_hist hvis
    exact ⟨hist.count_eq.symm, hist.vis_length, hist.count_le⟩
  | @absorbed s u v w q' hr _ hpop hvis =>
    obtain ⟨bs, r, es, inv⟩ := hr.inv hv
    have hmem : (u, v, w) ∈ pq.toList s.edgeQueue :=
      (pq.pop_perm _ _ _ hpop).mem_iff.2 (List.mem_cons_self _ _)
    have hult : u < graph.length :=
      inv.hist.lt_of_mem (mem_vertsOf_cons.2 (Or.inl (inv.queue _ hmem).1))
    obtain ⟨treeU, huget⟩ : ∃ l, s.tree[u]? = some l :=
      ⟨_, List.getElem?_eq_getElem (by rw [inv.hist.tree_length]; exact hult)⟩
    have hist := inv.hist.absorb_hist w hvis huget
    exact ⟨hist.count_eq.symm, hist.vis_length, hist.count_le⟩

/-- C15, amended to the heads of the loops and the return (the absorbed count
tracks the visited set): on an index-valid graph, at every head of the driver
loop and of the extraction loop and at the return, `selectedVertexCount` is the
number of entries of `vertexSelectStatus` that are true, `vertexSelectStatus`
has one entry per vertex, and the count is at most the number of vertices;
between the statement that marks a vertex and the statement that increments the
count, the number of entries that are true is the count plus one; at the return
every vertex is marked and the count is the number of vertices; and the run of
`primAlgorithm` ends at such a return with the forest it yields. -/
theorem primAlgorithm_count_tracks (pq : EdgeQueue) (graph : Graph) (hv : IndexValid graph) :
    (∀ p : ProgramPoint pq, Reachable pq graph p →
      p.count = p.status.count true ∧ p.status.length = graph.length ∧
        p.count ≤ graph.length) ∧
    (∀ (cnt : Nat) (vis : List Bool), MarkedPoint pq graph cnt vis →
      vis.count true = cnt + 1 ∧ vis.length = graph.length ∧ cnt < graph.length) ∧
    (∀ (cnt : Nat) (vis : List Bool) (tree : List (List WeightedEdge)),
      Reachable pq graph (.returned cnt vis tree) →
      cnt = graph.length ∧ ∀ v, v < graph.length → vis[v]? = some true) ∧
    ∃ forest cnt vis, primAlgorithm pq graph = .ok forest ∧
      Reachable pq graph (.returned cnt vis forest) := by
  refine ⟨fun p hr => ?_, fun cnt vis hm => hm.count_succ hv, fun cnt vis tree hr => ?_, ?_⟩
  · obtain ⟨bs, h⟩ := (hr.inv hv).history_inv
    exact ⟨h.count_eq, h.vis_length, h.count_le⟩
  · obtain ⟨bs, inv, hall⟩ := hr.inv hv
    have hres := inv.result hall
    exact ⟨by rw [inv.hist.count, hres.vertsOf_length_eq],
      fun v hlt => (inv.hist.vis_iff v).2 (hall v hlt)⟩
  · obtain ⟨forest, bs, hrun, -⟩ := primAlgorithm_spec pq graph hv
    obtain ⟨cnt, vis, hr⟩ :=
      Reachable.driverLoop_returned _ _ _ _ forest Reachable.start hrun
    exact ⟨forest, cnt, vis, hrun, hr⟩

/-- Witness of C15 as amended: the two-vertex graph with one edge. -/
theorem primAlgorithm_count_tracks_witness :
    IndexValid [[(1, 5)], [(0, 5)]] ∧
    ((∀ p : ProgramPoint listQueue, Reachable listQueue [[(1, 5)], [(0, 5)]] p →
      p.count = p.status.count true ∧
        p.status.length = ([[(1, 5)], [(0, 5)]] : Graph).length ∧
        p.count ≤ ([[(1, 5)], [(0, 5)]] : Graph).length) ∧
    (∀ (cnt : Nat) (vis : List Bool), MarkedPoint listQueue [[(1, 5)], [(0, 5)]] cnt vis →
      vis.count true = cnt + 1 ∧ vis.length = ([[(1, 5)], [(0, 5)]] : Graph).length ∧
        cnt < ([[(1, 5)], [(0, 5)]] : Graph).length) ∧
    (∀ (cnt : Nat) (vis : List Bool) (tree : List (List WeightedEdge)),
      Reachable listQueue [[(1, 5)], [(0, 5)]] (.returned cnt vis tree) →
      cnt = ([[(1, 5)], [(0, 5)]] : Graph).length ∧
        ∀ v, v < ([[(1, 5)], [(0, 5)]] : Graph).length → vis[v]? = some true) ∧
    ∃ forest cnt vis, primAlgorithm listQueue [[(1, 5)], [(0, 5)]] = .ok forest ∧
      Reachable listQueue [[(1, 5)], [(0, 5)]] (.returned cnt vis forest)) :=
  ⟨twoVertices_valid,
    primAlgorithm_count_tracks listQueue [[(1, 5)], [(0, 5)]] twoVertices_valid⟩

/-- Counterexample to C15 as worded: on the index-valid two-vertex graph
`[[(1,5)], [(0,5)]]` the run passes through the point between lines 118 and 119
with `selectedVertexCount = 0` and one entry of `vertexSelectStatus` true, and
through the point between lines 86 and 87 with `selectedVertexCount = 1` and two
entries true; so it is not at every point of the driver loop and of the
expansion procedure that the count equals the number of entries that are true. -/
theorem selectedVertexCount_behind_mark :
    IndexValid [[(1, 5)], [(0, 5)]] ∧
    (MarkedPoint listQueue [[(1, 5)], [(0, 5)]] 0 [true, false] ∧
      (0 : Nat) ≠ ([true, false] : List Bool).count true) ∧
    (MarkedPoint listQueue [[(1, 5)], [(0, 5)]] 1 [true, true] ∧
      (1 : Nat) ≠ ([true, true] : List Bool).count true) ∧
    ¬ ∀ (cnt : Nat) (vis : List Bool), MarkedPoint listQueue [[(1, 5)], [(0, 5)]] cnt vis →
      cnt = vis.count true :=
  have h0 : MarkedPoint listQueue [[(1, 5)], [(0, 5)]] 0 [true, false] :=
    @MarkedPoint.seeded listQueue [[(1, 5)], [(0, 5)]] 0 [1] 0 [false, false] [[], []]
      (@Reachable.start listQueue [[(1, 5)], [(0, 5)]]) rfl
  have h1 : MarkedPoint listQueue [[(1, 5)], [(0, 5)]] 1 [true, true] :=
    @MarkedPoint.absorbed listQueue [[(1, 5)], [(0, 5)]]
      ⟨[(0, 1, 5)], 1, [true, false], [[], []]⟩ 0 1 5 [] twoVertices_reachable rfl rfl rfl
  ⟨twoVertices_valid, ⟨h0, by decide⟩, ⟨h1, by decide⟩, fun h => absurd (h 0 _ h0) (by decide)⟩

/-! ## The expansion procedure only adds -/

theorem OnlyAdds.refl_state {pq : EdgeQueue} (s : PrimState pq) : OnlyAdds s s :=
  ⟨rfl, fun _ h => h, rfl, fun _ l h => ⟨[], by rw [List.append_nil]; exact h⟩, Nat.le_refl _⟩

/-- Dropping a frontier entry changes neither marks, nor forest, nor count. -/
theorem OnlyAdds.drop {pq : EdgeQueue} {s t : PrimState pq} (h : OnlyAdds s t) (q' : pq.Q) :
    OnlyAdds s { t with edgeQueue := q' } := h

/-- Absorbing `v` through the entry `(u, v, w)` only adds. -/
theorem OnlyAdds.absorb_state {pq : EdgeQueue} {s t : PrimState pq} (h : OnlyAdds s t)
    (u v : Nat) (w : Int) (treeU : List WeightedEdge) (htu : t.tree[u]? = some treeU)
    (q'' : pq.Q) :
    OnlyAdds s ⟨q'', t.selectedVertexCount + 1, t.vertexSelectStatus.set v true,
      t.tree.set u (treeU ++ [(v, w)])⟩ := by
  obtain ⟨h1, h2, h3, h4, h5⟩ := h
  refine ⟨by simp only [List.length_set]; exact h1, ?_, by simp only [List.length_set]; exact h3,
    ?_, Nat.le_succ_of_le h5⟩
  · intro x hx
    have hx' := h2 x hx
    have hlt : x < t.vertexSelectStatus.length := by
      by_contra hn
      rw [List.getElem?_eq_none (not_lt.1 hn)] at hx'
      cases hx'
    show (t.vertexSelectStatus.set v true)[x]? = some true
    by_cases hxv : x = v
    · subst hxv
      simp [List.getElem?_set_self, hlt]
    · have hne : v ≠ x := fun h => hxv h.symm
      simp [List.getElem?_set_ne hne, hx']
  · intro x l hl
    obtain ⟨l', hl'⟩ := h4 x l hl
    show ∃ l'', (t.tree.set u (treeU ++ [(v, w)]))[x]? = some (l ++ l'')
    by_cases hxu : x = u
    · subst hxu
      rw [htu] at hl'
      injection hl' with hl'
      subst hl'
      have hlt : x < t.tree.length := by
        by_contra hn
        rw [List.getElem?_eq_none (not_lt.1 hn)] at htu
        cases htu
      refine ⟨l' ++ [(v, w)], ?_⟩
      rw [List.getElem?_set_self hlt, List.append_assoc]
    · have hne : u ≠ x := fun h => hxu h.symm
      exact ⟨l', by rw [List.getElem?_set_ne hne]; exact hl'⟩

/-- Whatever the state it is called on, a call of the expansion procedure that
returns has only added. -/
theorem primAlgorithmOnAComponet_frame (pq : EdgeQueue) (graph : Graph) (fuel : Nat)
    (s s' : PrimState pq) (h : primAlgorithmOnAComponet pq graph fuel s = .ok s') :
    OnlyAdds s s' :=
  primAlgorithmOnAComponet_rule pq graph (OnlyAdds s) (OnlyAdds s)
    (fun _ h _ => h)
    (fun _ _ _ _ q' h _ _ _ => h.drop q')
    (fun _ u v w q' treeU h _ _ _ htu _ => h.absorb_state u v w treeU htu q')
    (fun _ u v w _ treeU _ q'' h _ _ _ htu _ _ _ => h.absorb_state u v w treeU htu q'')
    fuel s s' h (OnlyAdds.refl_state s)

/-- Called on a well-formed state with fuel above the number of entries in the
frontier and in the adjacency lists of the unvisited vertices, the expansion
procedure returns a state. -/
theorem WellFormed.returns {pq : EdgeQueue} {graph : Graph} :
    ∀ (fuel : Nat) (s : PrimState pq), WellFormed pq graph s →
      (pq.toList s.edgeQueue).length + unvisitedDegree s.vertexSelectStatus graph < fuel →
      ∃ s', primAlgorithmOnAComponet pq graph fuel s = .ok s' := by
  intro fuel
  induction fuel with
  | zero => intro s _ h; omega
  | succ fuel ih =>
    intro s wf hfuel
    by_cases hemp : pq.isEmpty s.edgeQueue = true
    · exact ⟨s, primAlgorithmOnAComponet_done pq graph fuel s hemp⟩
    · have hne : pq.toList s.edgeQueue ≠ [] := fun h => hemp ((pq.isEmpty_iff _).2 h)
      have hemp' : pq.isEmpty s.edgeQueue = false := by simpa using hemp
      cases hpop : pq.pop s.edgeQueue with
      | none => exact absurd ((pq.pop_none_iff _).1 hpop) hne
      | some p =>
        obtain ⟨⟨u, v, w⟩, q'⟩ := p
        have hperm := pq.pop_perm _ _ _ hpop
        have hlen : (pq.toList s.edgeQueue).length = (pq.toList q').length + 1 := by
          rw [hperm.length_eq]; rfl
        have hmem : (u, v, w) ∈ pq.toList s.edgeQueue :=
          hperm.mem_iff.2 (List.mem_cons_self _ _)
        obtain ⟨hult, hvlt⟩ := wf.queue _ hmem
        have hq' : ∀ e ∈ pq.toList q', e.1 < graph.length ∧ e.2.1 < graph.length :=
          fun e he => wf.queue e (hperm.mem_iff.2 (List.mem_cons_of_mem _ he))
        obtain ⟨b, hvget⟩ : ∃ b, s.vertexSelectStatus[v]? = some b :=
          ⟨_, List.getElem?_eq_getElem (by rw [wf.vis_length]; exact hvlt)⟩
        cases b with
        | true =>
          rw [primAlgorithmOnAComponet_stale pq graph fuel s hemp' hpop hvget]
          exact ih _ ⟨wf.valid, wf.vis_length, wf.tree_length, hq'⟩ (by simp only []; omega)
        | false =>
          obtain ⟨treeU, huget⟩ : ∃ l, s.tree[u]? = some l :=
            ⟨_, List.getElem?_eq_getElem (by rw [wf.tree_length]; exact hult)⟩
          by_cases hc : s.selectedVertexCount + 1 < graph.length
          · obtain ⟨adjacency, hgget⟩ : ∃ a, graph[v]? = some a :=
              ⟨_, List.getElem?_eq_getElem hvlt⟩
            have hadj := adj_of_getElem? hgget
            have hall : ∀ e ∈ adjacency, e.1 < (s.vertexSelectStatus.set v true).length := by
              intro e he
              rw [List.length_set, wf.vis_length]
              exact wf.valid.adj_lt (hadj ▸ he)
            obtain ⟨q'', hq1, hq2⟩ :=
              enqueueUnselected_ok pq v (s.vertexSelectStatus.set v true) adjacency q' hall
            rw [primAlgorithmOnAComponet_absorb pq graph fuel s hemp' hpop hvget huget hc
              hgget hq1]
            refine ih _ ⟨wf.valid, by simp only [List.length_set]; exact wf.vis_length,
              by simp only [List.length_set]; exact wf.tree_length, ?_⟩ ?_
            · intro e he
              rcases List.mem_append.1 (hq2.mem_iff.1 he) with h1 | h1
              · obtain ⟨a, ha, rfl⟩ := List.mem_map.1 h1
                exact ⟨hvlt, wf.valid.adj_lt (hadj ▸ (List.mem_filter.1 ha).1)⟩
              · exact hq' e h1
            · simp only []
              have h1 := unvisitedDegree_set _ graph v _ hvget hgget
              have h2 := enqueueUnselected_length pq v _ adjacency q' q'' hq1
              omega
          · exact ⟨_, primAlgorithmOnAComponet_last pq graph fuel s hemp' hpop hvget huget hc⟩

/-- C18 (the expansion procedure only adds): called on a well-formed state, the
expansion procedure returns a state, the same for every amount of fuel above
the number of entries in the frontier and in the adjacency lists of the
unvisited vertices; in the returned state every vertex marked visited before
is still marked visited, every forest entry extends the same entry before by
appended pairs, both vectors keep their length, and `selectedVertexCount` has
not decreased. -/
theorem primAlgorithmOnAComponet_only_adds (pq : EdgeQueue) (graph : Graph)
    (s : PrimState pq) (hwf : WellFormed pq graph s) :
    ∃ s', (∀ fuel,
        (pq.toList s.edgeQueue).length + unvisitedDegree s.vertexSelectStatus graph < fuel →
        primAlgorithmOnAComponet pq graph fuel s = .ok s') ∧
      s'.vertexSelectStatus.length = s.vertexSelectStatus.length ∧
      (∀ v : Nat, s.vertexSelectStatus[v]? = some true →
        s'.vertexSelectStatus[v]? = some true) ∧
      s'.tree.length = s.tree.length ∧
      (∀ (u : Nat) (l : List WeightedEdge), s.tree[u]? = some l →
        ∃ l', s'.tree[u]? = some (l ++ l')) ∧
      s.selectedVertexCount ≤ s'.selectedVertexCount := by
  obtain ⟨s', hrun⟩ := WellFormed.returns _ s hwf (Nat.lt_succ_self _)
  exact ⟨s', fun fuel hfuel => primAlgorithmOnAComponet_fuel_le pq graph hfuel hrun,
    primAlgorithmOnAComponet_frame pq graph _ s s' hrun⟩

/-- The state of the run on the two-vertex graph after seeding from vertex 0 is
well-formed. -/
theorem twoVertices_wellFormed :
    WellFormed listQueue [[(1, 5)], [(0, 5)]] ⟨[(0, 1, 5)], 1, [true, false], [[], []]⟩ :=
  ⟨twoVertices_valid, rfl, rfl, by
    intro e he
    have : e = (0, 1, 5) := by simpa [listQueue] using he
    subst this
    exact ⟨by decide, by decide⟩⟩

/-- Witness of C18: the call made by the run on the two-vertex graph. -/
theorem primAlgorithmOnAComponet_only_adds_witness :
    WellFormed listQueue [[(1, 5)], [(0, 5)]] ⟨[(0, 1, 5)], 1, [true, false], [[], []]⟩ ∧
    ∃ s' : PrimState listQueue, (∀ fuel,
        (listQueue.toList [(0, 1, 5)]).length +
          unvisitedDegree [true, false] [[(1, 5)], [(0, 5)]] < fuel →
        primAlgorithmOnAComponet listQueue [[(1, 5)], [(0, 5)]] fuel
          ⟨[(0, 1, 5)], 1, [true, false], [[], []]⟩ = .ok s') ∧
      s'.vertexSelectStatus.length = [true, false].length ∧
      (∀ v : Nat, [true, false][v]? = some true → s'.vertexSelectStatus[v]? = some true) ∧
      s'.tree.length = ([[], []] : List (List WeightedEdge)).length ∧
      (∀ (u : Nat) (l : List WeightedEdge),
        ([[], []] : List (List WeightedEdge))[u]? = some l →
        ∃ l', s'.tree[u]? = some (l ++ l')) ∧
      1 ≤ s'.selectedVertexCount :=
  ⟨twoVertices_wellFormed,
    primAlgorithmOnAComponet_only_adds listQueue [[(1, 5)], [(0, 5)]]
      ⟨[(0, 1, 5)], 1, [true, false], [[], []]⟩ twoVertices_wellFormed⟩

/-! ## Early termination is only a short-circuit -/

theorem primAlgorithmOnAComponetNoShortCircuit_done (pq : EdgeQueue) (graph : Graph)
    (fuel : Nat) (s : PrimState pq) (h : pq.isEmpty s.edgeQueue = true) :
    primAlgorithmOnAComponetNoShortCircuit pq graph (fuel + 1) s = .ok s := by
  rw [primAlgorithmOnAComponetNoShortCircuit, if_pos h]

theorem primAlgorithmOnAComponetNoShortCircuit_stale (pq : EdgeQueue) (graph : Graph)
    (fuel : Nat) (s : PrimState pq) {u v : Nat} {w : Int} {q' : pq.Q}
    (hne : pq.isEmpty s.edgeQueue = false) (hpop : pq.pop s.edgeQueue = some ((u, v, w), q'))
    (hvis : s.vertexSelectStatus[v]? = some true) :
    primAlgorithmOnAComponetNoShortCircuit pq graph (fuel + 1) s =
      primAlgorithmOnAComponetNoShortCircuit pq graph fuel { s with edgeQueue := q' } := by
  rw [primAlgorithmOnAComponetNoShortCircuit]
  simp only [hne, hpop, hvis, Bool.false_eq_true, if_false]

theorem primAlgorithmOnAComponetNoShortCircuit_absorb (pq : EdgeQueue) (graph : Graph)
    (fuel : Nat) (s : PrimState pq) {u v : Nat} {w : Int} {q' q'' : pq.Q}
    {treeU adjacency : List WeightedEdge}
    (hne : pq.isEmpty s.edgeQueue = false) (hpop : pq.pop s.edgeQueue = some ((u, v, w), q'))
    (hvis : s.vertexSelectStatus[v]? = some false) (htree : s.tree[u]? = some treeU)
    (hadj : graph[v]? = some adjacency)
    (hscan : enqueueUnselected pq v (s.vertexSelectStatus.set v true) adjacency q' = .ok q'') :
    primAlgorithmOnAComponetNoShortCircuit pq graph (fuel + 1) s =
      primAlgorithmOnAComponetNoShortCircuit pq graph fuel
        ⟨q'', s.selectedVertexCount + 1, s.vertexSelectStatus.set v true,
          s.tree.set u (treeU ++ [(v, w)])⟩ := by
  rw [primAlgorithmOnAComponetNoShortCircuit]
  simp only [hne, hpop, hvis, htree, hadj, hscan, Bool.false_eq_true, if_false]

/-- Once every target in the frontier is visited, the variant only empties the
frontier. -/
theorem primAlgorithmOnAComponetNoShortCircuit_drain (pq : EdgeQueue) (graph : Graph) :
    ∀ (fuel : Nat) (s : PrimState pq),
      (∀ e ∈ pq.toList s.edgeQueue, s.vertexSelectStatus[e.2.1]? = some true) →
      (pq.toList s.edgeQueue).length < fuel →
      ∃ q, primAlgorithmOnAComponetNoShortCircuit pq graph fuel s =
        .ok { s with edgeQueue := q } := by
  intro fuel
  induction fuel with
  | zero => intro s _ h; omega
  | succ fuel ih =>
    intro s hall hfuel
    by_cases hemp : pq.isEmpty s.edgeQueue = true
    · exact ⟨s.edgeQueue, primAlgorithmOnAComponetNoShortCircuit_done pq graph fuel s hemp⟩
    · have hne : pq.toList s.edgeQueue ≠ [] := fun h => hemp ((pq.isEmpty_iff _).2 h)
      have hemp' : pq.isEmpty s.edgeQueue = false := by simpa using hemp
      cases hpop : pq.pop s.edgeQueue with
      | none => exact absurd ((pq.pop_none_iff _).1 hpop) hne
      | some p =>
        obtain ⟨⟨u, v, w⟩, q'⟩ := p
        have hperm := pq.pop_perm _ _ _ hpop
        have hlen : (pq.toList s.edgeQueue).length = (pq.toList q').length + 1 := by
          rw [hperm.length_eq]; rfl
        have hvis : s.vertexSelectStatus[v]? = some true :=
          hall (u, v, w) (hperm.mem_iff.2 (List.mem_cons_self _ _))
        rw [primAlgorithmOnAComponetNoShortCircuit_stale pq graph fuel s hemp' hpop hvis]
        obtain ⟨q, hq⟩ := ih { s with edgeQueue := q' }
          (fun e he => hall e (hperm.mem_iff.2 (List.mem_cons_of_mem _ he)))
          (by simp only []; omega)
        exact ⟨q, hq⟩

/-- On a state of the run the expansion procedure and its variant return the same
count, marks and forest; only the frontiers left behind may differ. -/
theorem primAlgorithmOnAComponetNoShortCircuit_spec (pq : EdgeQueue) (graph : Graph)
    (hv : IndexValid graph) :
    ∀ (fuel : Nat) (s : PrimState pq) (bs : List (Nat × List EdgeQueueElement)) (r : Nat)
      (es : List EdgeQueueElement), ExpansionInv pq graph bs r es s →
      (pq.toList s.edgeQueue).length + unvisitedDegree s.vertexSelectStatus graph < fuel →
      ∃ s' q, primAlgorithmOnAComponet pq graph fuel s = .ok s' ∧
        primAlgorithmOnAComponetNoShortCircuit pq graph fuel s =
          .ok { s' with edgeQueue := q } := by
  intro fuel
  induction fuel with
  | zero => intro s bs r es _ h; omega
  | succ fuel ih =>
    intro s bs r es inv hfuel
    by_cases hemp : pq.isEmpty s.edgeQueue = true
    · exact ⟨s, s.edgeQueue, primAlgorithmOnAComponet_done pq graph fuel s hemp,
        primAlgorithmOnAComponetNoShortCircuit_done pq graph fuel s hemp⟩
    · have hne : pq.toList s.edgeQueue ≠ [] := fun h => hemp ((pq.isEmpty_iff _).2 h)
      have hemp' : pq.isEmpty s.edgeQueue = false := by simpa using hemp
      cases hpop : pq.pop s.edgeQueue with
      | none => exact absurd ((pq.pop_none_iff _).1 hpop) hne
      | some p =>
        obtain ⟨⟨u, v, w⟩, q'⟩ := p
        have hperm := pq.pop_perm _ _ _ hpop
        have hlen : (pq.toList s.edgeQueue).length = (pq.toList q').length + 1 := by
          rw [hperm.length_eq]; rfl
        have hmem : (u, v, w) ∈ pq.toList s.edgeQueue :=
          hperm.mem_iff.2 (List.mem_cons_self _ _)
        have hq := inv.queue _ hmem
        have hvlt : v < graph.length := hv.adj_lt hq.2
        have hult : u < graph.length :=
          inv.hist.lt_of_mem (mem_vertsOf_cons.2 (Or.inl hq.1))
        obtain ⟨b, hvget⟩ : ∃ b, s.vertexSelectStatus[v]? = some b :=
          ⟨_, List.getElem?_eq_getElem (by rw [inv.hist.vis_length]; exact hvlt)⟩
        cases b with
        | true =>
          rw [primAlgorithmOnAComponet_stale pq graph fuel s hemp' hpop hvget,
            primAlgorithmOnAComponetNoShortCircuit_stale pq graph fuel s hemp' hpop hvget]
          exact ih _ bs r es (inv.stale hpop hvget) (by simp only []; omega)
        | false =>
          obtain ⟨treeU, huget⟩ : ∃ l, s.tree[u]? = some l :=
            ⟨_, List.getElem?_eq_getElem (by rw [inv.hist.tree_length]; exact hult)⟩
          obtain ⟨adjacency, hgget⟩ : ∃ a, graph[v]? = some a :=
            ⟨_, List.getElem?_eq_getElem hvlt⟩
          have hadj := adj_of_getElem? hgget
          have hall : ∀ e ∈ adjacency, e.1 < (s.vertexSelectStatus.set v true).length := by
            intro e he
            rw [List.length_set, inv.hist.vis_length]
            exact hv.adj_lt (hadj ▸ he)
          obtain ⟨q'', hq1, hq2⟩ :=
            enqueueUnselected_ok pq v (s.vertexSelectStatus.set v true) adjacency q' hall
          have h1 := unvisitedDegree_set _ graph v _ hvget hgget
          have h2 := enqueueUnselected_length pq v _ adjacency q' q'' hq1
          rw [primAlgorithmOnAComponetNoShortCircuit_absorb pq graph fuel s hemp' hpop hvget
            huget hgget hq1]
          by_cases hc : s.selectedVertexCount + 1 < graph.length
          · rw [primAlgorithmOnAComponet_absorb pq graph fuel s hemp' hpop hvget huget hc
              hgget hq1]
            rw [← hadj] at hq2
            exact ih _ bs r _ (inv.absorb_inv hv hpop hvget huget hq2)
              (by simp only []; omega)
          · rw [primAlgorithmOnAComponet_last pq graph fuel s hemp' hpop hvget huget hc]
            have hist := inv.hist.absorb_hist w hvget huget
            have hvisited : ∀ x, x < graph.length →
                (s.vertexSelectStatus.set v true)[x]? = some true :=
              fun x hx => (hist.vis_iff x).2 (hist.all_of_count hc x hx)
            obtain ⟨q, hq⟩ := primAlgorithmOnAComponetNoShortCircuit_drain pq graph fuel
              ⟨q'', s.selectedVertexCount + 1, s.vertexSelectStatus.set v true,
                s.tree.set u (treeU ++ [(v, w)])⟩
              (by
                intro e he
                apply hvisited
                rcases List.mem_append.1 (hq2.mem_iff.1 he) with h3 | h3
                · obtain ⟨a, ha, rfl⟩ := List.mem_map.1 h3
                  exact hv.adj_lt (hadj ▸ (List.mem_filter.1 ha).1)
                · exact hv.adj_lt
                    (inv.queue e (hperm.mem_iff.2 (List.mem_cons_of_mem _ h3))).2)
              (by simp only []; omega)
            exact ⟨_, q, rfl, hq⟩

theorem driverLoopNoShortCircuit_skip (pq : EdgeQueue) (graph : Graph) (i : Nat)
    (rest : List Nat) (cnt : Nat) (vis : List Bool) (tree : List (List WeightedEdge))
    (hvis : vis[i]? = some true) :
    driverLoopNoShortCircuit pq graph (i :: rest) cnt vis tree =
      driverLoopNoShortCircuit pq graph rest cnt vis tree := by
  rw [driverLoopNoShortCircuit]
  simp only [hvis]

theorem driverLoopNoShortCircuit_seed (pq : EdgeQueue) (graph : Graph) (i : Nat)
    (rest : List Nat) (cnt : Nat) (vis : List Bool) (tree : List (List WeightedEdge))
    {adjacency : List WeightedEdge} {q : pq.Q} {s' : PrimState pq}
    (hvis : vis[i]? = some false) (hadj : graph[i]? = some adjacency)
    (hscan : enqueueUnselected pq i (vis.set i true) adjacency pq.empty = .ok q)
    (hexp : (if ¬ pq.isEmpty q = true then
        primAlgorithmOnAComponetNoShortCircuit pq graph (expansionFuel graph)
          ⟨q, cnt + 1, vis.set i true, tree⟩
      else .ok ⟨q, cnt + 1, vis.set i true, tree⟩) = .ok s') :
    driverLoopNoShortCircuit pq graph (i :: rest) cnt vis tree =
      driverLoopNoShortCircuit pq graph rest s'.selectedVertexCount s'.vertexSelectStatus
        s'.tree := by
  rw [driverLoopNoShortCircuit]
  simp only [hvis, hadj, hscan, hexp]

/-- Over indices that are all visited the driver loop of the variant does nothing. -/
theorem driverLoopNoShortCircuit_visited (pq : EdgeQueue) (graph : Graph) (cnt : Nat)
    (vis : List Bool) (tree : List (List WeightedEdge)) :
    ∀ (is : List Nat), (∀ i ∈ is, vis[i]? = some true) →
      driverLoopNoShortCircuit pq graph is cnt vis tree = .ok tree
  | [], _ => rfl
  | i :: rest, h => by
    rw [driverLoopNoShortCircuit_skip pq graph i rest cnt vis tree
      (h i (List.mem_cons_self _ _))]
    exact driverLoopNoShortCircuit_visited pq graph cnt vis tree rest
      (fun j hj => h j (List.mem_cons_of_mem _ hj))

/-- From any state of the run at the head of the driver loop, the driver loop
and its variant return the same forest. -/
theorem driverLoopNoShortCircuit_spec (pq : EdgeQueue) (graph : Graph)
    (hv : IndexValid graph) :
    ∀ (k i : Nat) (bs : List (Nat × List EdgeQueueElement)) (cnt : Nat) (vis : List Bool)
      (tree : List (List WeightedEdge)), i + k = graph.length →
      DriverInv graph bs cnt vis tree → (∀ v < i, v ∈ vertsOf bs) →
      ∃ forest, driverLoop pq graph (List.range' i k) cnt vis tree = .ok forest ∧
        driverLoopNoShortCircuit pq graph (List.range' i k) cnt vis tree = .ok forest := by
  intro k
  induction k with
  | zero =>
    intro i bs cnt vis tree _ _ _
    exact ⟨tree, rfl, rfl⟩
  | succ k ih =>
    intro i bs cnt vis tree hik inv hbelow
    have hilt : i < graph.length := by omega
    rw [List.range'_succ]
    obtain ⟨b, hget⟩ : ∃ b, vis[i]? = some b :=
      ⟨_, List.getElem?_eq_getElem (by rw [inv.hist.vis_length]; exact hilt)⟩
    cases b with
    | true =>
      rw [driverLoop_skip pq graph i _ cnt vis tree hget,
        driverLoopNoShortCircuit_skip pq graph i _ cnt vis tree hget]
      refine ih (i + 1) bs cnt vis tree (by omega) inv ?_
      intro v hvlt
      rcases Nat.lt_succ_iff_lt_or_eq.1 hvlt with h | h
      · exact hbelow v h
      · subst h
        exact (inv.hist.vis_iff v).1 hget
    | false =>
      obtain ⟨adjacency, hgget⟩ : ∃ a, graph[i]? = some a :=
        ⟨_, List.getElem?_eq_getElem hilt⟩
      have hadj := adj_of_getElem? hgget
      have hall : ∀ e ∈ adjacency, e.1 < (vis.set i true).length := by
        intro e he
        rw [List.length_set, inv.hist.vis_length]
        exact hv.adj_lt (hadj ▸ he)
      obtain ⟨q, hq1, hq2⟩ :=
        enqueueUnselected_ok pq i (vis.set i true) adjacency pq.empty hall
      rw [← hadj] at hq2
      have einv : ExpansionInv pq graph bs i [] ⟨q, cnt + 1, vis.set i true, tree⟩ :=
        inv.seed_inv hget hbelow hq2
      have hexp : ∃ s' q',
          (if ¬ pq.isEmpty q = true then
            primAlgorithmOnAComponet pq graph (expansionFuel graph)
              ⟨q, cnt + 1, vis.set i true, tree⟩
          else .ok ⟨q, cnt + 1, vis.set i true, tree⟩) = .ok s' ∧
          (if ¬ pq.isEmpty q = true then
            primAlgorithmOnAComponetNoShortCircuit pq graph (expansionFuel graph)
              ⟨q, cnt + 1, vis.set i true, tree⟩
          else .ok ⟨q, cnt + 1, vis.set i true, tree⟩) =
            .ok { s' with edgeQueue := q' } := by
        by_cases hemp : pq.isEmpty q = true
        · rw [if_neg (not_not.2 hemp), if_neg (not_not.2 hemp)]
          exact ⟨_, q, rfl, rfl⟩
        · rw [if_pos hemp, if_pos hemp]
          apply primAlgorithmOnAComponetNoShortCircuit_spec pq graph hv _ _ bs i [] einv
          simp only [expansionFuel]
          have h1 := unvisitedDegree_set _ graph i _ hget hgget
          have h2 := enqueueUnselected_length pq i _ adjacency pq.empty q hq1
          have h4 := unvisitedDegree_le vis graph
          rw [pq.toList_empty] at h2
          simp only [List.length_nil] at h2
          omega
      obtain ⟨s', q', horig, hvar⟩ := hexp
      obtain ⟨es', dinv⟩ := inv.after_expansion hv hget hbelow hgget hq1 horig
      rw [driverLoop_seed pq graph i _ cnt vis tree hget hgget hq1 horig,
        driverLoopNoShortCircuit_seed pq graph i _ cnt vis tree hget hgget hq1 hvar]
      by_cases hc : s'.selectedVertexCount < graph.length
      · rw [if_neg (not_not.2 hc)]
        refine ih (i + 1) ((i, es') :: bs) _ _ _ (by omega) dinv ?_
        intro v hvlt
        rcases Nat.lt_succ_iff_lt_or_eq.1 hvlt with h | h
        · exact mem_vertsOf_cons.2 (Or.inr (hbelow v h))
        · subst h
          exact mem_vertsOf_cons.2 (Or.inl (List.mem_cons_self _ _))
      · rw [if_pos hc]
        refine ⟨s'.tree, rfl, ?_⟩
        apply driverLoopNoShortCircuit_visited
        intro j hj
        have hjlt : j < graph.length := by
          have := (List.mem_range'_1.1 hj).2
          omega
        exact (dinv.hist.vis_iff j).2 (dinv.hist.all_of_count hc j hjlt)

/-- Without index validity the two differ: on the graph whose out-of-range entry
the early return hides, the variant scans that entry and fails. -/
theorem primAlgorithmNoShortCircuit_outOfRange :
    primAlgorithmNoShortCircuit listQueue [[(1, 1)], [(0, 1), (7, 2)]] =
      .error .outOfRange := rfl

/-- C14 (early termination is only a short-circuit): on an index-valid graph
`primAlgorithm` returns a forest, and the variant with both early-termination
checks removed (the return after an absorption once `selectedVertexCount`
reaches `graph.size()`, and the break in the driver loop) returns exactly the
same forest. -/
theorem primAlgorithm_short_circuit (pq : EdgeQueue) (graph : Graph)
    (hv : IndexValid graph) :
    ∃ forest, primAlgorithm pq graph = .ok forest ∧
      primAlgorithmNoShortCircuit pq graph = .ok forest := by
  rw [primAlgorithm, primAlgorithmNoShortCircuit, List.range_eq_range']
  apply driverLoopNoShortCircuit_spec pq graph hv graph.length 0 [] 0 _ _ (by simp)
  · refine ⟨⟨by simp, by simp, ?_, by simp [vertsOf], by simp [vertsOf], ?_⟩, trivial⟩
    · intro v
      simp only [vertsOf, List.not_mem_nil, iff_false]
      intro h
      rw [List.getElem?_replicate] at h
      split at h <;> cases h
    · simp [forestEdges, forestEdgesFrom_replicate, allEdges]
  · intro v h
    omega

/-- Witness of C14: the disconnected example. -/
theorem primAlgorithm_short_circuit_witness :
    IndexValid disconnectedExample ∧
    ∃ forest, primAlgorithm listQueue disconnectedExample = .ok forest ∧
      primAlgorithmNoShortCircuit listQueue disconnectedExample = .ok forest :=
  ⟨disconnectedExample_valid,
    primAlgorithm_short_circuit listQueue disconnectedExample disconnectedExample_valid⟩

/-! ## The program points are those of the procedures -/

/-- The extraction loop run from a head that the run reaches passes through heads
that the run reaches: it returns at such a head with an empty frontier, or right
after the absorption that brings the count to the number of vertices. -/
theorem Reachable.expansion_exit {pq : EdgeQueue} {graph : Graph} (fuel : Nat)
    (s s' : PrimState pq) (hr : Reachable pq graph (.expansion s))
    (h : primAlgorithmOnAComponet pq graph fuel s = .ok s') :
    (Reachable pq graph (.expansion s') ∧ pq.isEmpty s'.edgeQueue = true) ∨
    ∃ (t : PrimState pq) (u v : Nat) (w : Int) (q' : pq.Q) (treeU : List WeightedEdge),
      Reachable pq graph (.expansion t) ∧ pq.pop t.edgeQueue = some ((u, v, w), q') ∧
      t.vertexSelectStatus[v]? = some false ∧ t.tree[u]? = some treeU ∧
      ¬ t.selectedVertexCount + 1 < graph.length ∧
      s' = ⟨q', t.selectedVertexCount + 1, t.vertexSelectStatus.set v true,
        t.tree.set u (treeU ++ [(v, w)])⟩ :=
  primAlgorithmOnAComponet_rule pq graph (fun t => Reachable pq graph (.expansion t))
    (fun s' => (Reachable pq graph (.expansion s') ∧ pq.isEmpty s'.edgeQueue = true) ∨
      ∃ (t : PrimState pq) (u v : Nat) (w : Int) (q' : pq.Q) (treeU : List WeightedEdge),
        Reachable pq graph (.expansion t) ∧ pq.pop t.edgeQueue = some ((u, v, w), q') ∧
        t.vertexSelectStatus[v]? = some false ∧ t.tree[u]? = some treeU ∧
        ¬ t.selectedVertexCount + 1 < graph.length ∧
        s' = ⟨q', t.selectedVertexCount + 1, t.vertexSelectStatus.set v true,
          t.tree.set u (treeU ++ [(v, w)])⟩)
    (fun _ hP hemp => Or.inl ⟨hP, hemp⟩)
    (fun _ _ _ _ _ hP hemp hpop hvis => hP.stale hemp hpop hvis)
    (fun t u v w q' treeU hP _ hpop hvis htu hc =>
      Or.inr ⟨t, u, v, w, q', treeU, hP, hpop, hvis, htu, hc, rfl⟩)
    (fun _ _ _ _ _ _ _ _ hP hemp hpop hvis htu hc hgv hscan =>
      hP.absorb hemp hpop hvis htu hc hgv hscan)
    fuel s s' h hr

end graphLibrary
